import Mathlib

/-!
# Shallow embeddings of programs of the burtle repository

The first and largest part embeds `SpookyAlpha.h` / `SpookyAlpha.c`; the namespaces
`MixCipher` (`mix.c`), `Checksum` (`checksum.c`), `Zorba` (`zorba.c`) and `Gauss`
(`gauss.c`, `bit.c`) embed the other programs.  Definitions come first, theorems after.

## SpookyAlpha

Machine words (`uint64_t`) are natural numbers reduced modulo `2^64` after every
operation that can overflow; `uint8_t` values are reduced modulo `2^8`.  Memory
(`const void *message`, `state->data`, the local `buf`) is a list of bytes, a pointer
into a buffer is the suffix of the list that starts at the pointed byte, and an
aligned or unaligned 8-byte read is little-endian, as the header assumes.
-/

namespace SpookyAlpha

/-- One byte of memory (`uint8_t`). -/
abbrev Byte := Fin 256

/-- The modulus of `uint64_t` arithmetic. -/
abbrev W64 : Nat := 2 ^ 64

/-- Source: `#define BLOCKSIZE 96`. -/
abbrev BLOCKSIZE : Nat := 96

/-- Source: `static const uint64_t m = 0xba6b2ad56aad55c5LL;` -/
abbrev m : Nat := 0xba6b2ad56aad55c5

/-- Source: `static const uint64_t m1 = 0xba6b2ad56aad55c5LL;` -/
abbrev m1 : Nat := 0xba6b2ad56aad55c5

/-- Source: `static const uint64_t m2 = 0x729ba0e7afa49347LL;` -/
abbrev m2 : Nat := 0x729ba0e7afa49347

/-- Source: `#define rot64(x,k) (((x)<<(k)) | ((x)>>(64-(k))))` on a 64-bit word. -/
def rot64 (x k : Nat) : Nat := ((x <<< k) % W64) ||| (x >>> (64 - k))

/-- The byte at offset `i` from the pointer `p` (`((uint8_t *)p)[i]`), as a number. -/
def byteAt (p : List Byte) (i : Nat) : Nat := (p.getD i 0).val

/-- The 64-bit word `((uint64_t *)p)[i]`: eight bytes from offset `8*i`, little-endian. -/
def read64 (p : List Byte) (i : Nat) : Nat :=
  byteAt p (8 * i) + byteAt p (8 * i + 1) * 2 ^ 8 + byteAt p (8 * i + 2) * 2 ^ 16
    + byteAt p (8 * i + 3) * 2 ^ 24 + byteAt p (8 * i + 4) * 2 ^ 32
    + byteAt p (8 * i + 5) * 2 ^ 40 + byteAt p (8 * i + 6) * 2 ^ 48
    + byteAt p (8 * i + 7) * 2 ^ 56

/-- Source: `memcpy(dst + off, src, n)`: the destination buffer after the copy. -/
def memcpy (dst : List Byte) (off : Nat) (src : List Byte) (n : Nat) : List Byte :=
  dst.take off ++ src.take n ++ dst.drop (off + n)

/-- Source: `memset(dst + off, c, n)`: the destination buffer after the fill. -/
def memset (dst : List Byte) (off : Nat) (c : Byte) (n : Nat) : List Byte :=
  dst.take off ++ List.replicate n c ++ dst.drop (off + n)

/-- The twelve 64-bit variables `h0 .. h11` (also `uint64_t state[12]`). -/
structure Lanes where
  h0 : Nat
  h1 : Nat
  h2 : Nat
  h3 : Nat
  h4 : Nat
  h5 : Nat
  h6 : Nat
  h7 : Nat
  h8 : Nat
  h9 : Nat
  h10 : Nat
  h11 : Nat
  deriving DecidableEq

/-- The macro `SpookyMix(data,h0,...,h11)`: twelve lines of five assignments each. -/
def SpookyMix (data : List Byte) (s : Lanes) : Lanes :=
  let h0 := s.h0; let h1 := s.h1; let h2 := s.h2; let h3 := s.h3
  let h4 := s.h4; let h5 := s.h5; let h6 := s.h6; let h7 := s.h7
  let h8 := s.h8; let h9 := s.h9; let h10 := s.h10; let h11 := s.h11
  let h0 := (h0 + read64 data 0) % W64; let h11 := rot64 h11 32; let h9 := h9 ^^^ h1
  let h11 := (h11 + h10) % W64; let h1 := (h1 + h10) % W64
  let h1 := (h1 + read64 data 1) % W64; let h0 := rot64 h0 41; let h10 := h10 ^^^ h2
  let h0 := (h0 + h11) % W64; let h2 := (h2 + h11) % W64
  let h2 := (h2 + read64 data 2) % W64; let h1 := rot64 h1 12; let h11 := h11 ^^^ h3
  let h1 := (h1 + h0) % W64; let h3 := (h3 + h0) % W64
  let h3 := (h3 + read64 data 3) % W64; let h2 := rot64 h2 24; let h0 := h0 ^^^ h4
  let h2 := (h2 + h1) % W64; let h4 := (h4 + h1) % W64
  let h4 := (h4 + read64 data 4) % W64; let h3 := rot64 h3 8; let h1 := h1 ^^^ h5
  let h3 := (h3 + h2) % W64; let h5 := (h5 + h2) % W64
  let h5 := (h5 + read64 data 5) % W64; let h4 := rot64 h4 42; let h2 := h2 ^^^ h6
  let h4 := (h4 + h3) % W64; let h6 := (h6 + h3) % W64
  let h6 := (h6 + read64 data 6) % W64; let h5 := rot64 h5 32; let h3 := h3 ^^^ h7
  let h5 := (h5 + h4) % W64; let h7 := (h7 + h4) % W64
  let h7 := (h7 + read64 data 7) % W64; let h6 := rot64 h6 13; let h4 := h4 ^^^ h8
  let h6 := (h6 + h5) % W64; let h8 := (h8 + h5) % W64
  let h8 := (h8 + read64 data 8) % W64; let h7 := rot64 h7 30; let h5 := h5 ^^^ h9
  let h7 := (h7 + h6) % W64; let h9 := (h9 + h6) % W64
  let h9 := (h9 + read64 data 9) % W64; let h8 := rot64 h8 20; let h6 := h6 ^^^ h10
  let h8 := (h8 + h7) % W64; let h10 := (h10 + h7) % W64
  let h10 := (h10 + read64 data 10) % W64; let h9 := rot64 h9 47; let h7 := h7 ^^^ h11
  let h9 := (h9 + h8) % W64; let h11 := (h11 + h8) % W64
  let h11 := (h11 + read64 data 11) % W64; let h10 := rot64 h10 16; let h8 := h8 ^^^ h0
  let h10 := (h10 + h9) % W64; let h0 := (h0 + h9) % W64
  { h0 := h0, h1 := h1, h2 := h2, h3 := h3, h4 := h4, h5 := h5,
    h6 := h6, h7 := h7, h8 := h8, h9 := h9, h10 := h10, h11 := h11 }

/-- The three lines `h0=h3=h6=h9 = a * m; h1=h4=h7=h10 = b * m; h2=h5=h8=h11 = m;`
that start `SpookyHash` and the short-length branches of `SpookyUpdate` and
`SpookyFinal`. -/
def primeLanes (a b : Nat) : Lanes :=
  let x := a * m % W64
  let y := b * m % W64
  { h0 := x, h1 := y, h2 := m, h3 := x, h4 := y, h5 := m,
    h6 := x, h7 := y, h8 := m, h9 := x, h10 := y, h11 := m }

/-- The loop `for (; data < end; data += 12) { SpookyMix(data, h0..h11); }` with
`end - data = 12 * n` words, i.e. `n` iterations over consecutive 96-byte blocks. -/
def mixBlocks : Nat → List Byte → Lanes → Lanes
  | 0, _, h => h
  | n + 1, data, h => mixBlocks n (data.drop BLOCKSIZE) (SpookyMix data h)

/-- The one 16-byte round of the `ShortHash` loop body. -/
def shortRound (data : List Byte) (h : Nat × Nat) : Nat × Nat :=
  let h0 := h.1; let h1 := h.2
  let h0 := rot64 h0 32 * m1 % W64
  let temp := read64 data 0 * m1 % W64
  let temp := rot64 temp 32 * m2 % W64
  let h0 := (h0 + rot64 temp 32) % W64
  let h0 := h0 * m1 % W64
  let h1 := rot64 h1 32 * m2 % W64
  let temp := read64 data 1 * m2 % W64
  let temp := rot64 temp 32 * m1 % W64
  let h1 := (h1 + rot64 temp 32) % W64
  let h1 := h1 * m2 % W64
  let h0 := h0 ^^^ h1
  let h1 := (h1 + h0) % W64
  (h0, h1)

/-- The loop `for (; data < end; data += 2)` of `ShortHash`, `n = length/16` rounds. -/
def shortLoop : Nat → List Byte → Nat × Nat → Nat × Nat
  | 0, _, h => h
  | n + 1, data, h => shortLoop n (data.drop 16) (shortRound data h)

/-- The `switch (remainder)` of `ShortHash` with its fall-through: entering at
`case r` runs every statement of the labels below it down to the `break`. -/
def shortTail (data : List Byte) (remainder : Nat) (h : Nat × Nat) : Nat × Nat :=
  let h0 := h.1; let h1 := h.2
  let temp := (remainder <<< 56) % W64
  if 9 ≤ remainder ∧ remainder ≤ 15 then
    let temp := if 15 ≤ remainder then (temp + (byteAt data 14 <<< 48)) % W64 else temp
    let temp := if 14 ≤ remainder then (temp + (byteAt data 13 <<< 40)) % W64 else temp
    let temp := if 13 ≤ remainder then (temp + (byteAt data 12 <<< 32)) % W64 else temp
    let temp := if 12 ≤ remainder then (temp + (byteAt data 11 <<< 24)) % W64 else temp
    let temp := if 11 ≤ remainder then (temp + (byteAt data 10 <<< 16)) % W64 else temp
    let temp := if 10 ≤ remainder then (temp + (byteAt data 9 <<< 8)) % W64 else temp
    let temp := (temp + byteAt data 8) % W64
    let temp := temp * m2 % W64
    let temp := rot64 temp 32 * m1 % W64
    let h1 := (h1 + rot64 temp 32) % W64
    let h1 := h1 * m2 % W64
    -- case 8:
    let temp := read64 data 0 * m1 % W64
    let temp := rot64 temp 32 * m2 % W64
    let h0 := (h0 + rot64 temp 32) % W64
    let h0 := h0 * m1 % W64
    let h0 := h0 ^^^ h1
    let h1 := (h1 + h0) % W64
    (h0, h1)
  else if remainder = 8 then
    let temp := read64 data 0 * m1 % W64
    let temp := rot64 temp 32 * m2 % W64
    let h0 := (h0 + rot64 temp 32) % W64
    let h0 := h0 * m1 % W64
    let h0 := h0 ^^^ h1
    let h1 := (h1 + h0) % W64
    (h0, h1)
  else if remainder ≤ 7 then
    let temp := if 7 ≤ remainder then (temp + (byteAt data 6 <<< 48)) % W64 else temp
    let temp := if 6 ≤ remainder then (temp + (byteAt data 5 <<< 40)) % W64 else temp
    let temp := if 5 ≤ remainder then (temp + (byteAt data 4 <<< 32)) % W64 else temp
    let temp := if 4 ≤ remainder then (temp + (byteAt data 3 <<< 24)) % W64 else temp
    let temp := if 3 ≤ remainder then (temp + (byteAt data 2 <<< 16)) % W64 else temp
    let temp := if 2 ≤ remainder then (temp + (byteAt data 1 <<< 8)) % W64 else temp
    let temp := if 1 ≤ remainder then (temp + byteAt data 0) % W64 else temp
    -- case 0:
    let temp := temp * m1 % W64
    let temp := rot64 temp 32 * m2 % W64
    let h1 := (h1 + temp) % W64
    let h0 := (h0 + rot64 temp 32) % W64
    let h0 := h0 * m1 % W64
    let h0 := h0 ^^^ h1
    let h1 := (h1 + h0) % W64
    (h0, h1)
  else (h0, h1)

/-- Source: `ShortHash(message, length, &hash1, &hash2)`; the result is the pair of values
left in `*hash1` and `*hash2`. -/
def ShortHash (message : List Byte) (length : Nat) (hash1 hash2 : Nat) : Nat × Nat :=
  let end_ := message.drop ((length / 16) * 2 * 8)
  let remainder := length - (length / 16) * 16
  let h0 := hash1 * m1 % W64
  let h1 := hash2 * m2 % W64
  let h0 := rot64 h0 32 * m2 % W64
  let h1 := rot64 h1 32 * m1 % W64
  let h0 := h0 ^^^ h1
  let h1 := (h1 + h0) % W64
  let h := shortLoop (length / 16) message (h0, h1)
  let h := shortTail end_ remainder h
  (rot64 h.1 32 * m2 % W64, rot64 h.2 32 * m1 % W64)

/-- The block that `SpookyHash` builds in its local `buf`: `memcpy` of the leftover
bytes, `memset` of the rest to zero, and the remainder stored in the last byte.
Every byte of `buf` is written, so its initial contents are taken to be zero. -/
def finalBuf (end_ : List Byte) (remainder : Nat) : List Byte :=
  let buf : List Byte := List.replicate BLOCKSIZE 0
  let buf := memcpy buf 0 end_ remainder
  let buf := memset buf remainder 0 (BLOCKSIZE - remainder)
  buf.set (BLOCKSIZE - 1) (Fin.ofNat remainder)

/-- Source: `SpookyHash(message, length, &hash1, &hash2)`.  The guard of the `ShortHash`
branch is `0 && length < BLOCKSIZE`, which is false for every length, so the
`else` branch always runs. -/
def SpookyHash (message : List Byte) (length : Nat) (hash1 hash2 : Nat) : Nat × Nat :=
  if false && decide (length < BLOCKSIZE) then
    ShortHash message length hash1 hash2
  else
    let end_ := message.drop ((length / (12 * 8)) * 12 * 8)
    let h := primeLanes hash1 hash2
    let h := mixBlocks (length / (12 * 8)) message h
    let remainder := length - (length / (12 * 8)) * 12 * 8
    let buf := finalBuf end_ remainder
    let h := SpookyMix buf h
    let h := SpookyMix buf h
    let h := SpookyMix buf h
    let h := SpookyMix buf h
    (h.h11, h.h0)

/-- Source: `struct Spooky`: `data` is the 96 bytes of `uint64_t data[12]`. -/
structure Spooky where
  data : List Byte
  state : Lanes
  length : Nat
  remainder : Nat
  deriving DecidableEq

/-- Source: `SpookyInit(state, seed1, seed2)`: only `length`, `remainder`, `state[0]` and
`state[1]` are assigned; everything else keeps what the struct held before. -/
def SpookyInit (st : Spooky) (seed1 seed2 : Nat) : Spooky :=
  { st with length := 0, remainder := 0,
            state := { st.state with h0 := seed1, h1 := seed2 } }

/-- The `if (state->length < BLOCKSIZE) ... else ...` that loads `h0..h11` in
`SpookyUpdate` and `SpookyFinal`. -/
def loadLanes (st : Spooky) : Lanes :=
  if st.length < BLOCKSIZE then primeLanes st.state.h0 st.state.h1 else st.state

/-- Whether a call `SpookyUpdate(state, message, length)` gets past the early return
`if (newLength < BLOCKSIZE) { ...; return; }`, i.e. produces at least one full block
and mixes it. -/
def SpookyUpdate_mixes (st : Spooky) (length : Nat) : Bool :=
  let newLength := (length + st.remainder) % W64
  if newLength < BLOCKSIZE then false else true

/-- Whether a call `SpookyUpdate(state, message, length)` runs the priming branch
`h0=h3=h6=h9 = state->state[0] * m; ...`: it is reached when the early return is not
taken and `state->length < BLOCKSIZE`. -/
def SpookyUpdate_primes (st : Spooky) (length : Nat) : Bool :=
  let newLength := (length + st.remainder) % W64
  if newLength < BLOCKSIZE then false
  else if st.length < BLOCKSIZE then true else false

/-- Source: `SpookyUpdate(state, message, length)`: the struct after the call. -/
def SpookyUpdate (st : Spooky) (message : List Byte) (length : Nat) : Spooky :=
  let newLength := (length + st.remainder) % W64
  if newLength < BLOCKSIZE then
    { st with data := memcpy st.data st.remainder message length,
              length := (length + st.length) % W64,
              remainder := newLength % 256 }
  else
    let h := loadLanes st
    let stLength := (length + st.length) % W64
    if st.remainder ≠ 0 then
      let pfx := (BLOCKSIZE + 256 - st.remainder) % 256
      let buf := memcpy st.data st.remainder message pfx
      let h := SpookyMix buf h
      let data := message.drop pfx
      let length := (length + W64 - pfx) % W64
      let end_ := data.drop ((length / BLOCKSIZE) * 12 * 8)
      let remainder := (length - (length / BLOCKSIZE) * 12 * 8) % 256
      let h := mixBlocks (length / BLOCKSIZE) data h
      { data := memcpy buf 0 end_ remainder, state := h,
        length := stLength, remainder := remainder }
    else
      let data := message
      let end_ := data.drop ((length / BLOCKSIZE) * 12 * 8)
      let remainder := (length - (length / BLOCKSIZE) * 12 * 8) % 256
      let h := mixBlocks (length / BLOCKSIZE) data h
      { data := memcpy st.data 0 end_ remainder, state := h,
        length := stLength, remainder := remainder }

/-- Source: `SpookyFinal(state, &hash1, &hash2)`: the struct after the call and the pair
`(*hash1, *hash2)`.  The `ShortHash` call sits under `if (0)` and never runs. -/
def SpookyFinal (st : Spooky) : Spooky × (Nat × Nat) :=
  let h := loadLanes st
  let remainder := st.remainder
  let pfx := (BLOCKSIZE + 256 - remainder) % 256
  let buf := memset st.data remainder 0 pfx
  let buf := buf.set (BLOCKSIZE - 1) (Fin.ofNat remainder)
  let h := SpookyMix buf h
  let h := SpookyMix buf h
  let h := SpookyMix buf h
  let h := SpookyMix buf h
  ({ st with data := buf }, (h.h11, h.h0))

/-- A run of `SpookyUpdate` calls, one per fragment, each with its own length. -/
def updates (st : Spooky) (frags : List (List Byte)) : Spooky :=
  frags.foldl (fun s f => SpookyUpdate s f f.length) st

/-- A struct whose memory is all zero bytes, as a concrete starting point. -/
def zeroState : Spooky :=
  { data := List.replicate BLOCKSIZE 0,
    state := { h0 := 0, h1 := 0, h2 := 0, h3 := 0, h4 := 0, h5 := 0,
               h6 := 0, h7 := 0, h8 := 0, h9 := 0, h10 := 0, h11 := 0 },
    length := 0, remainder := 0 }

/-! ## Auxiliary notions used to state and prove the properties -/

/-- The final block as the source builds it: the `r` valid bytes, zeros up to 96 bytes,
and the last byte overwritten with `r`. -/
def padded (B : List Byte) (r : Nat) : List Byte :=
  (B ++ List.replicate (BLOCKSIZE - r) 0).set (BLOCKSIZE - 1) (Fin.ofNat r)

/-- The representation invariant of the streaming state: `st` has absorbed exactly the
bytes `M` under the seeds `s1`, `s2`. -/
def Tracks (s1 s2 : Nat) (M : List Byte) (st : Spooky) : Prop :=
  st.data.length = BLOCKSIZE ∧ st.length = M.length ∧
  st.remainder = M.length % BLOCKSIZE ∧
  st.data.take (M.length % BLOCKSIZE) = M.drop (M.length - M.length % BLOCKSIZE) ∧
  (M.length < BLOCKSIZE → st.state.h0 = s1 ∧ st.state.h1 = s2) ∧
  (BLOCKSIZE ≤ M.length → st.state = mixBlocks (M.length / BLOCKSIZE) M (primeLanes s1 s2))

/-- Well-formed struct memory: `data` is 96 bytes and `remainder` is a valid count. -/
def WF (st : Spooky) : Prop := st.data.length = BLOCKSIZE ∧ st.remainder < BLOCKSIZE

/-- The first `n` consecutive 96-byte blocks of a message, in order. -/
def blocksOf : Nat → List Byte → List (List Byte)
  | 0, _ => []
  | n + 1, X => X.take BLOCKSIZE :: blocksOf n (X.drop BLOCKSIZE)

/-- The final block of a message as the specification words it: the `|M| mod 96` leftover
bytes, zero-padded to 96 bytes, with byte 95 set to `|M| mod 96`. -/
def lastBlock (M : List Byte) : List Byte :=
  let r := M.length % 96
  let leftover := M.drop (M.length - r)
  (leftover ++ List.replicate (96 - r) 0).set 95 (Fin.ofNat r)

/-- The reference definition of the one-shot hash, following the specification's words:
prime the twelve lanes from the seeds, apply `SpookyMix` once per complete block in order,
apply it four times with the final block, and return lanes 11 and 0. -/
def SpookyHash_reference (M : List Byte) (s1 s2 : Nat) : Nat × Nat :=
  let a := s1 * 0xba6b2ad56aad55c5 % 2 ^ 64
  let b := s2 * 0xba6b2ad56aad55c5 % 2 ^ 64
  let c := 0xba6b2ad56aad55c5
  let lanes : Lanes :=
    { h0 := a, h3 := a, h6 := a, h9 := a, h1 := b, h4 := b, h7 := b, h10 := b,
      h2 := c, h5 := c, h8 := c, h11 := c }
  let lanes := (blocksOf (M.length / 96) M).foldl (fun h blk => SpookyMix blk h) lanes
  let fin := lastBlock M
  let lanes := SpookyMix fin (SpookyMix fin (SpookyMix fin (SpookyMix fin lanes)))
  (lanes.h11, lanes.h0)

/-- The number of calls, in a run of `SpookyUpdate` calls (one per fragment) from the
state `st`, that execute the priming branch. -/
def primingCalls : Spooky → List (List Byte) → Nat
  | _, [] => 0
  | st, F :: Fs =>
    (if SpookyUpdate_primes st F.length then 1 else 0)
      + primingCalls (SpookyUpdate st F F.length) Fs

/-! ## The block mixer as twelve generic steps, and its inverse -/

/-- The rotation constants of the twelve lines of the macro `SpookyMix`, in order:
line `i` is `h(i-1) = rot64(h(i-1), rotConst[i])`. -/
def rotConst : List Nat := [32, 41, 12, 24, 8, 42, 32, 13, 30, 20, 47, 16]

/-- Lane `i mod 12` of the twelve variables `h0 .. h11`. -/
def lane (s : Lanes) (i : Nat) : Nat :=
  match i % 12 with
  | 0 => s.h0 | 1 => s.h1 | 2 => s.h2 | 3 => s.h3 | 4 => s.h4 | 5 => s.h5
  | 6 => s.h6 | 7 => s.h7 | 8 => s.h8 | 9 => s.h9 | 10 => s.h10 | _ => s.h11

/-- The twelve variables with lane `i mod 12` replaced by `v`. -/
def setLane (s : Lanes) (i : Nat) (v : Nat) : Lanes :=
  match i % 12 with
  | 0 => { s with h0 := v } | 1 => { s with h1 := v } | 2 => { s with h2 := v }
  | 3 => { s with h3 := v } | 4 => { s with h4 := v } | 5 => { s with h5 := v }
  | 6 => { s with h6 := v } | 7 => { s with h7 := v } | 8 => { s with h8 := v }
  | 9 => { s with h9 := v } | 10 => { s with h10 := v } | _ => { s with h11 := v }

/-- The generic step of the block mixer as the specification words it: step `i` adds data
word `i` into lane `i`, rotates lane `i-1` left by `c`, XORs lane `i+1` into lane `i+9`,
and adds lane `i-2` into lanes `i-1` and `i+1` (lane indices mod 12). -/
def mixStep (c : Nat) (data : List Byte) (i : Nat) (s : Lanes) : Lanes :=
  let s := setLane s i ((lane s i + read64 data i) % W64)
  let s := setLane s (i + 11) (rot64 (lane s (i + 11)) c)
  let s := setLane s (i + 9) (lane s (i + 9) ^^^ lane s (i + 1))
  let s := setLane s (i + 11) ((lane s (i + 11) + lane s (i + 10)) % W64)
  let s := setLane s (i + 1) ((lane s (i + 1) + lane s (i + 10)) % W64)
  s

/-- The composition of the generic step for `i = 0, 1, ..., 11`, in that order, step `i`
using the rotation constant `rotConst[i]`. -/
def mixSteps (data : List Byte) (s : Lanes) : Lanes :=
  (List.range 12).foldl (fun s i => mixStep (rotConst.getD i 0) data i s) s

/-- The step that undoes `mixStep c data i`: its five assignments undone in reverse
order. -/
def unmixStep (c : Nat) (data : List Byte) (i : Nat) (s : Lanes) : Lanes :=
  let s := setLane s (i + 1) ((lane s (i + 1) + W64 - lane s (i + 10)) % W64)
  let s := setLane s (i + 11) ((lane s (i + 11) + W64 - lane s (i + 10)) % W64)
  let s := setLane s (i + 9) (lane s (i + 9) ^^^ lane s (i + 1))
  let s := setLane s (i + 11) (rot64 (lane s (i + 11)) (64 - c))
  let s := setLane s i ((lane s i + W64 - read64 data i % W64) % W64)
  s

/-- The inverse transform of `SpookyMix`: the twelve steps undone from the last to the
first. -/
def SpookyUnmix (data : List Byte) (s : Lanes) : Lanes :=
  (List.range 12).foldr (fun i s => unmixStep (rotConst.getD i 0) data i s) s

/-- A state of twelve 64-bit lanes: every lane is below `2^64`. -/
def Lanes64 (s : Lanes) : Prop :=
  s.h0 < W64 ∧ s.h1 < W64 ∧ s.h2 < W64 ∧ s.h3 < W64 ∧ s.h4 < W64 ∧ s.h5 < W64 ∧
  s.h6 < W64 ∧ s.h7 < W64 ∧ s.h8 < W64 ∧ s.h9 < W64 ∧ s.h10 < W64 ∧ s.h11 < W64

instance instDecidableLanes64 (s : Lanes) : Decidable (Lanes64 s) := by
  unfold Lanes64; infer_instance

/-! ## Test vector, uninitialised memory and memory accesses -/

/-- The bytes of an ASCII string, one byte per character. -/
def asciiBytes (s : String) : List Byte := s.toList.map (fun c => Fin.ofNat c.toNat)

/-- The test vector of the specification's seed-sensitivity property. -/
def foxVector : List Byte :=
  asciiBytes "The quick brown fox jumps over the lazy dog-0123456789ABCDEF"

/-- The block that `SpookyHash` builds in its local `buf` when the uninitialised array
holds the bytes `buf0` before the `memcpy`, the `memset` and the store of byte 95. -/
def finalBufFrom (buf0 : List Byte) (end_ : List Byte) (remainder : Nat) : List Byte :=
  let buf := memcpy buf0 0 end_ remainder
  let buf := memset buf remainder 0 (BLOCKSIZE - remainder)
  buf.set (BLOCKSIZE - 1) (Fin.ofNat remainder)

/-- The function `SpookyHash` with the prior contents `buf0` of its uninitialised local
array `buf` made explicit. -/
def SpookyHashFrom (buf0 : List Byte) (message : List Byte) (length : Nat)
    (hash1 hash2 : Nat) : Nat × Nat :=
  if false && decide (length < BLOCKSIZE) then
    ShortHash message length hash1 hash2
  else
    let end_ := message.drop ((length / (12 * 8)) * 12 * 8)
    let h := primeLanes hash1 hash2
    let h := mixBlocks (length / (12 * 8)) message h
    let remainder := length - (length / (12 * 8)) * 12 * 8
    let buf := finalBufFrom buf0 end_ remainder
    let h := SpookyMix buf h
    let h := SpookyMix buf h
    let h := SpookyMix buf h
    let h := SpookyMix buf h
    (h.h11, h.h0)

/-- The loop `for (; data < end; data += 12) { ... }` on word offsets: the number of
iterations it runs before `data < end` fails, or `none` when it is still running after
`fuel` iterations. -/
def loopIters : Nat → Nat → Nat → Option Nat
  | 0, data, end_ => if data < end_ then none else some 0
  | fuel + 1, data, end_ =>
    if data < end_ then (loopIters fuel (data + 12) end_).map (fun k => k + 1) else some 0

/-- The word offset `end - data` at the start of the block loop of `SpookyHash`. -/
def SpookyHash_loopEnd (length : Nat) : Nat := (length / (12 * 8)) * 12

/-- The byte ranges `(offset, count)` of `message` that `SpookyHash` reads: one 96-byte
block per loop iteration, then the `memcpy` of the leftover bytes. -/
def SpookyHash_reads (length : Nat) : List (Nat × Nat) :=
  let blocks := length / (12 * 8)
  let remainder := length - blocks * 12 * 8
  (List.range blocks).map (fun k => (k * 12 * 8, 12 * 8)) ++ [(blocks * 12 * 8, remainder)]

/-- The byte ranges `(offset, count)` of the local `buf` that `SpookyHash` writes: the
`memcpy`, the `memset` and the store of the last byte. -/
def SpookyHash_writes (length : Nat) : List (Nat × Nat) :=
  let remainder := length - (length / (12 * 8)) * 12 * 8
  [(0, remainder), (remainder, BLOCKSIZE - remainder), (BLOCKSIZE - 1, 1)]

/-- The byte ranges `(offset, count)` of `state->data` that `SpookyUpdate` writes (the
destinations of its `memcpy` calls), along the same branches as `SpookyUpdate`. -/
def SpookyUpdate_writes (st : Spooky) (length : Nat) : List (Nat × Nat) :=
  let newLength := (length + st.remainder) % W64
  if newLength < BLOCKSIZE then
    [(st.remainder, length)]
  else if st.remainder ≠ 0 then
    let pfx := (BLOCKSIZE + 256 - st.remainder) % 256
    let length := (length + W64 - pfx) % W64
    let remainder := (length - (length / BLOCKSIZE) * 12 * 8) % 256
    [(st.remainder, pfx), (0, remainder)]
  else
    let remainder := (length - (length / BLOCKSIZE) * 12 * 8) % 256
    [(0, remainder)]

/-- The byte ranges `(offset, count)` of `message` that `SpookyUpdate` reads: the sources
of its `memcpy` calls and one 96-byte block per iteration of its block loop. -/
def SpookyUpdate_reads (st : Spooky) (length : Nat) : List (Nat × Nat) :=
  let newLength := (length + st.remainder) % W64
  if newLength < BLOCKSIZE then
    [(0, length)]
  else if st.remainder ≠ 0 then
    let pfx := (BLOCKSIZE + 256 - st.remainder) % 256
    let length := (length + W64 - pfx) % W64
    let blocks := length / BLOCKSIZE
    let remainder := (length - blocks * 12 * 8) % 256
    [(0, pfx)] ++ (List.range blocks).map (fun k => (pfx + k * 12 * 8, 12 * 8))
      ++ [(pfx + blocks * 12 * 8, remainder)]
  else
    let blocks := length / BLOCKSIZE
    let remainder := (length - blocks * 12 * 8) % 256
    (List.range blocks).map (fun k => (k * 12 * 8, 12 * 8)) ++ [(blocks * 12 * 8, remainder)]

/-- The word offset `end - data` at the start of the block loop of `SpookyUpdate`
(`end = data + (length/BLOCKSIZE)*12`, with `length` already reduced by the bytes that
topped off the buffer); `0` when the early return is taken and the loop is not reached. -/
def SpookyUpdate_loopEnd (st : Spooky) (length : Nat) : Nat :=
  let newLength := (length + st.remainder) % W64
  if newLength < BLOCKSIZE then 0
  else if st.remainder ≠ 0 then
    let pfx := (BLOCKSIZE + 256 - st.remainder) % 256
    let length := (length + W64 - pfx) % W64
    (length / BLOCKSIZE) * 12
  else (length / BLOCKSIZE) * 12

/-- The byte ranges `(offset, count)` of `state->data` that `SpookyFinal` writes: the
`memset` and the store of the last byte. -/
def SpookyFinal_writes (st : Spooky) : List (Nat × Nat) :=
  let remainder := st.remainder
  let pfx := (BLOCKSIZE + 256 - remainder) % 256
  [(remainder, pfx), (BLOCKSIZE - 1, 1)]

/-- The sequence of mixer inputs of `SpookyHash` on a message: its complete 96-byte
blocks in order, followed by the padded, length-tagged final block. -/
def mixerInputs (M : List Byte) : List (List Byte) :=
  blocksOf (M.length / 96) M ++ [lastBlock M]

/-- The tail offsets (relative to the end of the last complete chunk) that the
`switch (remainder)` of `ShortHash` reads, in execution order, with the same fall-through
as `shortTail`; the eight bytes of the word `data[0]` read at `case 8` are offsets 0..7. -/
def shortTail_reads (remainder : Nat) : List Nat :=
  if 9 ≤ remainder ∧ remainder ≤ 15 then
    (if 15 ≤ remainder then [14] else []) ++ (if 14 ≤ remainder then [13] else [])
      ++ (if 13 ≤ remainder then [12] else []) ++ (if 12 ≤ remainder then [11] else [])
      ++ (if 11 ≤ remainder then [10] else []) ++ (if 10 ≤ remainder then [9] else [])
      ++ [8] ++ [0, 1, 2, 3, 4, 5, 6, 7]
  else if remainder = 8 then [0, 1, 2, 3, 4, 5, 6, 7]
  else if remainder ≤ 7 then
    (if 7 ≤ remainder then [6] else []) ++ (if 6 ≤ remainder then [5] else [])
      ++ (if 5 ≤ remainder then [4] else []) ++ (if 4 ≤ remainder then [3] else [])
      ++ (if 3 ≤ remainder then [2] else []) ++ (if 2 ≤ remainder then [1] else [])
      ++ (if 1 ≤ remainder then [0] else [])
  else []

/-- The message offsets that `ShortHash` reads: sixteen bytes per loop iteration (the words
`data[0]` and `data[1]`), then the tail offsets after the last complete chunk. -/
def ShortHash_reads (length : Nat) : List Nat :=
  let remainder := length - (length / 16) * 16
  (List.range (length / 16)).flatMap (fun k => (List.range 16).map (fun b => k * 2 * 8 + b))
    ++ (shortTail_reads remainder).map (fun o => (length / 16) * 2 * 8 + o)

/-! ## The block mixers of the Akron and Jasper variants (`akron.h`, `jasper.h`) -/

/-- The macro `AkronMix(data,h0,...,h11)` of akron.h: twelve lines of four assignments. -/
def AkronMix (data : List Byte) (s : Lanes) : Lanes :=
  let h0 := s.h0; let h1 := s.h1; let h2 := s.h2; let h3 := s.h3
  let h4 := s.h4; let h5 := s.h5; let h6 := s.h6; let h7 := s.h7
  let h8 := s.h8; let h9 := s.h9; let h10 := s.h10; let h11 := s.h11
  let h0 := (h0 + read64 data 0) % W64; let h2 := rot64 h2 32 ^^^ h0
  let h4 := (h4 + h0) % W64; let h0 := (h0 + h3) % W64
  let h1 := (h1 + read64 data 1) % W64; let h3 := rot64 h3 37 ^^^ h1
  let h5 := (h5 + h1) % W64; let h1 := (h1 + h4) % W64
  let h2 := (h2 + read64 data 2) % W64; let h4 := rot64 h4 27 ^^^ h2
  let h6 := (h6 + h2) % W64; let h2 := (h2 + h5) % W64
  let h3 := (h3 + read64 data 3) % W64; let h5 := rot64 h5 48 ^^^ h3
  let h7 := (h7 + h3) % W64; let h3 := (h3 + h6) % W64
  let h4 := (h4 + read64 data 4) % W64; let h6 := rot64 h6 5 ^^^ h4
  let h8 := (h8 + h4) % W64; let h4 := (h4 + h7) % W64
  let h5 := (h5 + read64 data 5) % W64; let h7 := rot64 h7 7 ^^^ h5
  let h9 := (h9 + h5) % W64; let h5 := (h5 + h8) % W64
  let h6 := (h6 + read64 data 6) % W64; let h8 := rot64 h8 50 ^^^ h6
  let h10 := (h10 + h6) % W64; let h6 := (h6 + h9) % W64
  let h7 := (h7 + read64 data 7) % W64; let h9 := rot64 h9 18 ^^^ h7
  let h11 := (h11 + h7) % W64; let h7 := (h7 + h10) % W64
  let h8 := (h8 + read64 data 8) % W64; let h10 := rot64 h10 9 ^^^ h8
  let h0 := (h0 + h8) % W64; let h8 := (h8 + h11) % W64
  let h9 := (h9 + read64 data 9) % W64; let h11 := rot64 h11 44 ^^^ h9
  let h1 := (h1 + h9) % W64; let h9 := (h9 + h0) % W64
  let h10 := (h10 + read64 data 10) % W64; let h0 := rot64 h0 14 ^^^ h10
  let h2 := (h2 + h10) % W64; let h10 := (h10 + h1) % W64
  let h11 := (h11 + read64 data 11) % W64; let h1 := rot64 h1 30 ^^^ h11
  let h3 := (h3 + h11) % W64; let h11 := (h11 + h2) % W64
  { h0 := h0, h1 := h1, h2 := h2, h3 := h3, h4 := h4, h5 := h5,
    h6 := h6, h7 := h7, h8 := h8, h9 := h9, h10 := h10, h11 := h11 }

/-- The rotation constants of the twelve lines of the macro `AkronMix`, in order. -/
def akronRot : List Nat := [32, 37, 27, 48, 5, 7, 50, 18, 9, 44, 14, 30]

/-- Line `i` of `AkronMix` with lane indices mod 12: lane `i` gets data word `i` added,
lane `i+2` is rotated by `c` and XORed with lane `i`, lane `i+4` gets lane `i` added, and
lane `i` gets lane `i+3` added. -/
def akronStep (c : Nat) (data : List Byte) (i : Nat) (s : Lanes) : Lanes :=
  let s := setLane s i ((lane s i + read64 data i) % W64)
  let s := setLane s (i + 2) (rot64 (lane s (i + 2)) c ^^^ lane s i)
  let s := setLane s (i + 4) ((lane s (i + 4) + lane s i) % W64)
  let s := setLane s i ((lane s i + lane s (i + 3)) % W64)
  s

/-- The step that undoes `akronStep c data i`: its four assignments undone in reverse
order. -/
def akronUnstep (c : Nat) (data : List Byte) (i : Nat) (s : Lanes) : Lanes :=
  let s := setLane s i ((lane s i + W64 - lane s (i + 3)) % W64)
  let s := setLane s (i + 4) ((lane s (i + 4) + W64 - lane s i) % W64)
  let s := setLane s (i + 2) (rot64 (lane s (i + 2) ^^^ lane s i) (64 - c))
  let s := setLane s i ((lane s i + W64 - read64 data i % W64) % W64)
  s

/-- The inverse transform of `AkronMix`: the twelve lines undone from the last to the
first. -/
def AkronUnmix (data : List Byte) (s : Lanes) : Lanes :=
  (List.range 12).foldr (fun i s => akronUnstep (akronRot.getD i 0) data i s) s

/-- The macro `JasperMix1(temp, data, i, h0,...,h11)` of jasper.h, which uses its
parameters `h0`, `h1`, `h3`, `h5` only: the new values of `h0`, `h1` and `h3`.  A
subtraction of 64-bit values is taken modulo `2^64`. -/
def JasperMix1 (data : List Byte) (i : Nat) (h0 h1 h3 h5 : Nat) : Nat × Nat × Nat :=
  let temp := read64 data i * 0xba6b2ad56aad55c5 % W64
  let h0 := (h0 + W64 - temp) % W64
  let h1 := (h1 + W64 - h3) % W64
  let h3 := (h3 + W64 - h5) % W64
  let h3 := rot64 h3 43
  let h3 := h3 ^^^ h0
  (h0, h1, h3)

/-- The macro `JasperMix(temp,data,h0,...,h11)` of jasper.h: twelve uses of `JasperMix1`,
each with the twelve variables in another order; the arguments written here are those in
positions 0, 1, 3 and 5 of each use. -/
def JasperMix (data : List Byte) (s : Lanes) : Lanes :=
  let h0 := s.h0; let h1 := s.h1; let h2 := s.h2; let h3 := s.h3
  let h4 := s.h4; let h5 := s.h5; let h6 := s.h6; let h7 := s.h7
  let h8 := s.h8; let h9 := s.h9; let h10 := s.h10; let h11 := s.h11
  let r := JasperMix1 data 0 h0 h11 h9 h7; let h0 := r.1; let h11 := r.2.1; let h9 := r.2.2
  let r := JasperMix1 data 1 h11 h10 h8 h6; let h11 := r.1; let h10 := r.2.1; let h8 := r.2.2
  let r := JasperMix1 data 2 h10 h9 h7 h5; let h10 := r.1; let h9 := r.2.1; let h7 := r.2.2
  let r := JasperMix1 data 3 h9 h8 h6 h4; let h9 := r.1; let h8 := r.2.1; let h6 := r.2.2
  let r := JasperMix1 data 4 h8 h7 h5 h3; let h8 := r.1; let h7 := r.2.1; let h5 := r.2.2
  let r := JasperMix1 data 5 h7 h6 h4 h2; let h7 := r.1; let h6 := r.2.1; let h4 := r.2.2
  let r := JasperMix1 data 6 h6 h5 h3 h1; let h6 := r.1; let h5 := r.2.1; let h3 := r.2.2
  let r := JasperMix1 data 7 h5 h4 h2 h0; let h5 := r.1; let h4 := r.2.1; let h2 := r.2.2
  let r := JasperMix1 data 8 h4 h3 h1 h11; let h4 := r.1; let h3 := r.2.1; let h1 := r.2.2
  let r := JasperMix1 data 9 h3 h2 h0 h10; let h3 := r.1; let h2 := r.2.1; let h0 := r.2.2
  let r := JasperMix1 data 10 h2 h1 h11 h9; let h2 := r.1; let h1 := r.2.1; let h11 := r.2.2
  let r := JasperMix1 data 11 h1 h0 h10 h8; let h1 := r.1; let h0 := r.2.1; let h10 := r.2.2
  { h0 := h0, h1 := h1, h2 := h2, h3 := h3, h4 := h4, h5 := h5,
    h6 := h6, h7 := h7, h8 := h8, h9 := h9, h10 := h10, h11 := h11 }

/-- Use `i` of `JasperMix1` in `JasperMix` with lane indices mod 12: its parameters `h0`,
`h1`, `h3`, `h5` are the lanes `12-i`, `11-i`, `9-i` and `7-i`. -/
def jasperStep (data : List Byte) (i : Nat) (s : Lanes) : Lanes :=
  let r := JasperMix1 data i (lane s (24 - i)) (lane s (23 - i)) (lane s (21 - i))
    (lane s (19 - i))
  let s := setLane s (24 - i) r.1
  let s := setLane s (23 - i) r.2.1
  let s := setLane s (21 - i) r.2.2
  s

/-- The step that undoes `jasperStep data i`: the five assignments of `JasperMix1` undone in
reverse order. -/
def jasperUnstep (data : List Byte) (i : Nat) (s : Lanes) : Lanes :=
  let s := setLane s (21 - i) (lane s (21 - i) ^^^ lane s (24 - i))
  let s := setLane s (21 - i) (rot64 (lane s (21 - i)) (64 - 43))
  let s := setLane s (21 - i) ((lane s (21 - i) + lane s (19 - i)) % W64)
  let s := setLane s (23 - i) ((lane s (23 - i) + lane s (21 - i)) % W64)
  let s := setLane s (24 - i)
    ((lane s (24 - i) + read64 data i * 0xba6b2ad56aad55c5 % W64) % W64)
  s

/-- The inverse transform of `JasperMix`: the twelve uses undone from the last to the
first. -/
def JasperUnmix (data : List Byte) (s : Lanes) : Lanes :=
  (List.range 12).foldr (fun i s => jasperUnstep data i s) s

/-! ## Parts of the `ShortHash` tail, named to state its injectivity -/

/-- The word `temp` of `ShortHash` after the statements of `case 15` down to `case 9`
that apply to the remainder: the length tag and tail bytes 8 and up. -/
def tailHigh (data : List Byte) (remainder : Nat) : Nat :=
  let temp := (remainder <<< 56) % W64
  let temp := if 15 ≤ remainder then (temp + (byteAt data 14 <<< 48)) % W64 else temp
  let temp := if 14 ≤ remainder then (temp + (byteAt data 13 <<< 40)) % W64 else temp
  let temp := if 13 ≤ remainder then (temp + (byteAt data 12 <<< 32)) % W64 else temp
  let temp := if 12 ≤ remainder then (temp + (byteAt data 11 <<< 24)) % W64 else temp
  let temp := if 11 ≤ remainder then (temp + (byteAt data 10 <<< 16)) % W64 else temp
  let temp := if 10 ≤ remainder then (temp + (byteAt data 9 <<< 8)) % W64 else temp
  let temp := (temp + byteAt data 8) % W64
  temp

/-- The word `temp` of `ShortHash` after the statements of `case 7` down to `case 1` that
apply to the remainder: the length tag and the tail bytes. -/
def tailLow (data : List Byte) (remainder : Nat) : Nat :=
  let temp := (remainder <<< 56) % W64
  let temp := if 7 ≤ remainder then (temp + (byteAt data 6 <<< 48)) % W64 else temp
  let temp := if 6 ≤ remainder then (temp + (byteAt data 5 <<< 40)) % W64 else temp
  let temp := if 5 ≤ remainder then (temp + (byteAt data 4 <<< 32)) % W64 else temp
  let temp := if 4 ≤ remainder then (temp + (byteAt data 3 <<< 24)) % W64 else temp
  let temp := if 3 ≤ remainder then (temp + (byteAt data 2 <<< 16)) % W64 else temp
  let temp := if 2 ≤ remainder then (temp + (byteAt data 1 <<< 8)) % W64 else temp
  let temp := if 1 ≤ remainder then (temp + byteAt data 0) % W64 else temp
  temp

/-- The statements of `case 9` after the word `temp` is built, followed by those of
`case 8` on the data word `d = data[0]`. -/
def tailMixA (temp d : Nat) (h : Nat × Nat) : Nat × Nat :=
  let h0 := h.1; let h1 := h.2
  let temp := temp * m2 % W64
  let temp := rot64 temp 32 * m1 % W64
  let h1 := (h1 + rot64 temp 32) % W64
  let h1 := h1 * m2 % W64
  let temp := d * m1 % W64
  let temp := rot64 temp 32 * m2 % W64
  let h0 := (h0 + rot64 temp 32) % W64
  let h0 := h0 * m1 % W64
  let h0 := h0 ^^^ h1
  let h1 := (h1 + h0) % W64
  (h0, h1)

/-- The statements of `case 8` on the data word `d = data[0]`. -/
def tailMixB (d : Nat) (h : Nat × Nat) : Nat × Nat :=
  let h0 := h.1; let h1 := h.2
  let temp := d * m1 % W64
  let temp := rot64 temp 32 * m2 % W64
  let h0 := (h0 + rot64 temp 32) % W64
  let h0 := h0 * m1 % W64
  let h0 := h0 ^^^ h1
  let h1 := (h1 + h0) % W64
  (h0, h1)

/-- The statements of `case 0` on the word `temp`. -/
def tailMixC (temp : Nat) (h : Nat × Nat) : Nat × Nat :=
  let h0 := h.1; let h1 := h.2
  let temp := temp * m1 % W64
  let temp := rot64 temp 32 * m2 % W64
  let h1 := (h1 + temp) % W64
  let h0 := (h0 + rot64 temp 32) % W64
  let h0 := h0 * m1 % W64
  let h0 := h0 ^^^ h1
  let h1 := (h1 + h0) % W64
  (h0, h1)

/-- The state `(h0, h1)` that `ShortHash` builds from the two seeds before its loop. -/
def shortInit (hash1 hash2 : Nat) : Nat × Nat :=
  let h0 := hash1 * m1 % W64
  let h1 := hash2 * m2 % W64
  let h0 := rot64 h0 32 * m2 % W64
  let h1 := rot64 h1 32 * m1 % W64
  let h0 := h0 ^^^ h1
  let h1 := (h1 + h0) % W64
  (h0, h1)

/-- The pairs of 64-bit words. -/
def Word2 : Set (Nat × Nat) := {p | p.1 < W64 ∧ p.2 < W64}

end SpookyAlpha

/-! ## Definitions for the other programs of the repository -/

namespace MixCipher

/-- The modulus of `ub4` arithmetic (unsigned 4-byte quantities). -/
abbrev W32 : Nat := 2 ^ 32

/-- The block `ub4 x[4]` of `MIXSIZE = 128` bits that `mix` and `unmix` work on. -/
structure Block where
  x0 : Nat
  x1 : Nat
  x2 : Nat
  x3 : Nat
  deriving DecidableEq

/-- The function `mix(x)` of mix.c: eight lines of three assignments on `a, b, c, d`. -/
def mix (x : Block) : Block :=
  let a := x.x0; let b := x.x1; let c := x.x2; let d := x.x3
  let a := (a + d) % W32; let d := (d + a) % W32; let a := a ^^^ (a >>> 7)
  let b := (b + a) % W32; let a := (a + b) % W32; let b := b ^^^ ((b <<< 13) % W32)
  let c := (c + b) % W32; let b := (b + c) % W32; let c := c ^^^ (c >>> 17)
  let d := (d + c) % W32; let c := (c + d) % W32; let d := d ^^^ ((d <<< 9) % W32)
  let a := (a + d) % W32; let d := (d + a) % W32; let a := a ^^^ (a >>> 3)
  let b := (b + a) % W32; let a := (a + b) % W32; let b := b ^^^ ((b <<< 7) % W32)
  let c := (c + b) % W32; let b := (b + c) % W32; let c := c ^^^ (c >>> 15)
  let d := (d + c) % W32; let c := (c + d) % W32; let d := d ^^^ ((d <<< 11) % W32)
  { x0 := a, x1 := b, x2 := c, x3 := d }

/-- The function `unmix(x)` of mix.c ("the reverse of mix"); `x -= y` on `ub4` is
`(x + 2^32 - y) mod 2^32`. -/
def unmix (x : Block) : Block :=
  let a := x.x0; let b := x.x1; let c := x.x2; let d := x.x3
  let d := d ^^^ ((d <<< 11) % W32); let c := (c + W32 - d) % W32; let d := (d + W32 - c) % W32
  let c := c ^^^ (c >>> 15); let b := (b + W32 - c) % W32; let c := (c + W32 - b) % W32
  let b := b ^^^ ((b <<< 7) % W32); let a := (a + W32 - b) % W32; let b := (b + W32 - a) % W32
  let a := a ^^^ (a >>> 3); let d := (d + W32 - a) % W32; let a := (a + W32 - d) % W32
  let d := d ^^^ ((d <<< 9) % W32); let c := (c + W32 - d) % W32; let d := (d + W32 - c) % W32
  let c := c ^^^ (c >>> 17); let b := (b + W32 - c) % W32; let c := (c + W32 - b) % W32
  let b := b ^^^ ((b <<< 13) % W32); let a := (a + W32 - b) % W32; let b := (b + W32 - a) % W32
  let a := a ^^^ (a >>> 7); let d := (d + W32 - a) % W32; let a := (a + W32 - d) % W32
  { x0 := a, x1 := b, x2 := c, x3 := d }

end MixCipher

namespace Checksum

open SpookyAlpha (Byte byteAt)

/-- The modulus of `ub4` arithmetic (unsigned 4-byte quantities). -/
abbrev W32 : Nat := 2 ^ 32

/-- The eight `ub4` variables `a .. h` (also `ub4 state[HASHSTATE]`). -/
structure State where
  a : Nat
  b : Nat
  c : Nat
  d : Nat
  e : Nat
  f : Nat
  g : Nat
  h : Nat
  deriving DecidableEq

/-- The macro `mix(a,b,c,d,e,f,g,h)` of checksum.c: eight lines of three assignments. -/
def mix (s : State) : State :=
  let a := s.a; let b := s.b; let c := s.c; let d := s.d
  let e := s.e; let f := s.f; let g := s.g; let h := s.h
  let a := a ^^^ ((b <<< 11) % W32); let d := (d + a) % W32; let b := (b + c) % W32
  let b := b ^^^ (c >>> 2); let e := (e + b) % W32; let c := (c + d) % W32
  let c := c ^^^ ((d <<< 8) % W32); let f := (f + c) % W32; let d := (d + e) % W32
  let d := d ^^^ (e >>> 16); let g := (g + d) % W32; let e := (e + f) % W32
  let e := e ^^^ ((f <<< 10) % W32); let h := (h + e) % W32; let f := (f + g) % W32
  let f := f ^^^ (g >>> 4); let a := (a + f) % W32; let g := (g + h) % W32
  let g := g ^^^ ((h <<< 8) % W32); let b := (b + g) % W32; let h := (h + a) % W32
  let h := h ^^^ (a >>> 9); let c := (c + h) % W32; let a := (a + b) % W32
  { a := a, b := b, c := c, d := d, e := e, f := f, g := g, h := h }

/-- The four bytes `k[i] + (k[i+1]<<8) + (k[i+2]<<16) + (k[i+3]<<24)` that `hash` adds to
one variable. -/
def bytes4 (k : List Byte) (i : Nat) : Nat :=
  byteAt k i + (byteAt k (i + 1) <<< 8) + (byteAt k (i + 2) <<< 16) + (byteAt k (i + 3) <<< 24)

/-- The aligned read `*(ub4 *)(k+i)` of `hash2` on a little-endian machine. -/
def read32 (k : List Byte) (i : Nat) : Nat :=
  byteAt k i + byteAt k (i + 1) * 2 ^ 8 + byteAt k (i + 2) * 2 ^ 16 + byteAt k (i + 3) * 2 ^ 24

/-- One iteration of the loop `while (len >= 32)` of `hash`, without the pointer step. -/
def hashBlock (k : List Byte) (s : State) : State :=
  let s : State :=
    { a := (s.a + bytes4 k 0) % W32, b := (s.b + bytes4 k 4) % W32,
      c := (s.c + bytes4 k 8) % W32, d := (s.d + bytes4 k 12) % W32,
      e := (s.e + bytes4 k 16) % W32, f := (s.f + bytes4 k 20) % W32,
      g := (s.g + bytes4 k 24) % W32, h := (s.h + bytes4 k 28) % W32 }
  mix (mix (mix (mix s)))

/-- One iteration of the loop `while (len >= 32)` of `hash2`, without the pointer step. -/
def hash2Block (k : List Byte) (s : State) : State :=
  let s : State :=
    { a := (s.a + read32 k 0) % W32, b := (s.b + read32 k 4) % W32,
      c := (s.c + read32 k 8) % W32, d := (s.d + read32 k 12) % W32,
      e := (s.e + read32 k 16) % W32, f := (s.f + read32 k 20) % W32,
      g := (s.g + read32 k 24) % W32, h := (s.h + read32 k 28) % W32 }
  mix (mix (mix (mix s)))

/-- The loop `while (len >= 32) { ...; k += 32; len -= 32; }` of `hash`, which runs
`n = len / 32` times. -/
def hashLoop : Nat → List Byte → State → State
  | 0, _, s => s
  | n + 1, k, s => hashLoop n (k.drop 32) (hashBlock k s)

/-- The loop `while (len >= 32) { ...; k += 32; len -= 32; }` of `hash2`. -/
def hash2Loop : Nat → List Byte → State → State
  | 0, _, s => s
  | n + 1, k, s => hash2Loop n (k.drop 32) (hash2Block k s)

/-- The `switch(len)` of `hash` and `hash2` (the same text in both), with its fall-through:
entering at `case len` runs the statements of every label from `len` down to 1. -/
def hashTail (k : List Byte) (len : Nat) (s : State) : State :=
  let a := s.a; let b := s.b; let c := s.c; let d := s.d
  let e := s.e; let f := s.f; let g := s.g; let h := s.h
  if len ≤ 31 then
    let h := if 31 ≤ len then (h + (byteAt k 30 <<< 24)) % W32 else h
    let h := if 30 ≤ len then (h + (byteAt k 29 <<< 16)) % W32 else h
    let h := if 29 ≤ len then (h + (byteAt k 28 <<< 8)) % W32 else h
    let g := if 28 ≤ len then (g + (byteAt k 27 <<< 24)) % W32 else g
    let g := if 27 ≤ len then (g + (byteAt k 26 <<< 16)) % W32 else g
    let g := if 26 ≤ len then (g + (byteAt k 25 <<< 8)) % W32 else g
    let g := if 25 ≤ len then (g + byteAt k 24) % W32 else g
    let f := if 24 ≤ len then (f + (byteAt k 23 <<< 24)) % W32 else f
    let f := if 23 ≤ len then (f + (byteAt k 22 <<< 16)) % W32 else f
    let f := if 22 ≤ len then (f + (byteAt k 21 <<< 8)) % W32 else f
    let f := if 21 ≤ len then (f + byteAt k 20) % W32 else f
    let e := if 20 ≤ len then (e + (byteAt k 19 <<< 24)) % W32 else e
    let e := if 19 ≤ len then (e + (byteAt k 18 <<< 16)) % W32 else e
    let e := if 18 ≤ len then (e + (byteAt k 17 <<< 8)) % W32 else e
    let e := if 17 ≤ len then (e + byteAt k 16) % W32 else e
    let d := if 16 ≤ len then (d + (byteAt k 15 <<< 24)) % W32 else d
    let d := if 15 ≤ len then (d + (byteAt k 14 <<< 16)) % W32 else d
    let d := if 14 ≤ len then (d + (byteAt k 13 <<< 8)) % W32 else d
    let d := if 13 ≤ len then (d + byteAt k 12) % W32 else d
    let c := if 12 ≤ len then (c + (byteAt k 11 <<< 24)) % W32 else c
    let c := if 11 ≤ len then (c + (byteAt k 10 <<< 16)) % W32 else c
    let c := if 10 ≤ len then (c + (byteAt k 9 <<< 8)) % W32 else c
    let c := if 9 ≤ len then (c + byteAt k 8) % W32 else c
    let b := if 8 ≤ len then (b + (byteAt k 7 <<< 24)) % W32 else b
    let b := if 7 ≤ len then (b + (byteAt k 6 <<< 16)) % W32 else b
    let b := if 6 ≤ len then (b + (byteAt k 5 <<< 8)) % W32 else b
    let b := if 5 ≤ len then (b + byteAt k 4) % W32 else b
    let a := if 4 ≤ len then (a + (byteAt k 3 <<< 24)) % W32 else a
    let a := if 3 ≤ len then (a + (byteAt k 2 <<< 16)) % W32 else a
    let a := if 2 ≤ len then (a + (byteAt k 1 <<< 8)) % W32 else a
    let a := if 1 ≤ len then (a + byteAt k 0) % W32 else a
    { a := a, b := b, c := c, d := d, e := e, f := f, g := g, h := h }
  else s

/-- The function `hash(k, len, state)` of checksum.c: the state array after the call. -/
def hash (k : List Byte) (len : Nat) (state : State) : State :=
  let length := len
  let s := hashLoop (len / 32) k state
  let k := k.drop (32 * (len / 32))
  let len := len - 32 * (len / 32)
  let s := { s with h := (s.h + length) % W32 }
  let s := hashTail k len s
  mix (mix (mix (mix s)))

/-- The function `hash2(k, len, state)` of checksum.c: the state array after the call. -/
def hash2 (k : List Byte) (len : Nat) (state : State) : State :=
  let length := len
  let s := hash2Loop (len / 32) k state
  let k := k.drop (32 * (len / 32))
  let len := len - 32 * (len / 32)
  let s := { s with h := (s.h + length) % W32 }
  let s := hashTail k len s
  mix (mix (mix (mix s)))

end Checksum

namespace Zorba

open SpookyAlpha (Byte W64 byteAt read64 memcpy memset)

/-- Source: `#define BYTES_PER_VAL 16`. -/
abbrev BYTES_PER_VAL : Nat := 16

/-- Source: `#define BLOCK 48`. -/
abbrev BLOCK : Nat := 48

/-- Source: `#define BUFFERED (BLOCK * BYTES_PER_VAL)`. -/
abbrev BUFFERED : Nat := BLOCK * BYTES_PER_VAL

/-- Source: `#define LARGE 766`. -/
abbrev LARGE : Nat := 766

/-- The 128-bit value `z128` (`__m128i h` or `u8 x[2]`): `lo` is `x[0]`, `hi` is `x[1]`. -/
structure Z128 where
  lo : Nat
  hi : Nat
  deriving DecidableEq

instance : Inhabited Z128 := ⟨⟨0, 0⟩⟩

/-- Source: `_mm_xor_si128(a, b)`. -/
def xor (a b : Z128) : Z128 := ⟨a.lo ^^^ b.lo, a.hi ^^^ b.hi⟩

/-- Source: `_mm_add_epi64(a, b)`: each 64-bit half is added on its own. -/
def add (a b : Z128) : Z128 := ⟨(a.lo + b.lo) % W64, (a.hi + b.hi) % W64⟩

/-- Source: `_mm_slli_epi64(a, n)`: each 64-bit half is shifted left on its own. -/
def lshift (a : Z128) (n : Nat) : Z128 := ⟨(a.lo <<< n) % W64, (a.hi <<< n) % W64⟩

/-- Source: `_mm_srli_epi64(a, n)`: each 64-bit half is shifted right on its own. -/
def rshift (a : Z128) (n : Nat) : Z128 := ⟨a.lo >>> n, a.hi >>> n⟩

/-- The 32-bit element number `i` (0 the lowest) of a 128-bit value. -/
def lane32 (a : Z128) (i : Nat) : Nat :=
  match i with
  | 0 => a.lo % 2 ^ 32
  | 1 => a.lo / 2 ^ 32 % 2 ^ 32
  | 2 => a.hi % 2 ^ 32
  | _ => a.hi / 2 ^ 32 % 2 ^ 32

/-- Source: `_mm_shuffle_epi32(a, imm)`: element `j` of the result is the element of `a`
selected by bits `2j+1 .. 2j` of `imm`. -/
def shuf (a : Z128) (imm : Nat) : Z128 :=
  ⟨lane32 a (imm % 4) + lane32 a (imm >>> 2 % 4) * 2 ^ 32,
   lane32 a (imm >>> 4 % 4) + lane32 a (imm >>> 6 % 4) * 2 ^ 32⟩

/-- Source: `read(&data[i])`, the aligned load `_mm_load_si128` of the 16 bytes at the
address `data + 16 * i`, little-endian. -/
def read (data : List Byte) (i : Nat) : Z128 :=
  ⟨read64 (data.drop (16 * i)) 0, read64 (data.drop (16 * i)) 1⟩

/-- Source: `_mm_set_epi32(0xdeadbeef, 0xdeadbeef, 0xdeadbeef, 0xdeadbeef)`. -/
def deadbeef : Z128 := ⟨0xdeadbeefdeadbeef, 0xdeadbeefdeadbeef⟩

/-- The sixteen bytes of `deadbeef` in memory. -/
def deadbeefBytes : List Byte :=
  [0xef, 0xbe, 0xad, 0xde, 0xef, 0xbe, 0xad, 0xde, 0xef, 0xbe, 0xad, 0xde, 0xef, 0xbe, 0xad, 0xde]

/-- The result of the macro `CHURN(s,first,second,third)`: the new `s` and `second`. -/
structure Churn1 where
  s : Z128
  second : Z128

/-- Source: `#define CHURN(s,first,second,third)`. -/
def CHURN (s first second third : Z128) : Churn1 :=
  let second := xor first second
  let s := xor (shuf s 0x39) (xor (rshift s 5) first)
  let s := xor (add (lshift s 8) s) third
  { s := s, second := second }

/-- Source: `#define TAIL1(s,third)`. -/
def TAIL1 (s third : Z128) : Z128 :=
  let s := xor (shuf s 0x39) (rshift s 5)
  let s := add s (xor (lshift s 8) third)
  s

/-- Source: `#define FINAL1(s)`. -/
def FINAL1 (s : Z128) : Z128 :=
  let s := xor (shuf s 0x1b) (rshift s 1)
  let s := add s (lshift s 17)
  let s := xor (shuf s 0x1b) (rshift s 13)
  let s := add s (lshift s 8)
  let s := xor (shuf s 0x1b) (rshift s 2)
  let s := add s (lshift s 28)
  let s := xor (shuf s 0x1b) (rshift s 16)
  let s := add s (lshift s 4)
  let s := xor (shuf s 0x1b) (rshift s 6)
  let s := add s (lshift s 9)
  s

/-- Four 128-bit registers `x0, x1, x2, x3` that the macros with `##` work on together. -/
structure Quad where
  q0 : Z128
  q1 : Z128
  q2 : Z128
  q3 : Z128
  deriving DecidableEq

/-- Source: `#define FINAL4(s)`, which mixes `s0 .. s3`; the macro's caller uses `s0`. -/
def FINAL4 (s : Quad) : Quad :=
  let s0 := s.q0; let s1 := s.q1; let s2 := s.q2; let s3 := s.q3
  let s1 := xor (shuf s1 0x1b) s2
  let s3 := xor (shuf s3 0x1b) s0
  let s2 := add (shuf s2 0x39) (lshift s1 6)
  let s0 := add (shuf s0 0x39) (lshift s3 6)
  let s1 := xor (shuf s1 0x1b) s0
  let s2 := xor (shuf s2 0x1b) s3
  let s3 := add (shuf s3 0x39) (lshift s2 19)
  let s0 := add (shuf s0 0x39) (lshift s1 19)
  let s1 := xor (shuf s1 0x1b) s3
  let s2 := xor (shuf s2 0x1b) s0
  let s3 := add (shuf s3 0x39) (lshift s1 9)
  let s0 := add (shuf s0 0x39) (lshift s2 9)
  let s1 := xor (shuf s1 0x1b) s2
  let s3 := xor (shuf s3 0x1b) s0
  let s0 := add (shuf s0 0x39) (lshift s3 5)
  let s1 := xor (shuf s1 0x1b) s0
  let s0 := add (shuf s0 0x39) s1
  { q0 := s0, q1 := s1, q2 := s2, q3 := s3 }

/-- The result of the macro `CHURN4(data,i,q,s,x,y,z)`: the new `x`, `s` and `y`. -/
structure Churn4 where
  x : Quad
  s : Quad
  y : Quad

/-- Source: `#define CHURN4(data,i,q,s,x,y,z)`, with `iq` the index `(i)+(q)`. -/
def CHURN4 (data : List Byte) (iq : Nat) (s y z : Quad) : Churn4 :=
  let x0 := read data iq
  let x1 := read data (iq + 1)
  let x2 := read data (iq + 2)
  let x3 := read data (iq + 3)
  let c0 := CHURN s.q0 x0 y.q0 z.q0
  let c1 := CHURN s.q1 x1 y.q1 z.q1
  let c2 := CHURN s.q2 x2 y.q2 z.q2
  let c3 := CHURN s.q3 x3 y.q3 z.q3
  { x := { q0 := x0, q1 := x1, q2 := x2, q3 := x3 },
    s := { q0 := c0.s, q1 := c1.s, q2 := c2.s, q3 := c3.s },
    y := { q0 := c0.second, q1 := c1.second, q2 := c2.second, q3 := c3.second } }

/-- Source: `#define TAIL4(s,third)`. -/
def TAIL4 (s third : Quad) : Quad :=
  { q0 := TAIL1 s.q0 third.q0, q1 := TAIL1 s.q1 third.q1,
    q2 := TAIL1 s.q2 third.q2, q3 := TAIL1 s.q3 third.q3 }

/-- Source: `#define TO_REG(a,m,i)`. -/
def TO_REG (m : List Z128) (i : Nat) : Quad :=
  { q0 := m.getD i default, q1 := m.getD (i + 1) default,
    q2 := m.getD (i + 2) default, q3 := m.getD (i + 3) default }

/-- Source: `#define FROM_REG(a,m,i)`. -/
def FROM_REG (a : Quad) (m : List Z128) (i : Nat) : List Z128 :=
  (((m.set i a.q0).set (i + 1) a.q1).set (i + 2) a.q2).set (i + 3) a.q3

/-- Source: `typedef struct zorba`.  `data` holds the `16 * (BLOCK+4) = 832` bytes of
`z128 data[BLOCK+4]`. -/
structure zorba where
  accum : List Z128
  data : List Byte
  s : List Z128
  messagelen : Nat
  datalen : Nat
  deriving DecidableEq

/-- The registers `s, l, k, j, i, h, g, f, e, d, c` (four each) that `update` and `final`
load from and store to the state.  The registers `a` and `b` are locals that every path
assigns before reading. -/
structure Regs where
  s : Quad
  l : Quad
  k : Quad
  j : Quad
  i : Quad
  h : Quad
  g : Quad
  f : Quad
  e : Quad
  d : Quad
  c : Quad

/-- The block `/* load the registers */` of `update` and `final`. -/
def loadRegs (z : zorba) : Regs :=
  { s := TO_REG z.s 0, l := TO_REG z.accum 0, k := TO_REG z.accum 4, j := TO_REG z.accum 8,
    i := TO_REG z.accum 12, h := TO_REG z.accum 16, g := TO_REG z.accum 20,
    f := TO_REG z.accum 24, e := TO_REG z.accum 28, d := TO_REG z.accum 32,
    c := TO_REG z.accum 36 }

/-- The block `/* store the registers */` of `update`. -/
def storeRegs (z : zorba) (r : Regs) : zorba :=
  let s := FROM_REG r.s z.s 0
  let accum := FROM_REG r.l z.accum 0
  let accum := FROM_REG r.k accum 4
  let accum := FROM_REG r.j accum 8
  let accum := FROM_REG r.i accum 12
  let accum := FROM_REG r.h accum 16
  let accum := FROM_REG r.g accum 20
  let accum := FROM_REG r.f accum 24
  let accum := FROM_REG r.e accum 28
  let accum := FROM_REG r.d accum 32
  let accum := FROM_REG r.c accum 36
  { z with s := s, accum := accum }

/-- Source: `init(z)`.  The array `z->data` is not written. -/
def init (z : zorba) : zorba :=
  { z with s := List.replicate 4 ⟨0x5555555555555555, 0x5555555555555555⟩,
           accum := List.replicate BLOCK ⟨0, 0⟩,
           datalen := 0,
           messagelen := 0 }

/-- The twelve `CHURN4` lines of `update` under `if (oldlen)`, on the cached block. -/
def churnCached (cache : List Byte) (r : Regs) : Regs :=
  let s := r.s; let l := r.l; let k := r.k; let j := r.j; let i := r.i; let h := r.h
  let g := r.g; let f := r.f; let e := r.e; let d := r.d; let c := r.c
  let t := CHURN4 cache (0 + 0) s h l; let b := t.x; let s := t.s; let h := t.y
  let t := CHURN4 cache (0 + 4) s c k; let a := t.x; let s := t.s; let c := t.y
  let t := CHURN4 cache (0 + 8) s f j; let l := t.x; let s := t.s; let f := t.y
  let t := CHURN4 cache (0 + 12) s a i; let k := t.x; let s := t.s; let a := t.y
  let t := CHURN4 cache (0 + 16) s d h; let j := t.x; let s := t.s; let d := t.y
  let t := CHURN4 cache (0 + 20) s k g; let i := t.x; let s := t.s; let k := t.y
  let t := CHURN4 cache (0 + 24) s b f; let h := t.x; let s := t.s; let b := t.y
  let t := CHURN4 cache (0 + 28) s i e; let g := t.x; let s := t.s; let i := t.y
  let t := CHURN4 cache (0 + 32) s l d; let f := t.x; let s := t.s; let l := t.y
  let t := CHURN4 cache (0 + 36) s g c; let e := t.x; let s := t.s; let g := t.y
  let t := CHURN4 cache (0 + 40) s j b; let d := t.x; let s := t.s; let j := t.y
  let t := CHURN4 cache (0 + 44) s e a; let c := t.x; let s := t.s; let e := t.y
  { s := s, l := l, k := k, j := j, i := i, h := h, g := g, f := f, e := e, d := d, c := c }

/-- The twelve `CHURN4` lines of the loop of `update` over aligned data, for one value
of `counter`. -/
def churnAligned (aligned_data : List Byte) (counter : Nat) (r : Regs) : Regs :=
  let s := r.s; let l := r.l; let k := r.k; let j := r.j; let i := r.i; let h := r.h
  let g := r.g; let f := r.f; let e := r.e; let d := r.d; let c := r.c
  let t := CHURN4 aligned_data (counter - 48) s h l; let b := t.x; let s := t.s; let h := t.y
  let t := CHURN4 aligned_data (counter - 44) s i k; let a := t.x; let s := t.s; let i := t.y
  let t := CHURN4 aligned_data (counter - 40) s f j; let l := t.x; let s := t.s; let f := t.y
  let t := CHURN4 aligned_data (counter - 36) s g i; let k := t.x; let s := t.s; let g := t.y
  let t := CHURN4 aligned_data (counter - 32) s d h; let j := t.x; let s := t.s; let d := t.y
  let t := CHURN4 aligned_data (counter - 28) s e g; let i := t.x; let s := t.s; let e := t.y
  let t := CHURN4 aligned_data (counter - 24) s b f; let h := t.x; let s := t.s; let b := t.y
  let t := CHURN4 aligned_data (counter - 20) s c e; let g := t.x; let s := t.s; let c := t.y
  let t := CHURN4 aligned_data (counter - 16) s l d; let f := t.x; let s := t.s; let l := t.y
  let t := CHURN4 aligned_data (counter - 12) s a c; let e := t.x; let s := t.s; let a := t.y
  let t := CHURN4 aligned_data (counter - 8) s j b; let d := t.x; let s := t.s; let j := t.y
  let t := CHURN4 aligned_data (counter - 4) s k a; let c := t.x; let s := t.s; let k := t.y
  { s := s, l := l, k := k, j := j, i := i, h := h, g := g, f := f, e := e, d := d, c := c }

/-- The twelve `CHURN4` lines of the loop of `update` over unaligned data, on the block
copied into the cache. -/
def churnBuffered (cache : List Byte) (r : Regs) : Regs :=
  let s := r.s; let l := r.l; let k := r.k; let j := r.j; let i := r.i; let h := r.h
  let g := r.g; let f := r.f; let e := r.e; let d := r.d; let c := r.c
  let t := CHURN4 cache (0 + 0) s h l; let b := t.x; let s := t.s; let h := t.y
  let t := CHURN4 cache (0 + 4) s i k; let a := t.x; let s := t.s; let i := t.y
  let t := CHURN4 cache (0 + 8) s f j; let l := t.x; let s := t.s; let f := t.y
  let t := CHURN4 cache (0 + 12) s g i; let k := t.x; let s := t.s; let g := t.y
  let t := CHURN4 cache (0 + 16) s d h; let j := t.x; let s := t.s; let d := t.y
  let t := CHURN4 cache (0 + 20) s e g; let i := t.x; let s := t.s; let e := t.y
  let t := CHURN4 cache (0 + 24) s b f; let h := t.x; let s := t.s; let b := t.y
  let t := CHURN4 cache (0 + 28) s c e; let g := t.x; let s := t.s; let c := t.y
  let t := CHURN4 cache (0 + 32) s l d; let f := t.x; let s := t.s; let l := t.y
  let t := CHURN4 cache (0 + 36) s a c; let e := t.x; let s := t.s; let a := t.y
  let t := CHURN4 cache (0 + 40) s j b; let d := t.x; let s := t.s; let j := t.y
  let t := CHURN4 cache (0 + 44) s k a; let c := t.x; let s := t.s; let k := t.y
  { s := s, l := l, k := k, j := j, i := i, h := h, g := g, f := f, e := e, d := d, c := c }

/-- The loop `for (counter=BLOCK; counter<=len2; counter+=BLOCK)` of `update`, which runs
`n = len2 / BLOCK` times; the result holds the value of `counter` after the loop. -/
def alignedLoop (aligned_data : List Byte) : Nat → Nat → Regs → Nat × Regs
  | 0, counter, r => (counter, r)
  | n + 1, counter, r =>
      alignedLoop aligned_data n (counter + BLOCK) (churnAligned aligned_data counter r)

/-- The loop `for (counter=BUFFERED; counter<=len; counter+=BUFFERED)` of `update`, which
runs `n = len / BUFFERED` times and copies each block into `z->data` first; the result
holds the value of `counter` after the loop and the cache. -/
def bufferedLoop (data : List Byte) : Nat → Nat → List Byte → Regs → Nat × List Byte × Regs
  | 0, counter, cache, r => (counter, cache, r)
  | n + 1, counter, cache, r =>
      let cache := memcpy cache 0 (data.drop (counter - BUFFERED)) BUFFERED
      bufferedLoop data n (counter + BUFFERED) cache (churnBuffered cache r)

/-- Source: `update(z, data, len)`, with `addr` the address `(size_t)data`. -/
def update (z : zorba) (data : List Byte) (len : Nat) (addr : Nat) : zorba :=
  let oldlen := z.datalen
  let total := oldlen + len
  let z := { z with messagelen := (z.messagelen + len) % W64 }
  if total < BUFFERED then
    { z with data := memcpy z.data oldlen data len, datalen := total }
  else
    let r := loadRegs z
    let st : List Byte × Regs × Nat :=
      if oldlen ≠ 0 then
        let piece := BUFFERED - oldlen
        let cache := memcpy z.data oldlen data piece
        (cache, churnCached cache r, len - piece)
      else (z.data, r, len)
    let cache := st.1
    let r := st.2.1
    let len := st.2.2
    let lp : Nat × List Byte × Regs :=
      if addr &&& 15 = 0 then
        let len2 := len / 16
        let cr := alignedLoop data (len2 / BLOCK) BLOCK r
        (cr.1 * 16, cache, cr.2)
      else bufferedLoop data (len / BUFFERED) BUFFERED cache r
    let counter := lp.1
    let cache := lp.2.1
    let r := lp.2.2
    let z := storeRegs { z with data := cache } r
    let len := BUFFERED + len - counter
    if len ≠ 0 then
      { z with data := memcpy z.data 0 (data.drop (counter - BUFFERED)) len, datalen := len }
    else z

/-- The registers `s, c, d, ..., l` (one each) of `midhash`. -/
structure Regs1 where
  s : Z128
  l : Z128
  k : Z128
  j : Z128
  i : Z128
  h : Z128
  g : Z128
  f : Z128
  e : Z128
  d : Z128
  c : Z128

/-- The loop `for (counter=2; counter<=total/16; counter+=2)` of `midhash`, which runs
`n = (total/16) / 2` times; the result holds the value of `counter` after the loop. -/
def midLoop (cache : List Byte) : Nat → Nat → Regs1 → Nat × Regs1
  | 0, counter, r => (counter, r)
  | n + 1, counter, r =>
      let s := r.s; let l := r.l; let k := r.k; let i := r.i; let h := r.h
      let b := read cache (counter - 2); let t := CHURN s b h l; let s := t.s; let h := t.second
      let a := read cache (counter - 1); let t := CHURN s a i k; let s := t.s; let i := t.second
      midLoop cache n (counter + 2)
        { s := s, l := r.j, k := i, j := h, i := r.g, h := r.f, g := r.e, f := r.d, e := r.c,
          d := b, c := a }

/-- The text of the message printed before `exit(1)`. -/
def keyTooLong : String := "key length must be 16 bytes or less"

/-- Source: `midhash(message, mlen, key, klen)`.  The first component is the memory at
`message` after the call, the second the returned value, or the error of `exit(1)`. -/
def midhash (message : List Byte) (mlen : Nat) (key : List Byte) (klen : Nat) :
    List Byte × Except String Z128 :=
  let cache := message
  let total := mlen + klen
  if klen > 16 then (cache, .error keyTooLong)
  else
    let cache := memcpy cache mlen key klen
    let cache := cache.set total (Fin.ofNat klen)
    let cache := cache.set (total + 1) (Fin.ofNat (mlen + 1))
    let total := total + 2
    let ct : List Byte × Nat :=
      if total &&& 15 ≠ 0 then
        let tail := 16 - (total &&& 15)
        (memset cache total 0 tail, total + tail)
      else (cache, total)
    let cache := ct.1
    let total := ct.2
    let s := deadbeef
    let lp := midLoop cache ((total / 16) / 2) 2
      { s := s, l := s, k := s, j := s, i := s, h := s, g := s, f := s, e := s, d := s, c := s }
    let counter := lp.1
    let r := lp.2
    let s := r.s
    let s :=
      if counter ≠ total / 16 then
        let b := read cache (counter - 2); let t := CHURN s b r.h r.l; let s := t.s
        let h := t.second
        let s := TAIL1 s r.k
        let s := TAIL1 s r.j
        let s := TAIL1 s r.i
        let s := TAIL1 s h
        let s := TAIL1 s r.g
        let s := TAIL1 s r.f
        let s := TAIL1 s r.e
        let s := TAIL1 s r.d
        let s := TAIL1 s r.c
        let s := TAIL1 s b
        s
      else
        let s := TAIL1 s r.l
        let s := TAIL1 s r.k
        let s := TAIL1 s r.j
        let s := TAIL1 s r.i
        let s := TAIL1 s r.h
        let s := TAIL1 s r.g
        let s := TAIL1 s r.f
        let s := TAIL1 s r.e
        let s := TAIL1 s r.d
        let s := TAIL1 s r.c
        s
    (cache, .ok (FINAL1 s))

/-- The branch `total <= 15` of `final`, `keyhash` and `hash`: the value built in `val`
and finalised by `FINAL1`. -/
def shortHash (message : List Byte) (mlen : Nat) (key : List Byte) (klen : Nat) : Z128 :=
  let val := deadbeefBytes
  let val := memcpy val 0 message mlen
  let val := memcpy val mlen key klen
  let val := val.set 15 (Fin.ofNat (1 + mlen + (klen <<< 4)))
  FINAL1 (read val 0)

/-- The loop `for (counter=8; counter<=total/16; counter += 8)` of `final`, which runs
`n = (total/16) / 8` times; the result holds the value of `counter` after the loop. -/
def finalLoop (cache : List Byte) : Nat → Nat → Regs → Nat × Regs
  | 0, counter, r => (counter, r)
  | n + 1, counter, r =>
      let s := r.s; let l := r.l; let k := r.k; let i := r.i; let h := r.h
      let t := CHURN4 cache (counter - 8) s h l; let b := t.x; let s := t.s; let h := t.y
      let t := CHURN4 cache (counter - 4) s i k; let a := t.x; let s := t.s; let i := t.y
      finalLoop cache n (counter + 8)
        { s := s, l := r.j, k := i, j := h, i := r.g, h := r.f, g := r.e, f := r.d, e := r.c,
          d := b, c := a }

/-- Source: `final(z, key, klen)`.  The first component is the state `*z` after the call,
the second the returned value, or the error of `exit(1)`. -/
def final (z : zorba) (key : List Byte) (klen : Nat) : zorba × Except String Z128 :=
  let total := (z.messagelen + klen) % W64
  if total ≤ 15 then
    (z, .ok (shortHash z.data z.datalen key klen))
  else if total ≤ LARGE then
    let r := midhash z.data z.datalen key klen
    ({ z with data := r.1 }, r.2)
  else
    if klen > 16 then (z, .error keyTooLong)
    else
      let total := z.datalen + klen
      let r := loadRegs z
      let data := memcpy z.data z.datalen key klen
      let data := data.set total (Fin.ofNat klen)
      let data := data.set (total + 1) (Fin.ofNat ((z.datalen &&& 63) + 1))
      let total := total + 2
      let ct : List Byte × Nat :=
        if total &&& 63 ≠ 0 then
          let tail := 64 - (total &&& 63)
          (memset data total 0 tail, total + tail)
        else (data, total)
      let data := ct.1
      let total := ct.2
      let cache := data
      let lp := finalLoop cache ((total / 16) / 8) 8 r
      let counter := lp.1
      let r := lp.2
      let s := r.s
      let s :=
        if counter ≠ total / 16 then
          let t := CHURN4 cache (counter - 8) s r.h r.l; let b := t.x; let s := t.s
          let h := t.y
          let s := TAIL4 s r.k
          let s := TAIL4 s r.j
          let s := TAIL4 s r.i
          let s := TAIL4 s h
          let s := TAIL4 s r.g
          let s := TAIL4 s r.f
          let s := TAIL4 s r.e
          let s := TAIL4 s r.d
          let s := TAIL4 s r.c
          let s := TAIL4 s b
          s
        else
          let s := TAIL4 s r.l
          let s := TAIL4 s r.k
          let s := TAIL4 s r.j
          let s := TAIL4 s r.i
          let s := TAIL4 s r.h
          let s := TAIL4 s r.g
          let s := TAIL4 s r.f
          let s := TAIL4 s r.e
          let s := TAIL4 s r.d
          let s := TAIL4 s r.c
          s
      ({ z with data := data }, .ok (FINAL4 s).q0)

/-- Source: `keyhash(message, mlen, key, klen)`, with `addr` the address of the message,
`buf0` the bytes that the uninitialised local `buf` (and the stack after it) holds on
entry, and `z0` the contents of the uninitialised local `z`. -/
def keyhash (message : List Byte) (mlen : Nat) (key : List Byte) (klen : Nat)
    (addr : Nat) (buf0 : List Byte) (z0 : zorba) : Except String Z128 :=
  let len := (mlen + klen) % W64
  if len ≤ 15 then
    .ok (shortHash message mlen key klen)
  else if mlen ≤ LARGE then
    let buf := memset buf0 (16 * (mlen / 16)) 0 16
    let buf := memcpy buf 0 message mlen
    (midhash buf mlen key klen).2
  else
    let z := init z0
    let z := update z message mlen addr
    (final z key klen).2

/-- Source: `hash(message, mlen)`, with `addr`, `buf0` and `z0` as for `keyhash`.  The
local `char key[1]` is passed with length 0 and never read. -/
def hash (message : List Byte) (mlen : Nat) (addr : Nat) (buf0 : List Byte) (z0 : zorba) :
    Except String Z128 :=
  if mlen ≤ 15 then
    let val := deadbeefBytes
    let val := memcpy val 0 message mlen
    let val := val.set 15 (Fin.ofNat (1 + mlen))
    .ok (FINAL1 (read val 0))
  else if mlen ≤ LARGE then
    let buf := memset buf0 (16 * (mlen / 16)) 0 16
    let buf := memcpy buf 0 message mlen
    (midhash buf mlen [] 0).2
  else
    let z := init z0
    let z := update z message mlen addr
    (final z [] 0).2

deriving instance DecidableEq for Except

/-- A `zorba` structure whose every byte is zero, as a structure with static storage is. -/
def zeroZorba : zorba :=
  { accum := List.replicate BLOCK ⟨0, 0⟩, data := List.replicate (16 * (BLOCK + 4)) 0,
    s := List.replicate 4 ⟨0, 0⟩, messagelen := 0, datalen := 0 }

end Zorba

namespace Gauss

/-- Source: `#define MAKEBIT(x) (((x)+31)>>5)`, the number of 32-bit words for `x` bits. -/
def MAKEBIT (x : Nat) : Nat := (x + 31) >>> 5

/-- Source: `bitvtst(x, mybit)`: whether `x[mybit>>5] & (1 << (mybit & 31))` is nonzero. -/
def bitvtst (x : List Nat) (mybit : Nat) : Bool :=
  (x.getD (mybit >>> 5) 0) &&& (1 <<< (mybit &&& 31)) != 0

/-- Source: `bitvxor(x, y, z, len)`: the array `x` after
`for (i=0; i<MAKEBIT(len); ++i) x[i] = y[i] ^ z[i];`.  In `gauss` the arrays `x` and `y` are
the same row; step `i` reads and writes index `i` only. -/
def bitvxor (x y z : List Nat) (len : Nat) : List Nat :=
  (List.range (MAKEBIT len)).foldl (fun x i => x.set i (y.getD i 0 ^^^ z.getD i 0)) x

/-- The loop `for (j=i+1; j<row; ++j) if (bitvtst(m[j],l)) break;` of `gauss`, with `n`
the number of values of `j` left: the value of `j` after the loop. -/
def findRow (m : List (List Nat)) (l : Nat) : Nat → Nat → Nat
  | 0, j => j
  | n + 1, j => if bitvtst (m.getD j []) l then j else findRow m l n (j + 1)

/-- The loop `for (j=i+1; j<row; ++j) if (bitvtst(m[j],l)) bitvxor(m[j],m[j],m[i],col);` of
`gauss`, with `n` the number of values of `j` left. -/
def eliminate (i l col : Nat) : Nat → Nat → List (List Nat) → List (List Nat)
  | 0, _, m => m
  | n + 1, j, m =>
      let m :=
        if bitvtst (m.getD j []) l then
          m.set j (bitvxor (m.getD j []) (m.getD j []) (m.getD i []) col)
        else m
      eliminate i l col n (j + 1) m

/-- How the loop `while (!bitvtst(m[i],l))` of `gauss` ends: with `return i`, or with its
condition false, row `i` having a nonzero term `l`. -/
inductive Found where
  | returned (m : List (List Nat)) (i : Nat)
  | pivot (m : List (List Nat)) (l : Nat)

/-- The loop `while (!bitvtst(m[i],l))` of `gauss`; `none` when the iterations allowed by
the first argument are used up. -/
def findPivot (row col i : Nat) : Nat → List (List Nat) → Nat → Option Found
  | 0, _, _ => none
  | fuel + 1, m, l =>
      if !bitvtst (m.getD i []) l then
        let j := findRow m l (row - (i + 1)) (i + 1)
        if j = row then
          let l := l + 1
          if l ≥ col then some (.returned m i) else findPivot row col i fuel m l
        else
          let temp := m.getD i []
          let m := m.set i (m.getD j [])
          let m := m.set j temp
          findPivot row col i fuel m l
      else some (.pivot m l)

/-- The loop `for (i=0,l=0; i<row; ++i)` of `gauss` followed by `return row`, with `n` the
number of values of `i` left.  The inner `while` loop is allowed `col + 1` tests of its
condition. -/
def gaussLoop (row col : Nat) : Nat → Nat → Nat → List (List Nat) → Option (List (List Nat) × Nat)
  | 0, _, _, m => some (m, row)
  | n + 1, i, l, m =>
      match findPivot row col i (col + 1) m l with
      | none => none
      | some (.returned m r) => some (m, r)
      | some (.pivot m l) =>
          gaussLoop row col n (i + 1) l (eliminate i l col (row - (i + 1)) (i + 1) m)

/-- Source: `gauss(m, row, col)`: the rows after the call and the returned count. -/
def gauss (m : List (List Nat)) (row col : Nat) : Option (List (List Nat) × Nat) :=
  gaussLoop row col row 0 0 m

/-- The term `j` of equation `i`: `bitvtst(m[i], j)`. -/
def bitOf (m : List (List Nat)) (i j : Nat) : Bool := bitvtst (m.getD i []) j

/-- The `row x col` matrix over GF(2) whose entries are the bits given by `B`. -/
def matOf (B : Nat → Nat → Bool) (row col : Nat) : Matrix (Fin row) (Fin col) (ZMod 2) :=
  Matrix.of fun i j => if B i.val j.val then 1 else 0

/-- The `row x col` matrix over GF(2) that the rows `m` stand for. -/
def toMatrix (m : List (List Nat)) (row col : Nat) : Matrix (Fin row) (Fin col) (ZMod 2) :=
  matOf (bitOf m) row col

/-- The invariant of the outer loop of `gauss` at row `i` and term `l`: the rows `m` have
the rank of the rows `m0` given to `gauss`; each row `k < i` has a term `p k` that is 1 in
row `k` and 0 in every later row; and rows `i` and later are 0 in all terms before `l`. -/
structure Inv (m0 : List (List Nat)) (row col : Nat) (m : List (List Nat)) (i l : Nat) :
    Prop where
  len : row ≤ m.length
  wide : ∀ r, r < row → MAKEBIT col ≤ (m.getD r []).length
  rank : (toMatrix m row col).rank = (toMatrix m0 row col).rank
  piv : ∃ p : Nat → Nat, ∀ k, k < i → p k < col ∧ bitOf m k (p k) = true ∧
    ∀ k', k < k' → k' < row → bitOf m k' (p k) = false
  low : ∀ k, i ≤ k → k < row → ∀ c, c < l → bitOf m k c = false

end Gauss

namespace SpookyAlpha

/-! ## Basic facts about reads, the mixer and the block loop -/

theorem byteAt_eq_of_take (X Y : List Byte) (n j : Nat) (h : X.take n = Y.take n) (hj : j < n) :
    byteAt X j = byteAt Y j := by
  have hx : (X.take n)[j]? = X[j]? := by rw [List.getElem?_take, if_pos hj]
  have hy : (Y.take n)[j]? = Y[j]? := by rw [List.getElem?_take, if_pos hj]
  unfold byteAt
  simp only [List.getD_eq_getElem?_getD]
  rw [← hx, ← hy, h]

theorem read64_eq_of_take (X Y : List Byte) (n i : Nat) (h : X.take n = Y.take n)
    (hi : 8 * i + 8 ≤ n) : read64 X i = read64 Y i := by
  unfold read64
  rw [byteAt_eq_of_take X Y n (8 * i) h (by omega),
    byteAt_eq_of_take X Y n (8 * i + 1) h (by omega),
    byteAt_eq_of_take X Y n (8 * i + 2) h (by omega),
    byteAt_eq_of_take X Y n (8 * i + 3) h (by omega),
    byteAt_eq_of_take X Y n (8 * i + 4) h (by omega),
    byteAt_eq_of_take X Y n (8 * i + 5) h (by omega),
    byteAt_eq_of_take X Y n (8 * i + 6) h (by omega),
    byteAt_eq_of_take X Y n (8 * i + 7) h (by omega)]

theorem SpookyMix_eq_of_take (X Y : List Byte) (s : Lanes)
    (h : X.take BLOCKSIZE = Y.take BLOCKSIZE) : SpookyMix X s = SpookyMix Y s := by
  have hr : ∀ i, i < 12 → read64 X i = read64 Y i := fun i hi =>
    read64_eq_of_take X Y BLOCKSIZE i h (by show 8 * i + 8 ≤ 96; omega)
  unfold SpookyMix
  rw [hr 0 (by omega), hr 1 (by omega), hr 2 (by omega), hr 3 (by omega),
    hr 4 (by omega), hr 5 (by omega), hr 6 (by omega), hr 7 (by omega),
    hr 8 (by omega), hr 9 (by omega), hr 10 (by omega), hr 11 (by omega)]

theorem mixBlocks_eq_of_take (n : Nat) (X Y : List Byte) (s : Lanes)
    (h : X.take (BLOCKSIZE * n) = Y.take (BLOCKSIZE * n)) :
    mixBlocks n X s = mixBlocks n Y s := by
  induction n generalizing X Y s with
  | zero => rfl
  | succ k ih =>
    have h96 : X.take BLOCKSIZE = Y.take BLOCKSIZE := by
      have := congrArg (List.take BLOCKSIZE) h
      simpa [List.take_take, Nat.mul_succ] using this
    have hd : (X.drop BLOCKSIZE).take (BLOCKSIZE * k) = (Y.drop BLOCKSIZE).take (BLOCKSIZE * k) := by
      have := congrArg (List.drop BLOCKSIZE) h
      simpa [List.drop_take, Nat.mul_succ] using this
    simp only [mixBlocks]
    rw [SpookyMix_eq_of_take X Y s h96]
    exact ih _ _ _ hd

theorem mixBlocks_add (a b : Nat) (X : List Byte) (s : Lanes) :
    mixBlocks (a + b) X s = mixBlocks b (X.drop (BLOCKSIZE * a)) (mixBlocks a X s) := by
  induction a generalizing X s with
  | zero => simp [mixBlocks]
  | succ k ih =>
    have : k + 1 + b = (k + b) + 1 := by omega
    rw [this]
    simp only [mixBlocks]
    rw [ih]
    simp [List.drop_drop, Nat.mul_succ, Nat.add_comm]

theorem mixBlocks_append (n : Nat) (A B : List Byte) (s : Lanes)
    (h : BLOCKSIZE * n ≤ A.length) : mixBlocks n (A ++ B) s = mixBlocks n A s := by
  apply mixBlocks_eq_of_take
  rw [List.take_append_of_le_length h]

theorem SpookyUpdate_short (st : Spooky) (D : List Byte)
    (h : st.remainder + D.length < BLOCKSIZE) :
    SpookyUpdate st D D.length =
      { st with data := st.data.take st.remainder ++ D ++ st.data.drop (st.remainder + D.length),
                length := (D.length + st.length) % W64,
                remainder := st.remainder + D.length } := by
  have h1 : (D.length + st.remainder) % W64 = st.remainder + D.length := by
    simp only [BLOCKSIZE, W64] at *; omega
  have h2 : (st.remainder + D.length) % 256 = st.remainder + D.length := by
    simp only [BLOCKSIZE] at *; omega
  unfold SpookyUpdate
  simp only [h1, h, if_true, h2, memcpy, List.take_length]

theorem length_memcpy_zero (dst src : List Byte) (n : Nat) (hn : n ≤ src.length)
    (hd : n ≤ dst.length) : (memcpy dst 0 src n).length = dst.length := by
  simp only [memcpy, List.take_zero, List.nil_append, Nat.zero_add, List.length_append,
    List.length_take, List.length_drop]
  omega

theorem take_memcpy_zero (dst src : List Byte) (n : Nat) (hn : n ≤ src.length) :
    (memcpy dst 0 src n).take n = src.take n := by
  simp only [memcpy, List.take_zero, List.nil_append, Nat.zero_add]
  rw [List.take_append_of_le_length (by simp [List.length_take]; omega)]
  simp [List.take_take]

theorem SpookyUpdate_block_zero (st : Spooky) (D : List Byte)
    (hp : st.remainder = 0) (h : BLOCKSIZE ≤ D.length) (hD : D.length < W64) :
    SpookyUpdate st D D.length =
      { data := memcpy st.data 0 (D.drop (D.length / BLOCKSIZE * BLOCKSIZE)) (D.length % BLOCKSIZE),
        state := mixBlocks (D.length / BLOCKSIZE) D (loadLanes st),
        length := (D.length + st.length) % W64,
        remainder := D.length % BLOCKSIZE } := by
  have h1 : (D.length + 0) % W64 = D.length := Nat.mod_eq_of_lt hD
  have h2 : ¬ D.length < BLOCKSIZE := by omega
  have h3 : (D.length - D.length / BLOCKSIZE * BLOCKSIZE) % 256 = D.length % BLOCKSIZE := by
    simp only [BLOCKSIZE]; omega
  have h4 : D.length / BLOCKSIZE * 12 * 8 = D.length / BLOCKSIZE * BLOCKSIZE := by
    simp only [BLOCKSIZE]; omega
  unfold SpookyUpdate
  simp only [h1, h2, if_false, hp, ne_eq, not_true_eq_false, h3, h4]

theorem SpookyUpdate_block_pos (st : Spooky) (D : List Byte)
    (hp0 : st.remainder ≠ 0) (hp : st.remainder < BLOCKSIZE)
    (h : BLOCKSIZE ≤ st.remainder + D.length) (hD : st.remainder + D.length < W64) :
    SpookyUpdate st D D.length =
      { data := memcpy (memcpy st.data st.remainder D (BLOCKSIZE - st.remainder)) 0
          (D.drop (BLOCKSIZE - st.remainder + (D.length - (BLOCKSIZE - st.remainder)) / BLOCKSIZE * BLOCKSIZE))
          ((st.remainder + D.length) % BLOCKSIZE),
        state := mixBlocks ((D.length - (BLOCKSIZE - st.remainder)) / BLOCKSIZE)
          (D.drop (BLOCKSIZE - st.remainder))
          (SpookyMix (memcpy st.data st.remainder D (BLOCKSIZE - st.remainder)) (loadLanes st)),
        length := (D.length + st.length) % W64,
        remainder := (st.remainder + D.length) % BLOCKSIZE } := by
  have h1 : (D.length + st.remainder) % W64 = st.remainder + D.length := by
    rw [Nat.add_comm]; exact Nat.mod_eq_of_lt hD
  have h2 : ¬ st.remainder + D.length < BLOCKSIZE := by omega
  have h5 : (BLOCKSIZE + 256 - st.remainder) % 256 = BLOCKSIZE - st.remainder := by
    simp only [BLOCKSIZE] at *; omega
  have h6 : (D.length + W64 - (BLOCKSIZE - st.remainder)) % W64
      = D.length - (BLOCKSIZE - st.remainder) := by
    simp only [BLOCKSIZE, W64] at *; omega
  have h3 : (D.length - (BLOCKSIZE - st.remainder)
      - (D.length - (BLOCKSIZE - st.remainder)) / BLOCKSIZE * BLOCKSIZE) % 256
      = (st.remainder + D.length) % BLOCKSIZE := by
    simp only [BLOCKSIZE] at *; omega
  have h4 : (D.length - (BLOCKSIZE - st.remainder)) / BLOCKSIZE * 12 * 8
      = (D.length - (BLOCKSIZE - st.remainder)) / BLOCKSIZE * BLOCKSIZE := by
    simp only [BLOCKSIZE]; omega
  unfold SpookyUpdate
  simp only [h1, h2, if_false, ne_eq, hp0, not_false_eq_true, if_true, h5, h6, h3, h4,
    List.drop_drop]

theorem take_drop_tail (D : List Byte) (k r : Nat) (hk : k + r = D.length) :
    (D.drop k).take r = D.drop (D.length - r) := by
  have : D.length - r = k := by omega
  rw [this]
  apply List.take_of_length_le
  simp only [List.length_drop]; omega

theorem SpookyUpdate_block (st : Spooky) (D : List Byte)
    (hp : st.remainder < BLOCKSIZE) (hd : st.data.length = BLOCKSIZE)
    (h : BLOCKSIZE ≤ st.remainder + D.length) (hD : st.remainder + D.length < W64) :
    (SpookyUpdate st D D.length).state
        = mixBlocks ((st.remainder + D.length) / BLOCKSIZE)
            (st.data.take st.remainder ++ D) (loadLanes st) ∧
    (SpookyUpdate st D D.length).remainder = (st.remainder + D.length) % BLOCKSIZE ∧
    (SpookyUpdate st D D.length).data.take ((st.remainder + D.length) % BLOCKSIZE)
        = D.drop (D.length - (st.remainder + D.length) % BLOCKSIZE) ∧
    (SpookyUpdate st D D.length).data.length = BLOCKSIZE ∧
    (SpookyUpdate st D D.length).length = (D.length + st.length) % W64 := by
  by_cases hp0 : st.remainder = 0
  · have hD' : D.length < W64 := by omega
    have h' : BLOCKSIZE ≤ D.length := by omega
    rw [SpookyUpdate_block_zero st D hp0 h' hD']
    simp only [hp0, Nat.zero_add, List.take_zero, List.nil_append, true_and, and_true]
    have hlen : D.length % BLOCKSIZE ≤ (D.drop (D.length / BLOCKSIZE * BLOCKSIZE)).length := by
      simp only [List.length_drop, BLOCKSIZE]; omega
    refine ⟨?_, ?_⟩
    · rw [take_memcpy_zero _ _ _ hlen]
      apply take_drop_tail
      simp only [BLOCKSIZE]; omega
    · rw [length_memcpy_zero _ _ _ hlen (by rw [hd]; simp only [BLOCKSIZE]; omega)]
      exact hd
  · rw [SpookyUpdate_block_pos st D hp0 hp h hD]
    have hbuf : memcpy st.data st.remainder D (BLOCKSIZE - st.remainder)
        = st.data.take st.remainder ++ D.take (BLOCKSIZE - st.remainder) := by
      have e : st.remainder + (BLOCKSIZE - st.remainder) = st.data.length := by
        rw [hd]; omega
      simp only [memcpy, e, List.drop_length, List.append_nil]
    have hbl : (memcpy st.data st.remainder D (BLOCKSIZE - st.remainder)).length = BLOCKSIZE := by
      rw [hbuf]
      simp only [List.length_append, List.length_take, hd]
      simp only [BLOCKSIZE] at *; omega
    have hlt : (st.data.take st.remainder).length = st.remainder := by
      simp only [List.length_take, hd]; omega
    have hlen : (st.remainder + D.length) % BLOCKSIZE ≤ (D.drop (BLOCKSIZE - st.remainder
        + (D.length - (BLOCKSIZE - st.remainder)) / BLOCKSIZE * BLOCKSIZE)).length := by
      simp only [List.length_drop, BLOCKSIZE] at *; omega
    refine ⟨?_, rfl, ?_, ?_, rfl⟩
    · have hn : (st.remainder + D.length) / BLOCKSIZE
          = (D.length - (BLOCKSIZE - st.remainder)) / BLOCKSIZE + 1 := by
        simp only [BLOCKSIZE] at *; omega
      rw [hn]
      simp only [mixBlocks]
      have hdrop : (st.data.take st.remainder ++ D).drop BLOCKSIZE
          = D.drop (BLOCKSIZE - st.remainder) := by
        rw [List.drop_append_eq_append_drop, hlt]
        rw [List.drop_of_length_le (by rw [hlt]; omega)]
        rfl
      rw [hdrop]
      have hmix : (memcpy st.data st.remainder D (BLOCKSIZE - st.remainder)).take BLOCKSIZE
          = (st.data.take st.remainder ++ D).take BLOCKSIZE := by
        rw [hbuf, @List.take_append_eq_append_take _ (st.data.take st.remainder) D BLOCKSIZE, hlt]
        rw [List.take_of_length_le (Nat.le_of_eq (hbuf ▸ hbl))]
        rw [@List.take_of_length_le _ BLOCKSIZE (st.data.take st.remainder) (by rw [hlt]; omega)]
      rw [SpookyMix_eq_of_take _ _ (loadLanes st) hmix]
    · dsimp only
      rw [take_memcpy_zero _ _ _ hlen]
      apply take_drop_tail
      simp only [BLOCKSIZE] at *; omega
    · dsimp only
      rw [length_memcpy_zero _ _ _ hlen (by rw [hbl]; simp only [BLOCKSIZE]; omega)]
      exact hbl

theorem finalBuf_eq (E : List Byte) (r : Nat) (hE : E.length = r) :
    finalBuf E r = padded E r := by
  have h1 : memcpy (List.replicate BLOCKSIZE 0) 0 E r = E ++ List.replicate (BLOCKSIZE - r) 0 := by
    simp only [memcpy, List.take_zero, List.nil_append, Nat.zero_add, List.drop_replicate]
    rw [List.take_of_length_le (Nat.le_of_eq hE)]
  have h2 : memset (E ++ List.replicate (BLOCKSIZE - r) 0) r 0 (BLOCKSIZE - r)
      = E ++ List.replicate (BLOCKSIZE - r) 0 := by
    have e : r + (BLOCKSIZE - r) = (E ++ List.replicate (BLOCKSIZE - r) (0 : Byte)).length := by
      simp only [List.length_append, List.length_replicate, hE]
    simp only [memset]
    rw [e, List.drop_length, List.append_nil, List.take_append_of_le_length (Nat.le_of_eq hE.symm),
      List.take_of_length_le (Nat.le_of_eq hE)]
  simp only [finalBuf, h1, h2, padded]

theorem SpookyFinal_buf (st : Spooky) (hd : st.data.length = BLOCKSIZE)
    (hr : st.remainder < BLOCKSIZE) :
    (SpookyFinal st).1.data = padded (st.data.take st.remainder) st.remainder := by
  have h5 : (BLOCKSIZE + 256 - st.remainder) % 256 = BLOCKSIZE - st.remainder := by
    simp only [BLOCKSIZE] at *; omega
  have e : st.remainder + (BLOCKSIZE - st.remainder) = st.data.length := by
    rw [hd]; omega
  simp only [SpookyFinal, h5, memset, e, List.drop_length, List.append_nil, padded]

theorem SpookyFinal_digest (st : Spooky) :
    (SpookyFinal st).2 =
      ((SpookyMix (SpookyFinal st).1.data (SpookyMix (SpookyFinal st).1.data
          (SpookyMix (SpookyFinal st).1.data (SpookyMix (SpookyFinal st).1.data
            (loadLanes st))))).h11,
       (SpookyMix (SpookyFinal st).1.data (SpookyMix (SpookyFinal st).1.data
          (SpookyMix (SpookyFinal st).1.data (SpookyMix (SpookyFinal st).1.data
            (loadLanes st))))).h0) := rfl

theorem SpookyFinal_frame (st : Spooky) :
    (SpookyFinal st).1.state = st.state ∧ (SpookyFinal st).1.length = st.length ∧
    (SpookyFinal st).1.remainder = st.remainder := ⟨rfl, rfl, rfl⟩

theorem SpookyHash_eq (M : List Byte) (s1 s2 : Nat) :
    SpookyHash M M.length s1 s2 =
      (let buf := padded (M.drop (M.length - M.length % BLOCKSIZE)) (M.length % BLOCKSIZE)
       let h := mixBlocks (M.length / BLOCKSIZE) M (primeLanes s1 s2)
       let h := SpookyMix buf (SpookyMix buf (SpookyMix buf (SpookyMix buf h)))
       (h.h11, h.h0)) := by
  have h1 : M.length / (12 * 8) * 12 * 8 = M.length - M.length % BLOCKSIZE := by
    simp only [BLOCKSIZE]; omega
  have h2 : M.length - (M.length - M.length % BLOCKSIZE) = M.length % BLOCKSIZE := by
    simp only [BLOCKSIZE]; omega
  have h3 : (M.drop (M.length - M.length % BLOCKSIZE)).length = M.length % BLOCKSIZE := by
    simp only [List.length_drop, BLOCKSIZE]; omega
  simp only [SpookyHash, Bool.false_and, Bool.false_eq_true, if_false, h1, h2,
    finalBuf_eq _ _ h3]

theorem Tracks_loadLanes (s1 s2 : Nat) (M : List Byte) (st : Spooky)
    (h : Tracks s1 s2 M st) :
    loadLanes st = mixBlocks (M.length / BLOCKSIZE) M (primeLanes s1 s2) := by
  obtain ⟨_, hl, _, _, hs, hb⟩ := h
  unfold loadLanes
  rw [hl]
  by_cases hlt : M.length < BLOCKSIZE
  · rw [if_pos hlt, (hs hlt).1, (hs hlt).2]
    have : M.length / BLOCKSIZE = 0 := Nat.div_eq_of_lt hlt
    rw [this]; rfl
  · rw [if_neg hlt]
    exact hb (by omega)

theorem Tracks_init (st0 : Spooky) (s1 s2 : Nat) (hd : st0.data.length = BLOCKSIZE) :
    Tracks s1 s2 [] (SpookyInit st0 s1 s2) := by
  refine ⟨hd, rfl, rfl, rfl, fun _ => ⟨rfl, rfl⟩, fun h => ?_⟩
  simp [BLOCKSIZE] at h

theorem Tracks_update (s1 s2 : Nat) (M D : List Byte) (st : Spooky)
    (h : Tracks s1 s2 M st) (hlen : M.length + D.length < W64) :
    Tracks s1 s2 (M ++ D) (SpookyUpdate st D D.length) := by
  have hload := Tracks_loadLanes s1 s2 M st h
  obtain ⟨hd, hl, hr, hbuf, hs, hb⟩ := h
  have hr96 : st.remainder < BLOCKSIZE := by rw [hr]; exact Nat.mod_lt _ (by decide)
  have hMD : (M ++ D).length = M.length + D.length := List.length_append _ _
  have hblk : BLOCKSIZE * (M.length / BLOCKSIZE) = M.length - M.length % BLOCKSIZE := by
    simp only [BLOCKSIZE]; omega
  by_cases hshort : st.remainder + D.length < BLOCKSIZE
  · rw [SpookyUpdate_short st D hshort]
    have hq : (M.length + D.length) / BLOCKSIZE = M.length / BLOCKSIZE := by
      simp only [BLOCKSIZE] at *; omega
    have hm : (M.length + D.length) % BLOCKSIZE = M.length % BLOCKSIZE + D.length := by
      simp only [BLOCKSIZE] at *; omega
    refine ⟨?_, ?_, ?_, ?_, ?_, ?_⟩
    · simp only [List.length_append, List.length_take, List.length_drop, hd]
      simp only [BLOCKSIZE] at *; omega
    · show (D.length + st.length) % W64 = (M ++ D).length
      rw [hMD, hl, Nat.add_comm D.length]; exact Nat.mod_eq_of_lt hlen
    · show st.remainder + D.length = (M ++ D).length % BLOCKSIZE
      rw [hMD, hm, hr]
    · show (st.data.take st.remainder ++ D ++ st.data.drop (st.remainder + D.length)).take
          ((M ++ D).length % BLOCKSIZE) = _
      rw [hMD, hm]
      have e1 : (st.data.take st.remainder ++ D).length = M.length % BLOCKSIZE + D.length := by
        simp only [List.length_append, List.length_take, hd, hr]
        simp only [BLOCKSIZE] at *; omega
      rw [List.take_append_of_le_length (Nat.le_of_eq e1.symm),
        List.take_of_length_le (Nat.le_of_eq e1)]
      have e2 : M.length + D.length - (M.length % BLOCKSIZE + D.length)
          = M.length - M.length % BLOCKSIZE := by
        have := Nat.mod_le M.length BLOCKSIZE
        omega
      rw [e2, List.drop_append_of_le_length (Nat.sub_le _ _), ← hbuf, hr]
    · intro hlt
      exact hs (by rw [hMD] at hlt; omega)
    · intro hge
      rw [hMD] at hge
      have hM : BLOCKSIZE ≤ M.length := by
        simp only [BLOCKSIZE] at *; omega
      show st.state = _
      rw [hb hM, hMD, hq]
      exact (mixBlocks_append _ _ _ _ (by rw [hblk]; exact Nat.sub_le _ _)).symm
  · have hge : BLOCKSIZE ≤ st.remainder + D.length := by omega
    have hW : st.remainder + D.length < W64 := by
      have := Nat.mod_le M.length BLOCKSIZE
      rw [hr]; omega
    obtain ⟨h1, h2, h3, h4, h5⟩ := SpookyUpdate_block st D hr96 hd hge hW
    have hm : (M.length + D.length) % BLOCKSIZE = (st.remainder + D.length) % BLOCKSIZE := by
      rw [hr]; simp only [BLOCKSIZE]; omega
    have hq : (M.length + D.length) / BLOCKSIZE
        = M.length / BLOCKSIZE + (st.remainder + D.length) / BLOCKSIZE := by
      rw [hr]; simp only [BLOCKSIZE]; omega
    refine ⟨h4, ?_, ?_, ?_, ?_, ?_⟩
    · rw [h5, hMD, hl, Nat.add_comm D.length]; exact Nat.mod_eq_of_lt hlen
    · rw [h2, hMD, hm]
    · rw [hMD, hm, h3]
      have hle : (st.remainder + D.length) % BLOCKSIZE ≤ D.length := by
        simp only [BLOCKSIZE] at *; omega
      have e : M.length + D.length - (st.remainder + D.length) % BLOCKSIZE
          = M.length + (D.length - (st.remainder + D.length) % BLOCKSIZE) := by omega
      rw [e, List.drop_append]
    · intro hlt
      rw [hMD] at hlt
      have := Nat.mod_le M.length BLOCKSIZE
      simp only [BLOCKSIZE] at *; omega
    · intro _
      rw [h1, hload, hMD, hq, mixBlocks_add, hblk,
        List.drop_append_of_le_length (Nat.sub_le _ _), ← hbuf, ← hr,
        mixBlocks_append _ M D _ (by rw [hblk]; exact Nat.sub_le _ _)]

theorem padded_length (B : List Byte) (r : Nat) (hB : B.length = r) (hr : r < BLOCKSIZE) :
    (padded B r).length = BLOCKSIZE := by
  simp only [padded, List.length_set, List.length_append, List.length_replicate, hB]
  omega

theorem padded_take (B : List Byte) (r : Nat) (hB : B.length = r) (hr : r < BLOCKSIZE) :
    (padded B r).take r = B := by
  simp only [padded, List.set_take]
  rw [List.take_append_of_le_length (Nat.le_of_eq hB.symm),
    List.take_of_length_le (Nat.le_of_eq hB)]
  apply List.set_eq_of_length_le
  simp only [BLOCKSIZE] at *; omega

theorem Tracks_final (s1 s2 : Nat) (M : List Byte) (st : Spooky) (h : Tracks s1 s2 M st) :
    Tracks s1 s2 M (SpookyFinal st).1 := by
  obtain ⟨hd, hl, hr, hbuf, hs, hb⟩ := h
  have hr96 : st.remainder < BLOCKSIZE := by rw [hr]; exact Nat.mod_lt _ (by decide)
  have hB : (st.data.take st.remainder).length = st.remainder := by
    rw [List.length_take, hd]; omega
  refine ⟨?_, hl, hr, ?_, hs, hb⟩
  · rw [SpookyFinal_buf st hd hr96]
    exact padded_length _ _ hB hr96
  · rw [SpookyFinal_buf st hd hr96, ← hr, padded_take _ _ hB hr96, hr]
    exact hbuf

theorem Tracks_digest (s1 s2 : Nat) (M : List Byte) (st : Spooky) (h : Tracks s1 s2 M st) :
    (SpookyFinal st).2 = SpookyHash M M.length s1 s2 := by
  have hload := Tracks_loadLanes s1 s2 M st h
  obtain ⟨hd, hl, hr, hbuf, hs, hb⟩ := h
  have hr96 : st.remainder < BLOCKSIZE := by rw [hr]; exact Nat.mod_lt _ (by decide)
  rw [SpookyFinal_digest, SpookyFinal_buf st hd hr96, hload, SpookyHash_eq, hr, hbuf]

theorem Tracks_updates (s1 s2 : Nat) (Fs : List (List Byte)) (M : List Byte) (st : Spooky)
    (h : Tracks s1 s2 M st) (hlen : M.length + Fs.flatten.length < W64) :
    Tracks s1 s2 (M ++ Fs.flatten) (updates st Fs) := by
  induction Fs generalizing M st with
  | nil => simpa [updates] using h
  | cons F Fs ih =>
    simp only [List.flatten_cons, List.length_append] at hlen
    have h1 := Tracks_update s1 s2 M F st h (by omega)
    have h2 := ih (M ++ F) (SpookyUpdate st F F.length) h1
      (by rw [List.length_append]; omega)
    simpa [updates, List.append_assoc] using h2

theorem Tracks_run (st0 : Spooky) (s1 s2 : Nat) (Fs : List (List Byte))
    (hd : st0.data.length = BLOCKSIZE) (hlen : Fs.flatten.length < W64) :
    Tracks s1 s2 Fs.flatten (updates (SpookyInit st0 s1 s2) Fs) := by
  have := Tracks_updates s1 s2 Fs [] _ (Tracks_init st0 s1 s2 hd) (by simpa using hlen)
  simpa using this

/-- C1 (streaming equivalence): for every message `M`, every seed pair and every split of
`M` into consecutive fragments (possibly none, possibly empty ones), `SpookyInit`, one
`SpookyUpdate` per fragment and `SpookyFinal` return the same two 64-bit values as
`SpookyHash` called on `M` with the same seeds.  `st0` is whatever the caller's struct held
before `SpookyInit`; the length bound says that `M` fits a `size_t`. -/
theorem C1_streaming_equivalence (st0 : Spooky) (s1 s2 : Nat) (M : List Byte)
    (Fs : List (List Byte)) (hd : st0.data.length = BLOCKSIZE) (hsplit : Fs.flatten = M)
    (hlen : M.length < W64) :
    (SpookyFinal (updates (SpookyInit st0 s1 s2) Fs)).2 = SpookyHash M M.length s1 s2 := by
  subst hsplit
  exact Tracks_digest s1 s2 _ _ (Tracks_run st0 s1 s2 Fs hd hlen)

/-- Witness for C1: a 101-byte message streamed as three fragments, one of them empty. -/
theorem C1_streaming_equivalence_witness :
    zeroState.data.length = BLOCKSIZE ∧
    [List.replicate 100 7, [], [1]].flatten = List.replicate 100 7 ++ [1] ∧
    (List.replicate 100 (7 : Byte) ++ [1]).length < W64 ∧
    (SpookyFinal (updates (SpookyInit zeroState 1 2) [List.replicate 100 7, [], [1]])).2
      = SpookyHash (List.replicate 100 7 ++ [1]) (List.replicate 100 (7 : Byte) ++ [1]).length 1 2 :=
  ⟨by decide, by decide, by decide,
   C1_streaming_equivalence zeroState 1 2 (List.replicate 100 7 ++ [1])
     [List.replicate 100 7, [], [1]] (by decide) (by decide) (by decide)⟩

theorem mixBlocks_eq_foldl (n : Nat) (X : List Byte) (h : Lanes) :
    mixBlocks n X h = (blocksOf n X).foldl (fun h blk => SpookyMix blk h) h := by
  induction n generalizing X h with
  | zero => rfl
  | succ k ih =>
    simp only [mixBlocks, blocksOf, List.foldl_cons]
    rw [ih, SpookyMix_eq_of_take (X.take BLOCKSIZE) X h (by rw [List.take_take, Nat.min_self])]

/-- C2 (bit-exact reference definition): for every message and seeds, `SpookyHash` returns
lanes 11 and 0 of the state obtained by priming the lanes from the seeds, mixing every
complete 96-byte block in order, and mixing four times the final block made of the leftover
bytes, zero-padded, with byte 95 set to the leftover count. -/
theorem C2_SpookyHash_reference (M : List Byte) (s1 s2 : Nat) :
    SpookyHash M M.length s1 s2 = SpookyHash_reference M s1 s2 := by
  rw [SpookyHash_eq]
  simp only [SpookyHash_reference, lastBlock, ← mixBlocks_eq_foldl]
  rfl

theorem WF_of_Tracks (s1 s2 : Nat) (M : List Byte) (st : Spooky) (h : Tracks s1 s2 M st) :
    WF st :=
  ⟨h.1, by rw [h.2.2.1]; exact Nat.mod_lt _ (by decide)⟩

theorem WF_update (st : Spooky) (D : List Byte) (h : WF st)
    (hD : D.length + BLOCKSIZE ≤ W64) : WF (SpookyUpdate st D D.length) := by
  obtain ⟨hd, hr⟩ := h
  by_cases hshort : st.remainder + D.length < BLOCKSIZE
  · rw [SpookyUpdate_short st D hshort]
    refine ⟨?_, hshort⟩
    simp only [List.length_append, List.length_take, List.length_drop, hd]
    simp only [BLOCKSIZE] at *; omega
  · obtain ⟨_, h2, _, h4, _⟩ := SpookyUpdate_block st D hr hd (by omega) (by omega)
    exact ⟨h4, by rw [h2]; exact Nat.mod_lt _ (by decide)⟩

theorem WF_updates (Fs : List (List Byte)) (st : Spooky) (h : WF st)
    (hD : ∀ F ∈ Fs, F.length + BLOCKSIZE ≤ W64) : WF (updates st Fs) := by
  induction Fs generalizing st with
  | nil => exact h
  | cons F Fs ih =>
    exact ih _ (WF_update st F h (hD F (List.mem_cons_self _ _)))
      (fun G hG => hD G (List.mem_cons_of_mem _ hG))

theorem SpookyFinal_idem (st : Spooky) (h : WF st) :
    (SpookyFinal (SpookyFinal st).1).2 = (SpookyFinal st).2 := by
  obtain ⟨hd, hr⟩ := h
  have hB : (st.data.take st.remainder).length = st.remainder := by
    rw [List.length_take, hd]; omega
  have hd' : (SpookyFinal st).1.data.length = BLOCKSIZE := by
    rw [SpookyFinal_buf st hd hr]; exact padded_length _ _ hB hr
  have hr' : (SpookyFinal st).1.remainder = st.remainder := rfl
  have hbuf : (SpookyFinal (SpookyFinal st).1).1.data = (SpookyFinal st).1.data := by
    rw [SpookyFinal_buf _ hd' (by rw [hr']; exact hr), hr', SpookyFinal_buf st hd hr,
      padded_take _ _ hB hr]
  rw [SpookyFinal_digest (SpookyFinal st).1, hbuf, SpookyFinal_digest st]
  rfl

/-- C4 (updating may continue after a Final): the digest at the first `SpookyFinal` is
`SpookyHash` of the fragments so far, and after further `SpookyUpdate` calls the second
`SpookyFinal` returns `SpookyHash` of everything supplied, which is also what it returns
when the first `SpookyFinal` is never called. -/
theorem C4_update_after_final (st0 : Spooky) (s1 s2 : Nat) (Fs Gs : List (List Byte))
    (hd : st0.data.length = BLOCKSIZE)
    (hlen : Fs.flatten.length + Gs.flatten.length < W64) :
    (SpookyFinal (updates (SpookyInit st0 s1 s2) Fs)).2
      = SpookyHash Fs.flatten Fs.flatten.length s1 s2 ∧
    (SpookyFinal (updates (SpookyFinal (updates (SpookyInit st0 s1 s2) Fs)).1 Gs)).2
      = SpookyHash (Fs.flatten ++ Gs.flatten) (Fs.flatten ++ Gs.flatten).length s1 s2 ∧
    (SpookyFinal (updates (SpookyFinal (updates (SpookyInit st0 s1 s2) Fs)).1 Gs)).2
      = (SpookyFinal (updates (updates (SpookyInit st0 s1 s2) Fs) Gs)).2 := by
  have hF := Tracks_run st0 s1 s2 Fs hd (by omega)
  have hFG := Tracks_updates s1 s2 Gs _ _ (Tracks_final s1 s2 _ _ hF) hlen
  have hFG' := Tracks_updates s1 s2 Gs _ _ hF hlen
  refine ⟨Tracks_digest _ _ _ _ hF, Tracks_digest _ _ _ _ hFG, ?_⟩
  rw [Tracks_digest _ _ _ _ hFG, Tracks_digest _ _ _ _ hFG']

/-- Witness for C4: 95 bytes and 1 byte before the first Final, 100 bytes after it. -/
theorem C4_update_after_final_witness :
    zeroState.data.length = BLOCKSIZE ∧
    [List.replicate 95 (3 : Byte), [4]].flatten.length
      + [List.replicate 100 (5 : Byte)].flatten.length < W64 ∧
    (SpookyFinal (updates (SpookyFinal (updates (SpookyInit zeroState 1 2)
        [List.replicate 95 3, [4]])).1 [List.replicate 100 5])).2
      = (SpookyFinal (updates (updates (SpookyInit zeroState 1 2)
        [List.replicate 95 3, [4]]) [List.replicate 100 5])).2 :=
  ⟨by decide, by decide,
   (C4_update_after_final zeroState 1 2 [List.replicate 95 3, [4]] [List.replicate 100 5]
     (by decide) (by decide)).2.2⟩

/-- C5 (Final is idempotent): in every state reached from `SpookyInit` by `SpookyUpdate`
calls, two `SpookyFinal` calls in a row return the same digest. -/
theorem C5_final_idempotent (st0 : Spooky) (s1 s2 : Nat) (Fs : List (List Byte))
    (hd : st0.data.length = BLOCKSIZE) (hfr : ∀ F ∈ Fs, F.length + BLOCKSIZE ≤ W64) :
    (SpookyFinal (SpookyFinal (updates (SpookyInit st0 s1 s2) Fs)).1).2
      = (SpookyFinal (updates (SpookyInit st0 s1 s2) Fs)).2 :=
  SpookyFinal_idem _ (WF_updates Fs _ (show WF (SpookyInit st0 s1 s2) from ⟨hd, Nat.zero_lt_succ 95⟩) hfr)

/-- Witness for C5: the state after a 95-byte and a 2-byte fragment. -/
theorem C5_final_idempotent_witness :
    zeroState.data.length = BLOCKSIZE ∧
    (∀ F ∈ [List.replicate 95 (3 : Byte), [4, 5]], F.length + BLOCKSIZE ≤ W64) ∧
    (SpookyFinal (SpookyFinal (updates (SpookyInit zeroState 1 2)
        [List.replicate 95 3, [4, 5]])).1).2
      = (SpookyFinal (updates (SpookyInit zeroState 1 2) [List.replicate 95 3, [4, 5]])).2 :=
  ⟨by decide, by decide,
   C5_final_idempotent zeroState 1 2 [List.replicate 95 3, [4, 5]] (by decide) (by decide)⟩

theorem mix4_eq_of_take (X Y : List Byte) (s : Lanes)
    (h : X.take BLOCKSIZE = Y.take BLOCKSIZE) :
    SpookyMix X (SpookyMix X (SpookyMix X (SpookyMix X s)))
      = SpookyMix Y (SpookyMix Y (SpookyMix Y (SpookyMix Y s))) := by
  rw [SpookyMix_eq_of_take X Y s h, SpookyMix_eq_of_take X Y _ h,
    SpookyMix_eq_of_take X Y _ h, SpookyMix_eq_of_take X Y _ h]

/-- C7 (empty-message agreement): for every seed pair, `SpookyHash` of the zero-length
message equals `SpookyInit` immediately followed by `SpookyFinal`, whatever the struct
held before. -/
theorem C7_empty_message (st0 : Spooky) (s1 s2 : Nat) :
    SpookyHash [] 0 s1 s2 = (SpookyFinal (SpookyInit st0 s1 s2)).2 := by
  have hb : ((SpookyFinal (SpookyInit st0 s1 s2)).1.data).take BLOCKSIZE
      = (finalBuf [] 0).take BLOCKSIZE := by
    simp [SpookyFinal, SpookyInit, finalBuf, memset, memcpy, List.set_take,
      List.take_append_eq_append_take, BLOCKSIZE]
  have hl : loadLanes (SpookyInit st0 s1 s2) = primeLanes s1 s2 := rfl
  have hH : SpookyHash [] 0 s1 s2 =
      ((SpookyMix (finalBuf [] 0) (SpookyMix (finalBuf [] 0) (SpookyMix (finalBuf [] 0)
          (SpookyMix (finalBuf [] 0) (primeLanes s1 s2))))).h11,
       (SpookyMix (finalBuf [] 0) (SpookyMix (finalBuf [] 0) (SpookyMix (finalBuf [] 0)
          (SpookyMix (finalBuf [] 0) (primeLanes s1 s2))))).h0) := rfl
  rw [hH, SpookyFinal_digest, hl, mix4_eq_of_take _ _ _ hb]

/-- C3 (SpookyFinal does not modify the state), evaluated on the state reached by
`SpookyInit` and one 1-byte `SpookyUpdate` on zeroed memory: `remainder` is 1, byte 95
of the buffer is 0 before `SpookyFinal` and 1 after it, so the buffer is modified. -/
theorem C3_final_writes_buffer :
    (updates (SpookyInit zeroState 1 2) [[1]]).remainder = 1 ∧
    byteAt (updates (SpookyInit zeroState 1 2) [[1]]).data 95 = 0 ∧
    byteAt (SpookyFinal (updates (SpookyInit zeroState 1 2) [[1]])).1.data 95 = 1 ∧
    (SpookyFinal (updates (SpookyInit zeroState 1 2) [[1]])).1.data
      ≠ (updates (SpookyInit zeroState 1 2) [[1]]).data := by
  decide

/-- C6 as stated fails: for the 3-byte message `1 2 3` and seeds `(1, 2)`, `SpookyHash`
and `SpookyInit`/`SpookyUpdate`/`SpookyFinal` both return the block-path digest, which is
not the digest `ShortHash` computes from the raw bytes and the raw seeds. -/
theorem C6_short_path_counterexample :
    SpookyHash [1, 2, 3] 3 1 2 = (9964163030496885341, 7875831443644207502) ∧
    (SpookyFinal (updates (SpookyInit zeroState 1 2) [[1, 2, 3]])).2
      = (9964163030496885341, 7875831443644207502) ∧
    ShortHash [1, 2, 3] 3 1 2 = (6317824566499462915, 17109774979865607096) ∧
    ¬ (SpookyHash [1, 2, 3] 3 1 2 = ShortHash [1, 2, 3] 3 1 2 ∧
       (SpookyFinal (updates (SpookyInit zeroState 1 2) [[1, 2, 3]])).2
         = ShortHash [1, 2, 3] 3 1 2) := by
  decide

/-- C6, amended: for every message shorter than 96 bytes and every seed pair, `SpookyHash`
and `SpookyFinal` after streaming the message both return lanes 11 and 0 after four
`SpookyMix` applications of the zero-padded, length-tagged block to the seed-primed lanes
(the block path); this includes the empty message. -/
theorem C6_short_messages_block_path (st0 : Spooky) (s1 s2 : Nat) (M : List Byte)
    (Fs : List (List Byte)) (hd : st0.data.length = BLOCKSIZE) (hsplit : Fs.flatten = M)
    (hM : M.length < BLOCKSIZE) :
    SpookyHash M M.length s1 s2 =
      ((SpookyMix (padded M M.length) (SpookyMix (padded M M.length)
          (SpookyMix (padded M M.length) (SpookyMix (padded M M.length)
            (primeLanes s1 s2))))).h11,
       (SpookyMix (padded M M.length) (SpookyMix (padded M M.length)
          (SpookyMix (padded M M.length) (SpookyMix (padded M M.length)
            (primeLanes s1 s2))))).h0) ∧
    (SpookyFinal (updates (SpookyInit st0 s1 s2) Fs)).2 = SpookyHash M M.length s1 s2 := by
  have hW : M.length < W64 := by simp only [BLOCKSIZE, W64] at *; omega
  refine ⟨?_, by subst hsplit; exact Tracks_digest s1 s2 _ _ (Tracks_run st0 s1 s2 Fs hd hW)⟩
  have h1 : M.length % BLOCKSIZE = M.length := Nat.mod_eq_of_lt hM
  have h2 : M.length / BLOCKSIZE = 0 := Nat.div_eq_of_lt hM
  rw [SpookyHash_eq, h1, h2, Nat.sub_self, List.drop_zero]
  rfl

/-- Witness for the amended C6: the 3-byte message `1 2 3` streamed as two fragments. -/
theorem C6_short_messages_block_path_witness :
    zeroState.data.length = BLOCKSIZE ∧ [[1, 2], [3]].flatten = ([1, 2, 3] : List Byte) ∧
    ([1, 2, 3] : List Byte).length < BLOCKSIZE ∧
    (SpookyFinal (updates (SpookyInit zeroState 1 2) [[1, 2], [3]])).2
      = SpookyHash [1, 2, 3] 3 1 2 :=
  ⟨by decide, by decide, by decide,
   (C6_short_messages_block_path zeroState 1 2 [1, 2, 3] [[1, 2], [3]]
     (by decide) (by decide) (by decide)).2⟩

/-- C8 (update across a block boundary): for a state with `remainder = p < 96` and a
fragment `D` with `p + |D| >= 96`, `SpookyUpdate` mixes exactly the `(p + |D|) / 96`
consecutive 96-byte blocks of `buffer[0..p) ++ D`, in order, into the lanes it starts from
(the stored lanes, or the primed ones when `length < 96` before the call), leaves the last
`(p + |D|) mod 96` bytes of `D` at the start of the buffer, sets `remainder` to
`(p + |D|) mod 96` and adds `|D|` to `length` (in 64-bit arithmetic). -/
theorem C8_update_across_block (st : Spooky) (D : List Byte)
    (hp : st.remainder < BLOCKSIZE) (hd : st.data.length = BLOCKSIZE)
    (h : BLOCKSIZE ≤ st.remainder + D.length) (hD : st.remainder + D.length < W64) :
    (SpookyUpdate st D D.length).state
        = (blocksOf ((st.remainder + D.length) / 96) (st.data.take st.remainder ++ D)).foldl
            (fun h blk => SpookyMix blk h)
            (if st.length < 96 then primeLanes st.state.h0 st.state.h1 else st.state) ∧
    (blocksOf ((st.remainder + D.length) / 96) (st.data.take st.remainder ++ D)).length
        = (st.remainder + D.length) / 96 ∧
    (SpookyUpdate st D D.length).data.take ((st.remainder + D.length) % 96)
        = D.drop (D.length - (st.remainder + D.length) % 96) ∧
    (SpookyUpdate st D D.length).remainder = (st.remainder + D.length) % 96 ∧
    (SpookyUpdate st D D.length).length = (st.length + D.length) % 2 ^ 64 ∧
    (st.length + D.length < 2 ^ 64 →
      (SpookyUpdate st D D.length).length = st.length + D.length) := by
  obtain ⟨h1, h2, h3, _, h5⟩ := SpookyUpdate_block st D hp hd h hD
  have hlenB : ∀ (n : Nat) (X : List Byte), (blocksOf n X).length = n := by
    intro n
    induction n with
    | zero => intro X; rfl
    | succ k ih => intro X; simp only [blocksOf, List.length_cons, ih]
  refine ⟨?_, hlenB _ _, h3, h2, ?_, ?_⟩
  · rw [h1, mixBlocks_eq_foldl]; rfl
  · rw [h5, Nat.add_comm]
  · intro hlt
    rw [h5, Nat.add_comm]; exact Nat.mod_eq_of_lt hlt

/-- Witness for C8: 5 bytes buffered, then a 100-byte fragment (one block, 9 bytes left). -/
theorem C8_update_across_block_witness :
    (updates (SpookyInit zeroState 1 2) [[1, 2, 3, 4, 5]]).remainder < BLOCKSIZE ∧
    (updates (SpookyInit zeroState 1 2) [[1, 2, 3, 4, 5]]).data.length = BLOCKSIZE ∧
    BLOCKSIZE ≤ (updates (SpookyInit zeroState 1 2) [[1, 2, 3, 4, 5]]).remainder
      + (List.replicate 100 (9 : Byte)).length ∧
    (updates (SpookyInit zeroState 1 2) [[1, 2, 3, 4, 5]]).remainder
      + (List.replicate 100 (9 : Byte)).length < W64 ∧
    (SpookyUpdate (updates (SpookyInit zeroState 1 2) [[1, 2, 3, 4, 5]])
        (List.replicate 100 9) (List.replicate 100 (9 : Byte)).length).remainder
      = ((updates (SpookyInit zeroState 1 2) [[1, 2, 3, 4, 5]]).remainder
          + (List.replicate 100 (9 : Byte)).length) % 96 :=
  ⟨by decide, by decide, by decide, by decide,
   (C8_update_across_block (updates (SpookyInit zeroState 1 2) [[1, 2, 3, 4, 5]])
     (List.replicate 100 9) (by decide) (by decide) (by decide) (by decide)).2.2.2.1⟩

/-- C9 (update below a block boundary): for a state with `remainder = p` and a fragment `D`
with `p + |D| < 96`, `SpookyUpdate` copies `D` into the buffer at offsets `p .. p+|D|-1`,
sets `remainder` to `p + |D|`, adds `|D|` to `length` (in 64-bit arithmetic) and mixes
nothing: the twelve lanes and every buffer byte outside the copied range are unchanged. -/
theorem C9_update_below_block (st : Spooky) (D : List Byte)
    (hd : st.data.length = BLOCKSIZE) (h : st.remainder + D.length < BLOCKSIZE) :
    ((SpookyUpdate st D D.length).data.drop st.remainder).take D.length = D ∧
    (SpookyUpdate st D D.length).remainder = st.remainder + D.length ∧
    (SpookyUpdate st D D.length).length = (st.length + D.length) % 2 ^ 64 ∧
    (st.length + D.length < 2 ^ 64 →
      (SpookyUpdate st D D.length).length = st.length + D.length) ∧
    (SpookyUpdate st D D.length).state = st.state ∧
    SpookyUpdate_mixes st D.length = false ∧
    (SpookyUpdate st D D.length).data.take st.remainder = st.data.take st.remainder ∧
    (SpookyUpdate st D D.length).data.drop (st.remainder + D.length)
      = st.data.drop (st.remainder + D.length) ∧
    (SpookyUpdate st D D.length).data.length = BLOCKSIZE := by
  have hl : (st.data.take st.remainder).length = st.remainder := by
    rw [List.length_take, hd]; omega
  have hl2 : (st.data.take st.remainder ++ D).length = st.remainder + D.length := by
    rw [List.length_append, hl]
  have hmix : SpookyUpdate_mixes st D.length = false := by
    have h1 : (D.length + st.remainder) % W64 = st.remainder + D.length := by
      simp only [BLOCKSIZE, W64] at *; omega
    simp only [SpookyUpdate_mixes, h1, h, if_true]
  rw [SpookyUpdate_short st D h]
  refine ⟨?_, rfl, ?_, ?_, rfl, hmix, ?_, ?_, ?_⟩
  · show ((st.data.take st.remainder ++ D ++ _).drop st.remainder).take D.length = D
    rw [List.append_assoc, List.drop_append_of_le_length (Nat.le_of_eq hl.symm),
      List.drop_of_length_le (Nat.le_of_eq hl), List.nil_append,
      List.take_append_of_le_length (Nat.le_refl _), List.take_length]
  · show (D.length + st.length) % W64 = _
    rw [Nat.add_comm]
  · intro hlt
    show (D.length + st.length) % W64 = _
    rw [Nat.add_comm]; exact Nat.mod_eq_of_lt hlt
  · show (st.data.take st.remainder ++ D ++ _).take st.remainder = _
    rw [List.append_assoc, List.take_append_of_le_length (Nat.le_of_eq hl.symm),
      List.take_of_length_le (Nat.le_of_eq hl)]
  · show (st.data.take st.remainder ++ D ++ _).drop (st.remainder + D.length) = _
    rw [← hl2, List.drop_append_of_le_length (Nat.le_refl _), List.drop_length,
      List.nil_append, hl2]
  · show (st.data.take st.remainder ++ D ++ _).length = _
    rw [List.length_append, hl2, List.length_drop, hd]
    omega

/-- Witness for C9: two bytes appended to a buffer that already holds three. -/
theorem C9_update_below_block_witness :
    (updates (SpookyInit zeroState 1 2) [[1, 2, 3]]).data.length = BLOCKSIZE ∧
    (updates (SpookyInit zeroState 1 2) [[1, 2, 3]]).remainder + [(4 : Byte), 5].length
      < BLOCKSIZE ∧
    (SpookyUpdate (updates (SpookyInit zeroState 1 2) [[1, 2, 3]]) [4, 5] 2).state
      = (updates (SpookyInit zeroState 1 2) [[1, 2, 3]]).state :=
  ⟨by decide, by decide,
   (C9_update_below_block (updates (SpookyInit zeroState 1 2) [[1, 2, 3]]) [4, 5]
     (by decide) (by decide)).2.2.2.2.1⟩

theorem SpookyUpdate_primes_iff (s1 s2 : Nat) (M D : List Byte) (st : Spooky)
    (h : Tracks s1 s2 M st) (hlen : M.length + D.length < W64) :
    SpookyUpdate_primes st D.length = true
      ↔ (M.length < BLOCKSIZE ∧ BLOCKSIZE ≤ M.length + D.length) := by
  obtain ⟨_, hl, hr, _, _, _⟩ := h
  have h1 : (D.length + st.remainder) % W64 = D.length + M.length % BLOCKSIZE := by
    rw [hr]; apply Nat.mod_eq_of_lt
    have := Nat.mod_le M.length BLOCKSIZE
    omega
  simp only [SpookyUpdate_primes, h1, hl]
  by_cases ha : D.length + M.length % BLOCKSIZE < BLOCKSIZE
  · simp only [ha, if_true, Bool.false_eq_true, false_iff, not_and, Nat.not_le]
    intro hM
    rw [Nat.mod_eq_of_lt hM] at ha
    omega
  · by_cases hb : M.length < BLOCKSIZE
    · simp only [ha, if_false, hb, if_true, true_and, true_iff]
      rw [Nat.mod_eq_of_lt hb] at ha
      omega
    · simp only [ha, if_false, hb, Bool.false_eq_true, false_and]

theorem SpookyUpdate_mixes_iff (s1 s2 : Nat) (M D : List Byte) (st : Spooky)
    (h : Tracks s1 s2 M st) (hlen : M.length + D.length < W64) :
    SpookyUpdate_mixes st D.length = true
      ↔ BLOCKSIZE ≤ M.length % BLOCKSIZE + D.length := by
  obtain ⟨_, _, hr, _, _, _⟩ := h
  have h1 : (D.length + st.remainder) % W64 = D.length + M.length % BLOCKSIZE := by
    rw [hr]; apply Nat.mod_eq_of_lt
    have := Nat.mod_le M.length BLOCKSIZE
    omega
  simp only [SpookyUpdate_mixes, h1]
  by_cases ha : D.length + M.length % BLOCKSIZE < BLOCKSIZE
  · simp only [ha, if_true, Bool.false_eq_true, false_iff]; omega
  · simp only [ha, if_false, true_iff]; omega

theorem primingCalls_eq (s1 s2 : Nat) (Fs : List (List Byte)) (M : List Byte) (st : Spooky)
    (h : Tracks s1 s2 M st) (hlen : M.length + Fs.flatten.length < W64) :
    primingCalls st Fs
      = if M.length < BLOCKSIZE ∧ BLOCKSIZE ≤ M.length + Fs.flatten.length then 1 else 0 := by
  induction Fs generalizing M st with
  | nil =>
    simp only [primingCalls, List.flatten_nil, List.length_nil, Nat.add_zero]
    rw [if_neg (by omega)]
  | cons F Fs ih =>
    simp only [List.flatten_cons, List.length_append] at hlen ⊢
    have hF := SpookyUpdate_primes_iff s1 s2 M F st h (by omega)
    have h1 := Tracks_update s1 s2 M F st h (by omega)
    have h2 := ih (M ++ F) (SpookyUpdate st F F.length) h1
      (by rw [List.length_append]; omega)
    rw [List.length_append] at h2
    simp only [primingCalls, h2]
    by_cases hp : SpookyUpdate_primes st F.length = true
    · have := hF.1 hp
      rw [if_pos hp, if_neg (by omega), if_pos (by omega)]
    · have hn : ¬ (M.length < BLOCKSIZE ∧ BLOCKSIZE ≤ M.length + F.length) :=
        fun hc => hp (hF.2 hc)
      rw [if_neg hp, Nat.zero_add]
      by_cases hc : M.length + F.length < BLOCKSIZE ∧
          BLOCKSIZE ≤ M.length + F.length + Fs.flatten.length
      · rw [if_pos hc, if_pos (by omega)]
      · rw [if_neg hc, if_neg (by omega)]

theorem no_mix_short (st0 : Spooky) (s1 s2 : Nat) (hd : st0.data.length = BLOCKSIZE)
    (Pre : List (List Byte)) (hlen : Pre.flatten.length < W64)
    (hno : ∀ (P : List (List Byte)) (E : List Byte) (Q : List (List Byte)),
      Pre = P ++ E :: Q → SpookyUpdate_mixes (updates (SpookyInit st0 s1 s2) P) E.length = false) :
    Pre.flatten.length < BLOCKSIZE := by
  induction Pre using List.reverseRecOn with
  | nil => simp [BLOCKSIZE]
  | append_singleton P E ih =>
    simp only [List.flatten_append, List.flatten_cons, List.flatten_nil, List.append_nil,
      List.length_append] at hlen ⊢
    have hP : P.flatten.length < BLOCKSIZE := by
      apply ih (by omega)
      intro P1 E1 Q1 hP
      exact hno P1 E1 (Q1 ++ [E]) (by rw [hP]; simp)
    have hT := Tracks_run st0 s1 s2 P hd (by omega)
    have hm := SpookyUpdate_mixes_iff s1 s2 _ E _ hT hlen
    have hf := hno P E [] rfl
    rw [Nat.mod_eq_of_lt hP] at hm
    by_contra hc
    have := hm.2 (by omega)
    rw [hf] at this
    exact Bool.false_ne_true this

theorem updates_state_short (s1 s2 : Nat) (Fs : List (List Byte)) (M : List Byte) (st : Spooky)
    (h : Tracks s1 s2 M st) (hlen : M.length + Fs.flatten.length < BLOCKSIZE) :
    (updates st Fs).state = st.state := by
  induction Fs generalizing M st with
  | nil => rfl
  | cons F Fs ih =>
    have hl : M.length + (F.length + Fs.flatten.length) < BLOCKSIZE := by
      simpa [List.flatten_cons, List.length_append] using hlen
    have hB : BLOCKSIZE < W64 := by decide
    have hT := Tracks_update s1 s2 M F st h (by omega)
    have hr : st.remainder = M.length := by
      rw [h.2.2.1]; exact Nat.mod_eq_of_lt (by omega)
    have hs := SpookyUpdate_short st F (by omega)
    have := ih (M ++ F) (SpookyUpdate st F F.length) hT
      (by rw [List.length_append]; omega)
    show (updates (SpookyUpdate st F F.length) Fs).state = st.state
    rw [this, hs]

theorem SpookyUpdate_state_eq (s1 s2 : Nat) (M D : List Byte) (st : Spooky)
    (h : Tracks s1 s2 M st) (hlen : M.length + D.length < W64) :
    (SpookyUpdate st D D.length).state
      = (if SpookyUpdate_mixes st D.length = true then
          mixBlocks ((st.remainder + D.length) / BLOCKSIZE) (st.data.take st.remainder ++ D)
            (if SpookyUpdate_primes st D.length = true
              then primeLanes st.state.h0 st.state.h1 else st.state)
        else st.state) := by
  have hP := SpookyUpdate_primes_iff s1 s2 M D st h hlen
  have hM := SpookyUpdate_mixes_iff s1 s2 M D st h hlen
  obtain ⟨hdl, hl, hr, -, -, -⟩ := h
  have hmod : M.length % BLOCKSIZE < BLOCKSIZE := Nat.mod_lt _ (by decide)
  have hle : M.length % BLOCKSIZE ≤ M.length := Nat.mod_le _ _
  by_cases hlt : st.remainder + D.length < BLOCKSIZE
  · have hm : ¬ SpookyUpdate_mixes st D.length = true := by
      intro hx; have := hM.1 hx; omega
    rw [if_neg hm, SpookyUpdate_short st D hlt]
  · have hm : SpookyUpdate_mixes st D.length = true := hM.2 (by omega)
    rw [if_pos hm, (SpookyUpdate_block st D (by omega) hdl (by omega) (by omega)).1]
    congr 1
    unfold loadLanes
    by_cases hs : st.length < BLOCKSIZE
    · have hp : SpookyUpdate_primes st D.length = true := by
        refine hP.2 ⟨by omega, ?_⟩
        have := Nat.mod_eq_of_lt (show M.length < BLOCKSIZE by omega)
        omega
      rw [if_pos hs, if_pos hp]
    · have hp : ¬ SpookyUpdate_primes st D.length = true := by
        intro hx; have := (hP.1 hx).1; omega
      rw [if_neg hs, if_neg hp]

/-- C10 (lazy one-time priming): in a run `SpookyInit; SpookyUpdate ...` over fragments
`Pre ++ D :: Post` of total length below `2^64`, the call for `D` runs the priming branch
exactly when it is the first call that produces a full 96-byte block (it mixes and no
earlier call did; equivalently fewer than 96 bytes came before it and at least 96 are
reached with it); over the whole run the priming branch runs in exactly one call when 96
bytes are reached and in none otherwise; the priming call starts from lanes 0,3,6,9 =
`seed1*m`, lanes 1,4,7,10 = `seed2*m`, lanes 2,5,8,11 = `m`, and `m` is odd.  The lanes
that `SpookyUpdate` stores say the same: the call for `D` stores the stored lanes
unchanged when it mixes nothing, and otherwise the fold of `SpookyMix` over the blocks of
`buffer[0..remainder) ++ D` from the primed lanes when it primes and from the stored lanes
when it does not; while fewer than 96 bytes have been absorbed the lanes are the ones
`SpookyInit` left (the raw seeds in lanes 0 and 1); in the first call that reaches 96
bytes they are the fold from the lanes primed from the raw seeds; in every later call they
are the fold from the stored lanes, never primed again; so once 96 bytes are reached the
stored lanes are always the fold over all complete blocks absorbed so far from lanes
primed once. -/
theorem C10_lazy_priming (st0 : Spooky) (s1 s2 : Nat) (Pre : List (List Byte))
    (D : List Byte) (Post : List (List Byte)) (hd : st0.data.length = BLOCKSIZE)
    (hlen : (Pre ++ D :: Post).flatten.length < 2 ^ 64) :
    (SpookyUpdate_primes (updates (SpookyInit st0 s1 s2) Pre) D.length = true
      ↔ (SpookyUpdate_mixes (updates (SpookyInit st0 s1 s2) Pre) D.length = true ∧
         ∀ (P : List (List Byte)) (E : List Byte) (Q : List (List Byte)), Pre = P ++ E :: Q →
           SpookyUpdate_mixes (updates (SpookyInit st0 s1 s2) P) E.length = false)) ∧
    (SpookyUpdate_primes (updates (SpookyInit st0 s1 s2) Pre) D.length = true
      ↔ (Pre.flatten.length < 96 ∧ 96 ≤ Pre.flatten.length + D.length)) ∧
    primingCalls (SpookyInit st0 s1 s2) (Pre ++ D :: Post)
      = (if 96 ≤ (Pre ++ D :: Post).flatten.length then 1 else 0) ∧
    (SpookyUpdate_primes (updates (SpookyInit st0 s1 s2) Pre) D.length = true →
      loadLanes (updates (SpookyInit st0 s1 s2) Pre)
        = { h0 := s1 * m % 2 ^ 64, h3 := s1 * m % 2 ^ 64, h6 := s1 * m % 2 ^ 64,
            h9 := s1 * m % 2 ^ 64, h1 := s2 * m % 2 ^ 64, h4 := s2 * m % 2 ^ 64,
            h7 := s2 * m % 2 ^ 64, h10 := s2 * m % 2 ^ 64,
            h2 := m, h5 := m, h8 := m, h11 := m }) ∧
    (SpookyUpdate (updates (SpookyInit st0 s1 s2) Pre) D D.length).state
      = (if SpookyUpdate_mixes (updates (SpookyInit st0 s1 s2) Pre) D.length = true then
          mixBlocks (((updates (SpookyInit st0 s1 s2) Pre).remainder + D.length) / 96)
            ((updates (SpookyInit st0 s1 s2) Pre).data.take
              (updates (SpookyInit st0 s1 s2) Pre).remainder ++ D)
            (if SpookyUpdate_primes (updates (SpookyInit st0 s1 s2) Pre) D.length = true
              then primeLanes (updates (SpookyInit st0 s1 s2) Pre).state.h0
                (updates (SpookyInit st0 s1 s2) Pre).state.h1
              else (updates (SpookyInit st0 s1 s2) Pre).state)
        else (updates (SpookyInit st0 s1 s2) Pre).state) ∧
    (Pre.flatten.length + D.length < 96 →
      (SpookyUpdate (updates (SpookyInit st0 s1 s2) Pre) D D.length).state
          = { st0.state with h0 := s1, h1 := s2 }) ∧
    (Pre.flatten.length < 96 → 96 ≤ Pre.flatten.length + D.length →
      (updates (SpookyInit st0 s1 s2) Pre).state = { st0.state with h0 := s1, h1 := s2 } ∧
      (SpookyUpdate (updates (SpookyInit st0 s1 s2) Pre) D D.length).state
          = mixBlocks ((Pre.flatten.length + D.length) / 96)
              ((updates (SpookyInit st0 s1 s2) Pre).data.take Pre.flatten.length ++ D)
              { h0 := s1 * m % 2 ^ 64, h3 := s1 * m % 2 ^ 64, h6 := s1 * m % 2 ^ 64,
                h9 := s1 * m % 2 ^ 64, h1 := s2 * m % 2 ^ 64, h4 := s2 * m % 2 ^ 64,
                h7 := s2 * m % 2 ^ 64, h10 := s2 * m % 2 ^ 64,
                h2 := m, h5 := m, h8 := m, h11 := m }) ∧
    (96 ≤ Pre.flatten.length →
      (SpookyUpdate (updates (SpookyInit st0 s1 s2) Pre) D D.length).state
          = mixBlocks (((updates (SpookyInit st0 s1 s2) Pre).remainder + D.length) / 96)
              ((updates (SpookyInit st0 s1 s2) Pre).data.take
                (updates (SpookyInit st0 s1 s2) Pre).remainder ++ D)
              (updates (SpookyInit st0 s1 s2) Pre).state) ∧
    (96 ≤ Pre.flatten.length + D.length →
      (SpookyUpdate (updates (SpookyInit st0 s1 s2) Pre) D D.length).state
          = mixBlocks ((Pre.flatten.length + D.length) / 96) (Pre.flatten ++ D)
              { h0 := s1 * m % 2 ^ 64, h3 := s1 * m % 2 ^ 64, h6 := s1 * m % 2 ^ 64,
                h9 := s1 * m % 2 ^ 64, h1 := s2 * m % 2 ^ 64, h4 := s2 * m % 2 ^ 64,
                h7 := s2 * m % 2 ^ 64, h10 := s2 * m % 2 ^ 64,
                h2 := m, h5 := m, h8 := m, h11 := m }) ∧
    m = 0xba6b2ad56aad55c5 ∧ m % 2 = 1 := by
  have hlen' : Pre.flatten.length + (D.length + Post.flatten.length) < W64 := by
    simpa [List.flatten_append, List.flatten_cons, List.length_append] using hlen
  have hT := Tracks_run st0 s1 s2 Pre hd (by omega)
  have hP := SpookyUpdate_primes_iff s1 s2 _ D _ hT (by omega)
  have hM := SpookyUpdate_mixes_iff s1 s2 _ D _ hT (by omega)
  have hS := SpookyUpdate_state_eq s1 s2 _ D _ hT (by omega)
  have hT' := Tracks_update s1 s2 _ D _ hT (by omega)
  have hB : BLOCKSIZE = 96 := rfl
  have hrec : primeLanes s1 s2
      = { h0 := s1 * m % 2 ^ 64, h3 := s1 * m % 2 ^ 64, h6 := s1 * m % 2 ^ 64,
          h9 := s1 * m % 2 ^ 64, h1 := s2 * m % 2 ^ 64, h4 := s2 * m % 2 ^ 64,
          h7 := s2 * m % 2 ^ 64, h10 := s2 * m % 2 ^ 64,
          h2 := m, h5 := m, h8 := m, h11 := m } := rfl
  have hinit : ∀ Fs : List (List Byte), Fs.flatten.length < 96 →
      (updates (SpookyInit st0 s1 s2) Fs).state = { st0.state with h0 := s1, h1 := s2 } := by
    intro Fs hFs
    rw [updates_state_short s1 s2 Fs [] _ (Tracks_init st0 s1 s2 hd)
      (by rw [hB]; simpa using hFs)]
    rfl
  refine ⟨?_, hP, ?_, ?_, hS, ?_, ?_, ?_, ?_, rfl, by decide⟩
  · constructor
    · intro hp
      obtain ⟨ha, hb⟩ := hP.1 hp
      refine ⟨hM.2 (by rw [Nat.mod_eq_of_lt ha]; exact hb), ?_⟩
      intro P E Q hPre
      have hl : P.flatten.length + (E.length + Q.flatten.length) = Pre.flatten.length := by
        rw [hPre]; simp [List.flatten_append, List.flatten_cons, List.length_append]
      have hTP := Tracks_run st0 s1 s2 P hd (by omega)
      have hMP := SpookyUpdate_mixes_iff s1 s2 _ E _ hTP (by omega)
      cases hx : SpookyUpdate_mixes (updates (SpookyInit st0 s1 s2) P) E.length with
      | false => rfl
      | true =>
        have := hMP.1 hx
        have := Nat.mod_eq_of_lt (show P.flatten.length < BLOCKSIZE by omega)
        omega
    · rintro ⟨hm, hno⟩
      have hs := no_mix_short st0 s1 s2 hd Pre (by omega) hno
      have := hM.1 hm
      rw [Nat.mod_eq_of_lt hs] at this
      exact hP.2 ⟨hs, this⟩
  · have := primingCalls_eq s1 s2 (Pre ++ D :: Post) [] _ (Tracks_init st0 s1 s2 hd)
      (by simpa using hlen)
    simpa [BLOCKSIZE] using this
  · intro hp
    rw [Tracks_loadLanes s1 s2 _ _ hT, Nat.div_eq_of_lt (hP.1 hp).1]
    rfl
  · intro hlt
    have := hinit (Pre ++ [D]) (by simpa [List.flatten_append, List.length_append] using hlt)
    rw [← this]
    simp [updates, List.foldl_append]
  · intro ha hb
    have hp := hP.2 ⟨ha, hb⟩
    have hm := hM.2 (by rw [Nat.mod_eq_of_lt (show Pre.flatten.length < BLOCKSIZE from ha)]; exact hb)
    have hr : (updates (SpookyInit st0 s1 s2) Pre).remainder = Pre.flatten.length := by
      rw [hT.2.2.1]; exact Nat.mod_eq_of_lt ha
    refine ⟨hinit Pre ha, ?_⟩
    rw [hS, if_pos hm, if_pos hp, hr, (hT.2.2.2.2.1 ha).1, (hT.2.2.2.2.1 ha).2, hrec]
  · intro ha
    have hm96 : Pre.flatten.length % BLOCKSIZE < BLOCKSIZE := Nat.mod_lt _ (by decide)
    have hp : ¬ SpookyUpdate_primes (updates (SpookyInit st0 s1 s2) Pre) D.length = true := by
      intro hx; have := (hP.1 hx).1; omega
    rw [hS, if_neg hp]
    split_ifs with hm
    · rfl
    · have hr := hT.2.2.1
      have : ¬ BLOCKSIZE ≤ Pre.flatten.length % BLOCKSIZE + D.length := fun hx => hm (hM.2 hx)
      rw [Nat.div_eq_of_lt (by rw [hr]; omega)]
      rfl
  · intro hb
    have := hT'.2.2.2.2.2 (by rw [List.length_append, hB]; exact hb)
    rw [this, List.length_append, hrec]

/-- Witness for C10: fragments of 60, 40 and 5 bytes; the second call primes, and the lanes
it stores are the fold over the one complete block from the lanes primed from the seeds. -/
theorem C10_lazy_priming_witness :
    zeroState.data.length = BLOCKSIZE ∧
    ([List.replicate 60 (1 : Byte)] ++ List.replicate 40 2
        :: [List.replicate 5 3]).flatten.length < 2 ^ 64 ∧
    96 ≤ [List.replicate 60 (1 : Byte)].flatten.length + (List.replicate 40 (2 : Byte)).length ∧
    primingCalls (SpookyInit zeroState 1 2)
        ([List.replicate 60 (1 : Byte)] ++ List.replicate 40 2 :: [List.replicate 5 3])
      = (if 96 ≤ ([List.replicate 60 (1 : Byte)] ++ List.replicate 40 2
            :: [List.replicate 5 3]).flatten.length then 1 else 0) ∧
    (SpookyUpdate (updates (SpookyInit zeroState 1 2) [List.replicate 60 1])
        (List.replicate 40 2) (List.replicate 40 (2 : Byte)).length).state
      = mixBlocks (([List.replicate 60 (1 : Byte)].flatten.length
            + (List.replicate 40 (2 : Byte)).length) / 96)
          ([List.replicate 60 (1 : Byte)].flatten ++ List.replicate 40 2)
          { h0 := 1 * m % 2 ^ 64, h3 := 1 * m % 2 ^ 64, h6 := 1 * m % 2 ^ 64,
            h9 := 1 * m % 2 ^ 64, h1 := 2 * m % 2 ^ 64, h4 := 2 * m % 2 ^ 64,
            h7 := 2 * m % 2 ^ 64, h10 := 2 * m % 2 ^ 64,
            h2 := m, h5 := m, h8 := m, h11 := m } :=
  ⟨by decide, by decide, by decide,
   (C10_lazy_priming zeroState 1 2 [List.replicate 60 1] (List.replicate 40 2)
     [List.replicate 5 3] (by decide) (by decide)).2.2.1,
   (C10_lazy_priming zeroState 1 2 [List.replicate 60 1] (List.replicate 40 2)
     [List.replicate 5 3] (by decide) (by decide)).2.2.2.2.2.2.2.2.1 (by decide)⟩

theorem rot64_eq (x k : Nat) (hx : x < W64) (hk : k ≤ 64) :
    rot64 x k = (x % 2 ^ (64 - k)) * 2 ^ k + x / 2 ^ (64 - k) := by
  have hW : W64 = 2 ^ (64 - k) * 2 ^ k := by
    rw [← Nat.pow_add, Nat.sub_add_cancel hk]
  have h1 : (x <<< k) % W64 = (x % 2 ^ (64 - k)) * 2 ^ k := by
    rw [Nat.shiftLeft_eq, hW, Nat.mul_mod_mul_right]
  have h2 : x / 2 ^ (64 - k) < 2 ^ k := by
    apply Nat.div_lt_of_lt_mul
    rw [← hW]; exact hx
  unfold rot64
  rw [h1, Nat.shiftRight_eq_div_pow, Nat.mul_comm, ← Nat.mul_add_lt_is_or h2]

theorem rot64_lt (x k : Nat) (hx : x < W64) : rot64 x k < W64 := by
  unfold rot64
  apply Nat.or_lt_two_pow
  · exact Nat.mod_lt _ (by decide)
  · rw [Nat.shiftRight_eq_div_pow]
    exact Nat.lt_of_le_of_lt (Nat.div_le_self _ _) hx

theorem rot64_inv (x k : Nat) (hx : x < W64) (hk : k ≤ 64) :
    rot64 (rot64 x k) (64 - k) = x := by
  have hlo : x % 2 ^ (64 - k) < 2 ^ (64 - k) := Nat.mod_lt _ (Nat.two_pow_pos _)
  have hW : W64 = 2 ^ (64 - k) * 2 ^ k := by
    rw [← Nat.pow_add, Nat.sub_add_cancel hk]
  have hhi : x / 2 ^ (64 - k) < 2 ^ k := by
    apply Nat.div_lt_of_lt_mul
    rw [← hW]; exact hx
  have hkk : 64 - (64 - k) = k := by omega
  rw [rot64_eq _ (64 - k) (rot64_lt x k hx) (by omega), hkk, rot64_eq x k hx hk]
  rw [Nat.mul_comm (x % 2 ^ (64 - k)) (2 ^ k), Nat.mul_add_mod, Nat.mod_eq_of_lt hhi,
    Nat.mul_add_div (Nat.two_pow_pos k), Nat.div_eq_of_lt hhi, Nat.add_zero]
  rw [Nat.mul_comm, Nat.add_comm]
  exact Nat.mod_add_div x (2 ^ (64 - k))

theorem add_sub_cancel_mod (a b : Nat) (ha : a < W64) (hb : b < W64) :
    ((a + b) % W64 + W64 - b) % W64 = a := by
  simp only [W64] at *; omega

theorem add_sub_data_mod (a d : Nat) (ha : a < W64) :
    ((a + d) % W64 + W64 - d % W64) % W64 = a := by
  simp only [W64] at *; omega

theorem sub_add_cancel_mod (a b : Nat) (ha : a < W64) (hb : b < W64) :
    ((a + W64 - b) % W64 + b) % W64 = a := by
  simp only [W64] at *; omega

theorem sub_add_data_mod (a d : Nat) (ha : a < W64) :
    ((a + W64 - d % W64) % W64 + d) % W64 = a := by
  simp only [W64] at *; omega

theorem rot64_inv' (x k : Nat) (hx : x < W64) (hk : k ≤ 64) :
    rot64 (rot64 x (64 - k)) k = x := by
  have h := rot64_inv x (64 - k) hx (Nat.sub_le _ _)
  rwa [Nat.sub_sub_self hk] at h

theorem mod_W64_lt (a : Nat) : a % W64 < W64 := Nat.mod_lt _ (by decide)

theorem xor_W64_lt (a b : Nat) (ha : a < W64) (hb : b < W64) : a ^^^ b < W64 :=
  Nat.xor_lt_two_pow ha hb

theorem unmixStep_mixStep (c : Nat) (data : List Byte) (i : Nat) (s : Lanes)
    (hc : c ≤ 64) (hi : i < 12) (hs : Lanes64 s) :
    unmixStep c data i (mixStep c data i s) = s := by
  obtain ⟨h0, h1, h2, h3, h4, h5, h6, h7, h8, h9, h10, h11⟩ := s
  obtain ⟨v0, v1, v2, v3, v4, v5, v6, v7, v8, v9, v10, v11⟩ := hs
  simp only at v0 v1 v2 v3 v4 v5 v6 v7 v8 v9 v10 v11
  interval_cases i <;>
    simp only [mixStep, unmixStep, lane, setLane, Nat.reduceAdd, Nat.reduceMod,
      Lanes.mk.injEq, true_and, and_true] <;>
    simp [add_sub_cancel_mod, add_sub_data_mod, rot64_inv, rot64_lt, Nat.xor_cancel_right, *]

theorem mixStep_unmixStep (c : Nat) (data : List Byte) (i : Nat) (s : Lanes)
    (hc : c ≤ 64) (hi : i < 12) (hs : Lanes64 s) :
    mixStep c data i (unmixStep c data i s) = s := by
  obtain ⟨h0, h1, h2, h3, h4, h5, h6, h7, h8, h9, h10, h11⟩ := s
  obtain ⟨v0, v1, v2, v3, v4, v5, v6, v7, v8, v9, v10, v11⟩ := hs
  simp only at v0 v1 v2 v3 v4 v5 v6 v7 v8 v9 v10 v11
  interval_cases i <;>
    simp only [mixStep, unmixStep, lane, setLane, Nat.reduceAdd, Nat.reduceMod,
      Lanes.mk.injEq, true_and, and_true] <;>
    simp [sub_add_cancel_mod, sub_add_data_mod, rot64_inv', mod_W64_lt, Nat.xor_cancel_right, *] <;>
    (simp only [W64] at *; omega)

theorem Lanes64_mixStep (c : Nat) (data : List Byte) (i : Nat) (s : Lanes)
    (hi : i < 12) (hs : Lanes64 s) : Lanes64 (mixStep c data i s) := by
  obtain ⟨h0, h1, h2, h3, h4, h5, h6, h7, h8, h9, h10, h11⟩ := s
  obtain ⟨v0, v1, v2, v3, v4, v5, v6, v7, v8, v9, v10, v11⟩ := hs
  simp only at v0 v1 v2 v3 v4 v5 v6 v7 v8 v9 v10 v11
  interval_cases i <;>
    simp only [mixStep, lane, setLane, Nat.reduceAdd, Nat.reduceMod, Lanes64] <;>
    simp [mod_W64_lt, xor_W64_lt, *]

theorem Lanes64_unmixStep (c : Nat) (data : List Byte) (i : Nat) (s : Lanes)
    (hi : i < 12) (hs : Lanes64 s) : Lanes64 (unmixStep c data i s) := by
  obtain ⟨h0, h1, h2, h3, h4, h5, h6, h7, h8, h9, h10, h11⟩ := s
  obtain ⟨v0, v1, v2, v3, v4, v5, v6, v7, v8, v9, v10, v11⟩ := hs
  simp only at v0 v1 v2 v3 v4 v5 v6 v7 v8 v9 v10 v11
  interval_cases i <;>
    simp only [unmixStep, lane, setLane, Nat.reduceAdd, Nat.reduceMod, Lanes64] <;>
    simp [mod_W64_lt, xor_W64_lt, rot64_lt, *]

theorem rotConst_le (i : Nat) : rotConst.getD i 0 ≤ 64 := by
  by_cases hi : i < 12
  · interval_cases i <;> decide
  · have : rotConst.length ≤ i := by simp only [rotConst, List.length]; omega
    rw [List.getD_eq_getElem?_getD, List.getElem?_eq_none this]
    exact Nat.zero_le _

theorem steps_fold (data : List Byte) (is : List Nat) (his : ∀ i ∈ is, i < 12) (s : Lanes)
    (hs : Lanes64 s) :
    Lanes64 (is.foldl (fun s i => mixStep (rotConst.getD i 0) data i s) s) ∧
    is.foldr (fun i s => unmixStep (rotConst.getD i 0) data i s)
      (is.foldl (fun s i => mixStep (rotConst.getD i 0) data i s) s) = s := by
  induction is generalizing s with
  | nil => exact ⟨hs, rfl⟩
  | cons i rest ih =>
    have hi := his i (List.mem_cons_self _ _)
    have hv := Lanes64_mixStep (rotConst.getD i 0) data i s hi hs
    obtain ⟨h1, h2⟩ := ih (fun j hj => his j (List.mem_cons_of_mem _ hj)) _ hv
    refine ⟨h1, ?_⟩
    simp only [List.foldl_cons, List.foldr_cons]
    rw [h2]
    exact unmixStep_mixStep _ data i s (rotConst_le i) hi hs

theorem unsteps_fold (data : List Byte) (is : List Nat) (his : ∀ i ∈ is, i < 12) (t : Lanes)
    (ht : Lanes64 t) :
    Lanes64 (is.foldr (fun i s => unmixStep (rotConst.getD i 0) data i s) t) ∧
    is.foldl (fun s i => mixStep (rotConst.getD i 0) data i s)
      (is.foldr (fun i s => unmixStep (rotConst.getD i 0) data i s) t) = t := by
  induction is generalizing t with
  | nil => exact ⟨ht, rfl⟩
  | cons i rest ih =>
    have hi := his i (List.mem_cons_self _ _)
    obtain ⟨h1, h2⟩ := ih (fun j hj => his j (List.mem_cons_of_mem _ hj)) t ht
    refine ⟨Lanes64_unmixStep _ data i _ hi h1, ?_⟩
    simp only [List.foldl_cons, List.foldr_cons]
    rw [mixStep_unmixStep _ data i _ (rotConst_le i) hi h1]
    exact h2

set_option maxHeartbeats 2000000 in
theorem SpookyMix_eq_mixSteps (data : List Byte) (s : Lanes) :
    SpookyMix data s = mixSteps data s := by
  obtain ⟨h0, h1, h2, h3, h4, h5, h6, h7, h8, h9, h10, h11⟩ := s
  rfl

theorem SpookyMix_Lanes64 (data : List Byte) (s : Lanes) (hs : Lanes64 s) :
    Lanes64 (SpookyMix data s) ∧ SpookyUnmix data (SpookyMix data s) = s := by
  rw [SpookyMix_eq_mixSteps]
  exact steps_fold data (List.range 12) (fun i hi => List.mem_range.1 hi) s hs

theorem SpookyUnmix_Lanes64 (data : List Byte) (t : Lanes) (ht : Lanes64 t) :
    Lanes64 (SpookyUnmix data t) ∧ SpookyMix data (SpookyUnmix data t) = t := by
  rw [SpookyMix_eq_mixSteps]
  exact unsteps_fold data (List.range 12) (fun i hi => List.mem_range.1 hi) t ht

/-- C14 (the block mixer is reversible): for every block, `SpookyMix` maps twelve-lane
64-bit states to twelve-lane 64-bit states, `SpookyUnmix` with the same block recovers the
incoming lanes from the outgoing ones, and `SpookyMix` undoes `SpookyUnmix`; so `SpookyMix`
with a fixed block is a bijection on the twelve-lane 64-bit states. -/
theorem C14_SpookyMix_reversible (data : List Byte) (s : Lanes) (hs : Lanes64 s) :
    Lanes64 (SpookyMix data s) ∧ SpookyUnmix data (SpookyMix data s) = s ∧
    Lanes64 (SpookyUnmix data s) ∧ SpookyMix data (SpookyUnmix data s) = s ∧
    Set.BijOn (SpookyMix data) {x | Lanes64 x} {x | Lanes64 x} := by
  refine ⟨(SpookyMix_Lanes64 data s hs).1, (SpookyMix_Lanes64 data s hs).2,
    (SpookyUnmix_Lanes64 data s hs).1, (SpookyUnmix_Lanes64 data s hs).2, ?_, ?_, ?_⟩
  · intro x hx
    exact (SpookyMix_Lanes64 data x hx).1
  · intro x hx y hy hxy
    have h1 := (SpookyMix_Lanes64 data x hx).2
    have h2 := (SpookyMix_Lanes64 data y hy).2
    rw [← h1, ← h2, hxy]
  · intro t ht
    exact ⟨SpookyUnmix data t, (SpookyUnmix_Lanes64 data t ht).1,
      (SpookyUnmix_Lanes64 data t ht).2⟩

/-- Witness for C14: the seed-primed lanes for seeds `(1, 2)` and the block `1 2 3`. -/
theorem C14_SpookyMix_reversible_witness :
    Lanes64 (primeLanes 1 2) ∧
    SpookyUnmix [1, 2, 3] (SpookyMix [1, 2, 3] (primeLanes 1 2)) = primeLanes 1 2 :=
  ⟨by decide, (C14_SpookyMix_reversible [1, 2, 3] (primeLanes 1 2) (by decide)).2.1⟩

theorem SpookyUpdate_remainder_lt (st : Spooky) (message : List Byte) (length : Nat) :
    (SpookyUpdate st message length).remainder < BLOCKSIZE := by
  simp only [SpookyUpdate]
  by_cases h1 : (length + st.remainder) % W64 < BLOCKSIZE
  · rw [if_pos h1]
    show (length + st.remainder) % W64 % 256 < BLOCKSIZE
    simp only [BLOCKSIZE] at *; omega
  · rw [if_neg h1]
    by_cases h2 : st.remainder ≠ 0
    · rw [if_pos h2]
      simp only [BLOCKSIZE]; omega
    · rw [if_neg h2]
      simp only [BLOCKSIZE]; omega

/-- C11 (pending-count invariant): `remainder` is below 96 after `SpookyInit`, and
`SpookyUpdate` (with any message and length) and `SpookyFinal` applied to a state with
`remainder < 96` give a state with `remainder < 96`; `0 <= remainder` holds by type. -/
theorem C11_remainder_invariant (st0 st : Spooky) (s1 s2 : Nat) (message : List Byte)
    (length : Nat) (h : st.remainder < 96) :
    (0 ≤ (SpookyInit st0 s1 s2).remainder ∧ (SpookyInit st0 s1 s2).remainder < 96) ∧
    (0 ≤ (SpookyUpdate st message length).remainder ∧
      (SpookyUpdate st message length).remainder < 96) ∧
    (0 ≤ (SpookyFinal st).1.remainder ∧ (SpookyFinal st).1.remainder < 96) :=
  ⟨⟨Nat.zero_le _, Nat.zero_lt_succ 95⟩,
   ⟨Nat.zero_le _, SpookyUpdate_remainder_lt st message length⟩,
   ⟨Nat.zero_le _, h⟩⟩

/-- Witness for C11: a state with 95 buffered bytes receiving two more bytes. -/
theorem C11_remainder_invariant_witness :
    (updates (SpookyInit zeroState 1 2) [List.replicate 95 7]).remainder < 96 ∧
    (SpookyUpdate (updates (SpookyInit zeroState 1 2) [List.replicate 95 7]) [8, 9] 2).remainder
      < 96 :=
  ⟨by decide,
   (C11_remainder_invariant zeroState (updates (SpookyInit zeroState 1 2) [List.replicate 95 7])
     1 2 [8, 9] 2 (by decide)).2.1.2⟩

/-- C12 (a zero-length update is a no-op): for every state with `remainder < 96` (and a
`length` field that fits 64 bits), `SpookyUpdate` with length 0 returns the state
unchanged: buffer, `remainder`, all twelve lanes and `length`. -/
theorem C12_empty_update_noop (st : Spooky) (message : List Byte)
    (hr : st.remainder < 96) (hl : st.length < 2 ^ 64) :
    SpookyUpdate st message 0 = st ∧ SpookyUpdate st [] ([] : List Byte).length = st := by
  have h1 : (0 + st.remainder) % W64 = st.remainder := by
    simp only [W64]; omega
  have h2 : st.remainder % 256 = st.remainder := by omega
  have h3 : (0 + st.length) % W64 = st.length := by
    simp only [W64]; omega
  have hm : ∀ msg : List Byte, memcpy st.data st.remainder msg 0 = st.data := by
    intro msg
    simp only [memcpy, List.take_zero, List.append_nil, Nat.add_zero, List.take_append_drop]
  have key : ∀ msg : List Byte, SpookyUpdate st msg 0 = st := by
    intro msg
    unfold SpookyUpdate
    simp only [h1, hr, if_true, h2, h3, hm]
  exact ⟨key message, key []⟩

/-- Witness for C12: an empty update of a state holding three buffered bytes. -/
theorem C12_empty_update_noop_witness :
    (updates (SpookyInit zeroState 1 2) [[1, 2, 3]]).remainder < 96 ∧
    (updates (SpookyInit zeroState 1 2) [[1, 2, 3]]).length < 2 ^ 64 ∧
    SpookyUpdate (updates (SpookyInit zeroState 1 2) [[1, 2, 3]]) [] 0
      = updates (SpookyInit zeroState 1 2) [[1, 2, 3]] :=
  ⟨by decide, by decide,
   (C12_empty_update_noop (updates (SpookyInit zeroState 1 2) [[1, 2, 3]]) []
     (by decide) (by decide)).1⟩

/-- C13 (SpookyInit): for all seed values and whatever the struct held before,
`SpookyInit(seed1, seed2)` yields `length = 0`, `remainder = 0`, lane 0 = `seed1` and
lane 1 = `seed2`, the raw seeds (not multiplied by `m`); the buffer and lanes 2..11 keep
their prior contents. -/
theorem C13_SpookyInit (st0 : Spooky) (seed1 seed2 : Nat) :
    (SpookyInit st0 seed1 seed2).length = 0 ∧ (SpookyInit st0 seed1 seed2).remainder = 0 ∧
    (SpookyInit st0 seed1 seed2).state.h0 = seed1 ∧
    (SpookyInit st0 seed1 seed2).state.h1 = seed2 ∧
    (SpookyInit st0 seed1 seed2).data = st0.data ∧
    (SpookyInit st0 seed1 seed2).state = { st0.state with h0 := seed1, h1 := seed2 } :=
  ⟨rfl, rfl, rfl, rfl, rfl, rfl⟩

/-- C15 as stated fails: steps 0 and 6 of `SpookyMix` both rotate by 32, so the twelve
rotation constants are not pairwise distinct. -/
theorem C15_rotation_constants_counterexample :
    rotConst.getD 0 0 = 32 ∧ rotConst.getD 6 0 = 32 ∧ ¬ rotConst.Nodup ∧
    ¬ List.Pairwise (fun a b => a ≠ b) rotConst := by
  decide

/-- C15, amended: the twelve rotation constants of `SpookyMix`, one per step, are
32, 41, 12, 24, 8, 42, 32, 13, 30, 20, 47, 16; they are pairwise distinct except that
steps 0 and 6 both use 32 (eleven distinct values), and they are the constants the macro
uses: `SpookyMix` is the twelve generic steps run with them. -/
theorem C15_rotation_constants :
    rotConst = [32, 41, 12, 24, 8, 42, 32, 13, 30, 20, 47, 16] ∧
    rotConst.length = 12 ∧ (rotConst.eraseIdx 6).Nodup ∧ (rotConst.eraseIdx 0).Nodup ∧
    rotConst.dedup.length = 11 ∧
    (∀ (data : List Byte) (s : Lanes), SpookyMix data s = mixSteps data s) :=
  ⟨by decide, by decide, by decide, by decide, by decide, SpookyMix_eq_mixSteps⟩

/-- C16 (twelve steps of one pattern): the macro `SpookyMix` equals the composition, for
`i = 0, 1, ..., 11` in that order, of the generic step that adds data word `i` into lane
`i`, rotates lane `i-1` left by the step's constant, XORs lane `i+1` into lane `i+9`, and
adds lane `i-2` into lanes `i-1` and `i+1` (lane indices mod 12). -/
theorem C16_SpookyMix_generic_steps (data : List Byte) (s : Lanes) :
    SpookyMix data s
      = (List.range 12).foldl (fun s i => mixStep (rotConst.getD i 0) data i s) s ∧
    SpookyMix data s
      = mixStep 16 data 11 (mixStep 47 data 10 (mixStep 20 data 9 (mixStep 30 data 8
          (mixStep 13 data 7 (mixStep 32 data 6 (mixStep 42 data 5 (mixStep 8 data 4
            (mixStep 24 data 3 (mixStep 12 data 2 (mixStep 41 data 1
              (mixStep 32 data 0 s))))))))))) :=
  ⟨SpookyMix_eq_mixSteps data s, SpookyMix_eq_mixSteps data s⟩

/-- C17 (the engine is not commutative): the distinct one-byte fragments `A = 01` and
`B = 02` with seeds `(1, 2)` give different digests when supplied as `A` then `B` and as
`B` then `A`. -/
theorem C17_not_commutative :
    ∃ (A B : List Byte) (s1 s2 : Nat), A ≠ [] ∧ B ≠ [] ∧ A ≠ B ∧
      (SpookyFinal (updates (SpookyInit zeroState s1 s2) [A, B])).2
        ≠ (SpookyFinal (updates (SpookyInit zeroState s1 s2) [B, A])).2 :=
  ⟨[1], [2], 1, 2, by decide, by decide, by decide, by decide⟩

/-- C18 (seed sensitivity on the test vector): for the ASCII string
`The quick brown fox jumps over the lazy dog-0123456789ABCDEF` (60 bytes long),
`SpookyHash` with seeds `(1, 2)` differs from `SpookyHash` with seeds `(1, 3)` and from
`SpookyHash` with seeds `(2, 2)`. -/
theorem C18_seed_sensitivity :
    SpookyHash foxVector foxVector.length 1 2 ≠ SpookyHash foxVector foxVector.length 1 3 ∧
    SpookyHash foxVector foxVector.length 1 2 ≠ SpookyHash foxVector foxVector.length 2 2 ∧
    foxVector.length = 60 ∧
    SpookyHash foxVector 60 1 2 = (16148735995397434312, 837676483283539366) ∧
    SpookyHash foxVector 60 1 3 = (8386494649403360748, 12817860431156116001) ∧
    SpookyHash foxVector 60 2 2 = (13316095525759585057, 17505774775258170330) := by
  decide

theorem finalBufFrom_eq (buf0 E : List Byte) (r : Nat) (hb : buf0.length = BLOCKSIZE)
    (hE : E.length = r) : finalBufFrom buf0 E r = padded E r := by
  have h1 : memcpy buf0 0 E r = E ++ buf0.drop r := by
    simp only [memcpy, List.take_zero, List.nil_append, Nat.zero_add]
    rw [List.take_of_length_le (Nat.le_of_eq hE)]
  have h2 : memset (E ++ buf0.drop r) r 0 (BLOCKSIZE - r)
      = E ++ List.replicate (BLOCKSIZE - r) 0 := by
    have e : r + (BLOCKSIZE - r) = (E ++ buf0.drop r).length := by
      simp only [List.length_append, List.length_drop, hE, hb]
    simp only [memset]
    rw [e, List.drop_length, List.append_nil, List.take_append_of_le_length (Nat.le_of_eq hE.symm),
      List.take_of_length_le (Nat.le_of_eq hE)]
  simp only [finalBufFrom, h1, h2, padded]

theorem SpookyHashFrom_eq (buf0 M : List Byte) (s1 s2 : Nat) (hb : buf0.length = BLOCKSIZE) :
    SpookyHashFrom buf0 M M.length s1 s2 = SpookyHash M M.length s1 s2 := by
  have h1 : M.length / (12 * 8) * 12 * 8 = M.length - M.length % BLOCKSIZE := by
    simp only [BLOCKSIZE]; omega
  have h2 : M.length - (M.length - M.length % BLOCKSIZE) = M.length % BLOCKSIZE := by
    simp only [BLOCKSIZE]; omega
  have h3 : (M.drop (M.length - M.length % BLOCKSIZE)).length = M.length % BLOCKSIZE := by
    simp only [List.length_drop, BLOCKSIZE]; omega
  simp only [SpookyHashFrom, SpookyHash, Bool.false_and, Bool.false_eq_true, if_false, h1, h2,
    finalBuf_eq _ _ h3, finalBufFrom_eq buf0 _ _ hb h3]

/-- C19 (determinism): the digest depends on the seeds and the supplied bytes only.
`SpookyHash` returns the same pair whatever its uninitialised local block held, and two
structs with arbitrary prior contents give the same digest after `SpookyInit` with the same
seeds, the same `SpookyUpdate` fragments and `SpookyFinal`: in both cases the digest is
`SpookyHash` of the bytes supplied. -/
theorem C19_determinism (bufA bufB : List Byte) (stA stB : Spooky) (s1 s2 : Nat)
    (Fs : List (List Byte)) (hbA : bufA.length = BLOCKSIZE) (hbB : bufB.length = BLOCKSIZE)
    (hA : stA.data.length = BLOCKSIZE) (hB : stB.data.length = BLOCKSIZE)
    (hlen : Fs.flatten.length < W64) :
    SpookyHashFrom bufA Fs.flatten Fs.flatten.length s1 s2
      = SpookyHashFrom bufB Fs.flatten Fs.flatten.length s1 s2 ∧
    SpookyHash Fs.flatten Fs.flatten.length s1 s2
      = SpookyHash Fs.flatten Fs.flatten.length s1 s2 ∧
    (SpookyFinal (updates (SpookyInit stA s1 s2) Fs)).2
      = (SpookyFinal (updates (SpookyInit stB s1 s2) Fs)).2 ∧
    (SpookyFinal (updates (SpookyInit stA s1 s2) Fs)).2
      = SpookyHashFrom bufA Fs.flatten Fs.flatten.length s1 s2 := by
  have hTA := Tracks_digest s1 s2 _ _ (Tracks_run stA s1 s2 Fs hA hlen)
  have hTB := Tracks_digest s1 s2 _ _ (Tracks_run stB s1 s2 Fs hB hlen)
  refine ⟨?_, rfl, ?_, ?_⟩
  · rw [SpookyHashFrom_eq bufA _ s1 s2 hbA, SpookyHashFrom_eq bufB _ s1 s2 hbB]
  · rw [hTA, hTB]
  · rw [hTA, SpookyHashFrom_eq bufA _ s1 s2 hbA]

/-- Witness for C19: a zeroed struct and local block against ones filled with `0xFF`
bytes and non-zero lanes, on a 101-byte message in two fragments. -/
theorem C19_determinism_witness :
    (List.replicate 96 (0 : Byte)).length = BLOCKSIZE ∧
    (List.replicate 96 (255 : Byte)).length = BLOCKSIZE ∧
    zeroState.data.length = BLOCKSIZE ∧
    ({ data := List.replicate 96 255, state := primeLanes 5 6, length := 7,
       remainder := 9 } : Spooky).data.length = BLOCKSIZE ∧
    [List.replicate 100 (7 : Byte), [1]].flatten.length < W64 ∧
    (SpookyFinal (updates (SpookyInit zeroState 1 2) [List.replicate 100 7, [1]])).2
      = (SpookyFinal (updates (SpookyInit
          { data := List.replicate 96 255, state := primeLanes 5 6, length := 7,
            remainder := 9 } 1 2) [List.replicate 100 7, [1]])).2 :=
  ⟨by decide, by decide, by decide, by decide, by decide,
   (C19_determinism (List.replicate 96 0) (List.replicate 96 255) zeroState
     { data := List.replicate 96 255, state := primeLanes 5 6, length := 7, remainder := 9 }
     1 2 [List.replicate 100 7, [1]] (by decide) (by decide) (by decide) (by decide)
     (by decide)).2.2.1⟩

theorem loopIters_eq (fuel n d : Nat) (h : n ≤ fuel) :
    loopIters fuel d (d + n * 12) = some n := by
  induction fuel generalizing n d with
  | zero =>
    have : n = 0 := by omega
    subst this
    simp [loopIters]
  | succ f ih =>
    cases n with
    | zero => simp [loopIters]
    | succ k =>
      have hlt : d < d + (k + 1) * 12 := by omega
      have he : d + (k + 1) * 12 = (d + 12) + k * 12 := by omega
      simp only [loopIters, hlt, if_true]
      rw [he, ih k (d + 12) (by omega)]
      rfl

theorem SpookyUpdate_writes_bound (st : Spooky) (len : Nat) (hp : st.remainder < 96)
    (hlen : len + st.remainder < 2 ^ 64) :
    ∀ a ∈ SpookyUpdate_writes st len, a.1 + a.2 ≤ 96 := by
  have hn : (len + st.remainder) % W64 = len + st.remainder := Nat.mod_eq_of_lt hlen
  intro a ha
  simp only [SpookyUpdate_writes, hn] at ha
  by_cases h1 : len + st.remainder < BLOCKSIZE
  · rw [if_pos h1] at ha
    simp only [List.mem_singleton] at ha
    subst ha
    simp only [BLOCKSIZE] at *; omega
  · rw [if_neg h1] at ha
    by_cases h2 : st.remainder ≠ 0
    · rw [if_pos h2] at ha
      simp only [List.mem_cons, List.mem_singleton, List.not_mem_nil, or_false] at ha
      rcases ha with ha | ha <;> subst ha <;> simp only [BLOCKSIZE, W64] at * <;> omega
    · rw [if_neg h2] at ha
      simp only [List.mem_singleton] at ha
      subst ha
      simp only [BLOCKSIZE] at *; omega

theorem SpookyUpdate_reads_bound (st : Spooky) (len : Nat) (hp : st.remainder < 96)
    (hlen : len + st.remainder < 2 ^ 64) :
    ∀ a ∈ SpookyUpdate_reads st len, a.1 + a.2 ≤ len := by
  have hn : (len + st.remainder) % W64 = len + st.remainder := Nat.mod_eq_of_lt hlen
  intro a ha
  simp only [SpookyUpdate_reads, hn] at ha
  by_cases h1 : len + st.remainder < BLOCKSIZE
  · rw [if_pos h1] at ha
    simp only [List.mem_singleton] at ha
    subst ha
    simp
  · rw [if_neg h1] at ha
    by_cases h2 : st.remainder ≠ 0
    · rw [if_pos h2] at ha
      simp only [List.mem_append, List.mem_cons, List.mem_singleton, List.not_mem_nil,
        or_false, List.mem_map, List.mem_range] at ha
      rcases ha with (ha | ⟨k, hk, ha⟩) | ha <;> subst ha <;>
        simp only [BLOCKSIZE, W64] at * <;> omega
    · rw [if_neg h2] at ha
      simp only [List.mem_append, List.mem_singleton, List.mem_map, List.mem_range] at ha
      rcases ha with ⟨k, hk, ha⟩ | ha <;> subst ha <;>
        simp only [BLOCKSIZE, W64] at * <;> omega

theorem SpookyHash_reads_bound (len : Nat) :
    ∀ a ∈ SpookyHash_reads len, a.1 + a.2 ≤ len := by
  intro a ha
  simp only [SpookyHash_reads, List.mem_append, List.mem_singleton, List.mem_map,
    List.mem_range] at ha
  rcases ha with ⟨k, hk, ha⟩ | ha <;> subst ha <;> simp only [] <;> omega

theorem SpookyUpdate_loopEnd_eq (st : Spooky) (len : Nat) (hp : st.remainder < 96)
    (hlen : len + st.remainder < 2 ^ 64) :
    SpookyUpdate_loopEnd st len
      = 0 + ((len - (if st.remainder ≠ 0 ∧ 96 ≤ len + st.remainder
            then 96 - st.remainder else 0)) / 96) * 12 := by
  have hn : (len + st.remainder) % W64 = len + st.remainder := Nat.mod_eq_of_lt hlen
  simp only [SpookyUpdate_loopEnd, hn]
  by_cases h1 : len + st.remainder < BLOCKSIZE
  · rw [if_pos h1, if_neg (by simp only [BLOCKSIZE] at h1; omega)]
    simp only [BLOCKSIZE] at h1; omega
  · rw [if_neg h1]
    by_cases h2 : st.remainder ≠ 0
    · rw [if_pos h2, if_pos ⟨h2, by simp only [BLOCKSIZE] at h1; omega⟩]
      simp only [BLOCKSIZE, W64] at *; omega
    · rw [if_neg h2, if_neg (fun hc => h2 hc.1)]
      simp only [BLOCKSIZE]; omega

/-- C20 as stated fails on the loop count: with one byte buffered (`remainder = 1`) and a
fragment of `len = 96` bytes, 95 bytes top off the buffer, one byte is left, and the block
loop of `SpookyUpdate` runs 0 iterations, not `96 / 96 = 1`. -/
theorem C20_loop_count_counterexample :
    (updates (SpookyInit zeroState 1 2) [[7]]).remainder = 1 ∧
    96 + (updates (SpookyInit zeroState 1 2) [[7]]).remainder < 2 ^ 64 ∧
    loopIters 1 0 (SpookyUpdate_loopEnd (updates (SpookyInit zeroState 1 2) [[7]]) 96)
      = some 0 ∧
    ¬ (loopIters 1 0 (SpookyUpdate_loopEnd (updates (SpookyInit zeroState 1 2) [[7]]) 96)
      = some (96 / 96)) := by
  decide

/-- C20, amended: for every state with `remainder < 96` and every fragment of length `len`
with `len + remainder < 2^64`, every buffer offset written by `SpookyUpdate` and
`SpookyFinal` is below 96 and every message offset read by `SpookyUpdate` is below `len`;
`SpookyHash` reads only message offsets below its length and writes only offsets below 96
of its local block; the block loop of `SpookyHash` ends after `len / 96` iterations and
the one of `SpookyUpdate` after `(len - t) / 96` iterations, at most `len / 96`, where
`t = 96 - remainder` bytes first top off a non-empty buffer (`t = 0` otherwise). -/
theorem C20_memory_safety (st : Spooky) (len fuel : Nat) (hp : st.remainder < 96)
    (hlen : len + st.remainder < 2 ^ 64) (hfuel : len / 96 ≤ fuel) :
    (∀ a ∈ SpookyUpdate_writes st len, ∀ i, i < a.2 → a.1 + i < 96) ∧
    (∀ a ∈ SpookyFinal_writes st, ∀ i, i < a.2 → a.1 + i < 96) ∧
    (∀ a ∈ SpookyUpdate_reads st len, ∀ i, i < a.2 → a.1 + i < len) ∧
    (∀ a ∈ SpookyHash_reads len, ∀ i, i < a.2 → a.1 + i < len) ∧
    (∀ a ∈ SpookyHash_writes len, ∀ i, i < a.2 → a.1 + i < 96) ∧
    loopIters fuel 0 (SpookyHash_loopEnd len) = some (len / 96) ∧
    loopIters fuel 0 (SpookyUpdate_loopEnd st len)
      = some ((len - (if st.remainder ≠ 0 ∧ 96 ≤ len + st.remainder
          then 96 - st.remainder else 0)) / 96) ∧
    (len - (if st.remainder ≠ 0 ∧ 96 ≤ len + st.remainder
        then 96 - st.remainder else 0)) / 96 ≤ len / 96 := by
  have hmono : (len - (if st.remainder ≠ 0 ∧ 96 ≤ len + st.remainder
      then 96 - st.remainder else 0)) / 96 ≤ len / 96 :=
    Nat.div_le_div_right (Nat.sub_le _ _)
  refine ⟨?_, ?_, ?_, ?_, ?_, ?_, ?_, hmono⟩
  · intro a ha i hi
    have := SpookyUpdate_writes_bound st len hp hlen a ha
    omega
  · intro a ha i hi
    simp only [SpookyFinal_writes, List.mem_cons, List.mem_singleton, List.not_mem_nil,
      or_false] at ha
    rcases ha with ha | ha <;> subst ha <;> simp only [BLOCKSIZE] at * <;> omega
  · intro a ha i hi
    have := SpookyUpdate_reads_bound st len hp hlen a ha
    omega
  · intro a ha i hi
    have := SpookyHash_reads_bound len a ha
    omega
  · intro a ha i hi
    simp only [SpookyHash_writes, List.mem_cons, List.mem_singleton, List.not_mem_nil,
      or_false] at ha
    rcases ha with ha | ha | ha <;> subst ha <;> simp only [BLOCKSIZE] at * <;> omega
  · have h := loopIters_eq fuel (len / 96) 0 hfuel
    have e : SpookyHash_loopEnd len = 0 + len / 96 * 12 := by
      simp only [SpookyHash_loopEnd]; omega
    rw [e]; exact h
  · rw [SpookyUpdate_loopEnd_eq st len hp hlen]
    exact loopIters_eq fuel _ 0 (Nat.le_trans hmono hfuel)

/-- Witness for C20: five bytes buffered and a fragment of 200 bytes. -/
theorem C20_memory_safety_witness :
    (updates (SpookyInit zeroState 1 2) [[1, 2, 3, 4, 5]]).remainder < 96 ∧
    200 + (updates (SpookyInit zeroState 1 2) [[1, 2, 3, 4, 5]]).remainder < 2 ^ 64 ∧
    200 / 96 ≤ 2 ∧
    loopIters 2 0 (SpookyUpdate_loopEnd (updates (SpookyInit zeroState 1 2) [[1, 2, 3, 4, 5]])
      200) = some ((200 - (if (updates (SpookyInit zeroState 1 2) [[1, 2, 3, 4, 5]]).remainder
          ≠ 0 ∧ 96 ≤ 200 + (updates (SpookyInit zeroState 1 2) [[1, 2, 3, 4, 5]]).remainder
        then 96 - (updates (SpookyInit zeroState 1 2) [[1, 2, 3, 4, 5]]).remainder
        else 0)) / 96) :=
  ⟨by decide, by decide, by decide,
   (C20_memory_safety (updates (SpookyInit zeroState 1 2) [[1, 2, 3, 4, 5]]) 200 2
     (by decide) (by decide) (by decide)).2.2.2.2.2.2.1⟩

theorem padded_eq_append (B : List Byte) (r : Nat) (hB : B.length = r) (hr : r < BLOCKSIZE) :
    padded B r = B ++ List.replicate (95 - r) 0 ++ [Fin.ofNat r] := by
  have h1 : List.replicate (BLOCKSIZE - r) (0 : Byte) = List.replicate (95 - r) 0 ++ [0] := by
    have : BLOCKSIZE - r = (95 - r) + 1 := by simp only [BLOCKSIZE] at *; omega
    rw [this, List.replicate_succ']
  have h2 : (B ++ List.replicate (95 - r) (0 : Byte)).length = BLOCKSIZE - 1 := by
    simp only [List.length_append, List.length_replicate, hB, BLOCKSIZE] at *; omega
  unfold padded
  rw [h1, ← List.append_assoc, List.set_append_right _ _ (Nat.le_of_eq h2), h2, Nat.sub_self]
  rfl

/-- C29 (block-path finalization): for every state with `length >= 96` and
`remainder = p < 96`, `SpookyFinal` returns lanes 11 and 0 after applying `SpookyMix` four
times, starting from a copy of the twelve stored lanes (which stay as they were), always
with the same block: `buffer[0..p)`, then zero bytes up to offset 94, then byte 95 = `p`. -/
theorem C29_block_path_final (st : Spooky) (hd : st.data.length = BLOCKSIZE)
    (hl : 96 ≤ st.length) (hp : st.remainder < 96) :
    (SpookyFinal st).2 =
      ((SpookyMix (st.data.take st.remainder ++ List.replicate (95 - st.remainder) 0
          ++ [Fin.ofNat st.remainder])
        (SpookyMix (st.data.take st.remainder ++ List.replicate (95 - st.remainder) 0
          ++ [Fin.ofNat st.remainder])
        (SpookyMix (st.data.take st.remainder ++ List.replicate (95 - st.remainder) 0
          ++ [Fin.ofNat st.remainder])
        (SpookyMix (st.data.take st.remainder ++ List.replicate (95 - st.remainder) 0
          ++ [Fin.ofNat st.remainder]) st.state)))).h11,
       (SpookyMix (st.data.take st.remainder ++ List.replicate (95 - st.remainder) 0
          ++ [Fin.ofNat st.remainder])
        (SpookyMix (st.data.take st.remainder ++ List.replicate (95 - st.remainder) 0
          ++ [Fin.ofNat st.remainder])
        (SpookyMix (st.data.take st.remainder ++ List.replicate (95 - st.remainder) 0
          ++ [Fin.ofNat st.remainder])
        (SpookyMix (st.data.take st.remainder ++ List.replicate (95 - st.remainder) 0
          ++ [Fin.ofNat st.remainder]) st.state)))).h0) ∧
    (SpookyFinal st).1.state = st.state ∧
    (st.data.take st.remainder ++ List.replicate (95 - st.remainder) 0
      ++ [Fin.ofNat st.remainder]).length = 96 := by
  have hB : (st.data.take st.remainder).length = st.remainder := by
    rw [List.length_take, hd]; simp only [BLOCKSIZE]; omega
  have hload : loadLanes st = st.state := by
    unfold loadLanes
    rw [if_neg (by simp only [BLOCKSIZE]; omega)]
  refine ⟨?_, rfl, ?_⟩
  · rw [SpookyFinal_digest, SpookyFinal_buf st hd hp, hload,
      padded_eq_append _ _ hB hp]
  · simp only [List.length_append, List.length_replicate, hB, List.length_singleton]
    omega

/-- Witness for C29: the state after a 100-byte update (one block mixed, 4 bytes left). -/
theorem C29_block_path_final_witness :
    (updates (SpookyInit zeroState 1 2) [List.replicate 100 7]).data.length = BLOCKSIZE ∧
    96 ≤ (updates (SpookyInit zeroState 1 2) [List.replicate 100 7]).length ∧
    (updates (SpookyInit zeroState 1 2) [List.replicate 100 7]).remainder < 96 ∧
    (SpookyFinal (updates (SpookyInit zeroState 1 2) [List.replicate 100 7])).1.state
      = (updates (SpookyInit zeroState 1 2) [List.replicate 100 7]).state :=
  ⟨by decide, by decide, by decide,
   (C29_block_path_final (updates (SpookyInit zeroState 1 2) [List.replicate 100 7])
     (by decide) (by decide) (by decide)).2.1⟩

theorem blocksOf_length (n : Nat) (X : List Byte) : (blocksOf n X).length = n := by
  induction n generalizing X with
  | zero => rfl
  | succ k ih => simp only [blocksOf, List.length_cons, ih]

theorem blocksOf_flatten (n : Nat) (X : List Byte) :
    (blocksOf n X).flatten = X.take (BLOCKSIZE * n) := by
  induction n generalizing X with
  | zero => simp [blocksOf]
  | succ k ih =>
    simp only [blocksOf, List.flatten_cons, ih]
    rw [Nat.mul_succ, Nat.add_comm, List.take_add]

theorem lastBlock_eq (M : List Byte) :
    lastBlock M = padded (M.drop (M.length - M.length % BLOCKSIZE)) (M.length % BLOCKSIZE) :=
  rfl

theorem mixerInputs_injective (M1 M2 : List Byte) (h : mixerInputs M1 = mixerInputs M2) :
    M1 = M2 := by
  unfold mixerInputs at h
  obtain ⟨hb, hl⟩ := List.append_inj' h rfl
  have hk : M1.length / 96 = M2.length / 96 := by
    have := congrArg List.length hb
    rwa [blocksOf_length, blocksOf_length] at this
  have hlb : lastBlock M1 = lastBlock M2 := by simpa using hl
  have hr1 : M1.length % BLOCKSIZE < BLOCKSIZE := Nat.mod_lt _ (by decide)
  have hr2 : M2.length % BLOCKSIZE < BLOCKSIZE := Nat.mod_lt _ (by decide)
  have hd1 : (M1.drop (M1.length - M1.length % BLOCKSIZE)).length = M1.length % BLOCKSIZE := by
    rw [List.length_drop]; have := Nat.mod_le M1.length BLOCKSIZE; omega
  have hd2 : (M2.drop (M2.length - M2.length % BLOCKSIZE)).length = M2.length % BLOCKSIZE := by
    rw [List.length_drop]; have := Nat.mod_le M2.length BLOCKSIZE; omega
  rw [lastBlock_eq, lastBlock_eq, padded_eq_append _ _ hd1 hr1,
    padded_eq_append _ _ hd2 hr2] at hlb
  obtain ⟨hpre, htag⟩ := List.append_inj' hlb rfl
  have hr : M1.length % BLOCKSIZE = M2.length % BLOCKSIZE := by
    have h3 : (Fin.ofNat (M1.length % BLOCKSIZE) : Byte) = Fin.ofNat (M2.length % BLOCKSIZE) := by
      simpa using htag
    have h4 := congrArg Fin.val h3
    simp only [Fin.ofNat, BLOCKSIZE] at h4 hr1 hr2 ⊢
    omega
  have hlen : M1.length = M2.length := by
    have e1 := Nat.div_add_mod M1.length 96
    have e2 := Nat.div_add_mod M2.length 96
    simp only [BLOCKSIZE] at hr
    omega
  have hdrop : M1.drop (M1.length - M1.length % BLOCKSIZE)
      = M2.drop (M2.length - M2.length % BLOCKSIZE) := by
    rw [hr] at hpre
    have := List.append_inj_left' hpre rfl
    rwa [hr]
  have htake : M1.take (M1.length - M1.length % BLOCKSIZE)
      = M2.take (M2.length - M2.length % BLOCKSIZE) := by
    have e1 : M1.length - M1.length % BLOCKSIZE = BLOCKSIZE * (M1.length / 96) := by
      simp only [BLOCKSIZE]; omega
    have e2 : M2.length - M2.length % BLOCKSIZE = BLOCKSIZE * (M2.length / 96) := by
      simp only [BLOCKSIZE]; omega
    rw [e1, e2, ← blocksOf_flatten, ← blocksOf_flatten, hb]
  rw [← List.take_append_drop (M1.length - M1.length % BLOCKSIZE) M1,
    ← List.take_append_drop (M2.length - M2.length % BLOCKSIZE) M2, htake, hdrop]

/-- C30 (the length padding makes the block encoding injective): the map from a message
to the sequence of mixer inputs of `SpookyHash` (its complete 96-byte blocks, then the
final block zero-padded with byte 95 = `|M| mod 96`) is injective; in particular a message
and the same message followed by one or more zero bytes never give the same sequence. -/
theorem C30_block_encoding_injective :
    Function.Injective mixerInputs ∧
    (∀ (M : List Byte) (n : Nat),
      mixerInputs (M ++ List.replicate (n + 1) 0) ≠ mixerInputs M) ∧
    (∀ (M : List Byte) (s1 s2 : Nat),
      SpookyHash M M.length s1 s2 =
        ((SpookyMix ((mixerInputs M).getLastD []) (SpookyMix ((mixerInputs M).getLastD [])
          (SpookyMix ((mixerInputs M).getLastD []) (SpookyMix ((mixerInputs M).getLastD [])
            ((mixerInputs M).dropLast.foldl (fun h blk => SpookyMix blk h)
              (primeLanes s1 s2)))))).h11,
         (SpookyMix ((mixerInputs M).getLastD []) (SpookyMix ((mixerInputs M).getLastD [])
          (SpookyMix ((mixerInputs M).getLastD []) (SpookyMix ((mixerInputs M).getLastD [])
            ((mixerInputs M).dropLast.foldl (fun h blk => SpookyMix blk h)
              (primeLanes s1 s2)))))).h0)) := by
  refine ⟨fun M1 M2 h => mixerInputs_injective M1 M2 h, ?_, ?_⟩
  · intro M n h
    have := congrArg List.length (mixerInputs_injective _ _ h)
    simp only [List.length_append, List.length_replicate] at this
    omega
  · intro M s1 s2
    have h1 : (mixerInputs M).getLastD [] = lastBlock M := by
      simp [mixerInputs]
    have h2 : (mixerInputs M).dropLast = blocksOf (M.length / 96) M := by
      simp [mixerInputs]
    rw [h1, h2, SpookyHash_eq, ← mixBlocks_eq_foldl, lastBlock_eq]

theorem byteAt_drop (X : List Byte) (a j : Nat) : byteAt (X.drop a) j = byteAt X (a + j) := by
  unfold byteAt
  simp only [List.getD_eq_getElem?_getD, List.getElem?_drop]

theorem shortRound_eq_of_take (X Y : List Byte) (h : Nat × Nat)
    (hXY : X.take 16 = Y.take 16) : shortRound X h = shortRound Y h := by
  unfold shortRound
  rw [read64_eq_of_take X Y 16 0 hXY (by omega), read64_eq_of_take X Y 16 1 hXY (by omega)]

theorem shortLoop_eq_of_take (n : Nat) (X Y : List Byte) (h : Nat × Nat)
    (hXY : X.take (16 * n) = Y.take (16 * n)) : shortLoop n X h = shortLoop n Y h := by
  induction n generalizing X Y h with
  | zero => rfl
  | succ k ih =>
    have h16 : X.take 16 = Y.take 16 := by
      have := congrArg (List.take 16) hXY
      simpa [List.take_take, Nat.mul_succ] using this
    have hd : (X.drop 16).take (16 * k) = (Y.drop 16).take (16 * k) := by
      have := congrArg (List.drop 16) hXY
      simpa [List.drop_take, Nat.mul_succ] using this
    simp only [shortLoop]
    rw [shortRound_eq_of_take X Y h h16]
    exact ih _ _ _ hd

theorem shortTail_eq_of_bytes (X Y : List Byte) (r : Nat) (h : Nat × Nat) (hr : r ≤ 15)
    (hb : ∀ j, j < r → byteAt X j = byteAt Y j) : shortTail X r h = shortTail Y r h := by
  interval_cases r <;> simp [shortTail, read64, hb]

theorem ShortHash_eq_of_take (M1 M2 : List Byte) (len s1 s2 : Nat)
    (h : M1.take len = M2.take len) : ShortHash M1 len s1 s2 = ShortHash M2 len s1 s2 := by
  have hloop : M1.take (16 * (len / 16)) = M2.take (16 * (len / 16)) := by
    have := congrArg (List.take (16 * (len / 16))) h
    rwa [List.take_take, List.take_take, Nat.min_eq_left (Nat.mul_div_le len 16)] at this
  have hr : len - len / 16 * 16 ≤ 15 := by omega
  have hb : ∀ j, j < len - len / 16 * 16 →
      byteAt (M1.drop (len / 16 * 2 * 8)) j = byteAt (M2.drop (len / 16 * 2 * 8)) j := by
    intro j hj
    rw [byteAt_drop, byteAt_drop]
    exact byteAt_eq_of_take M1 M2 len _ h (by omega)
  unfold ShortHash
  simp only []
  rw [shortLoop_eq_of_take _ M1 M2 _ hloop, shortTail_eq_of_bytes _ _ _ _ hr hb]

theorem shortTail_reads_mem (r : Nat) (hr : r ≤ 15) (o : Nat) :
    o ∈ shortTail_reads r ↔ o < r := by
  interval_cases r <;> simp [shortTail_reads] <;> omega

theorem ShortHash_reads_mem (len o : Nat) : o ∈ ShortHash_reads len ↔ o < len := by
  have hr : len - len / 16 * 16 ≤ 15 := by omega
  simp only [ShortHash_reads, List.mem_append, List.mem_flatMap, List.mem_map, List.mem_range,
    shortTail_reads_mem _ hr]
  constructor
  · rintro (⟨k, hk, b, hb, rfl⟩ | ⟨t, ht, rfl⟩) <;> omega
  · intro ho
    by_cases hc : o < len / 16 * 16
    · exact Or.inl ⟨o / 16, by omega, o % 16, by omega, by omega⟩
    · exact Or.inr ⟨o - len / 16 * 16, by omega, by omega⟩

/-- C31 (representation invariant of the streaming state): after `SpookyInit(s1, s2)` and a
run of `SpookyUpdate` calls whose fragments `Fs` concatenate to `M` with `|M| < 2^64`, the
struct has `length = |M|`, `remainder = |M| mod 96`, the first `remainder` bytes of the
buffer are the last `remainder` bytes of `M`, for `|M| >= 96` the twelve lanes are the
seed-primed lanes folded with `SpookyMix` over the `|M| / 96` complete blocks of `M`, and
for `|M| < 96` lanes 0 and 1 still hold the seeds.  Hence any other fragmentation `Gs` of
the same message, such as `[A ++ B]` for `[A, B]`, gives a state that agrees on all of
these. -/
theorem C31_representation_invariant (st0 : Spooky) (s1 s2 : Nat) (Fs Gs : List (List Byte))
    (hd : st0.data.length = BLOCKSIZE) (hlen : Fs.flatten.length < W64)
    (hG : Gs.flatten = Fs.flatten) :
    ((updates (SpookyInit st0 s1 s2) Fs).length = Fs.flatten.length ∧
     (updates (SpookyInit st0 s1 s2) Fs).remainder = Fs.flatten.length % 96 ∧
     (updates (SpookyInit st0 s1 s2) Fs).data.take (Fs.flatten.length % 96)
       = Fs.flatten.drop (Fs.flatten.length - Fs.flatten.length % 96) ∧
     (96 ≤ Fs.flatten.length → (updates (SpookyInit st0 s1 s2) Fs).state
       = mixBlocks (Fs.flatten.length / 96) Fs.flatten (primeLanes s1 s2)) ∧
     (Fs.flatten.length < 96 → (updates (SpookyInit st0 s1 s2) Fs).state.h0 = s1 ∧
       (updates (SpookyInit st0 s1 s2) Fs).state.h1 = s2)) ∧
    ((updates (SpookyInit st0 s1 s2) Gs).length = (updates (SpookyInit st0 s1 s2) Fs).length ∧
     (updates (SpookyInit st0 s1 s2) Gs).remainder
       = (updates (SpookyInit st0 s1 s2) Fs).remainder ∧
     (updates (SpookyInit st0 s1 s2) Gs).data.take (Fs.flatten.length % 96)
       = (updates (SpookyInit st0 s1 s2) Fs).data.take (Fs.flatten.length % 96) ∧
     (96 ≤ Fs.flatten.length → (updates (SpookyInit st0 s1 s2) Gs).state
       = (updates (SpookyInit st0 s1 s2) Fs).state) ∧
     (Fs.flatten.length < 96 →
       (updates (SpookyInit st0 s1 s2) Gs).state.h0
         = (updates (SpookyInit st0 s1 s2) Fs).state.h0 ∧
       (updates (SpookyInit st0 s1 s2) Gs).state.h1
         = (updates (SpookyInit st0 s1 s2) Fs).state.h1)) := by
  obtain ⟨_, f2, f3, f4, f5, f6⟩ := Tracks_run st0 s1 s2 Fs hd hlen
  obtain ⟨_, g2, g3, g4, g5, g6⟩ := Tracks_run st0 s1 s2 Gs hd (by rw [hG]; exact hlen)
  rw [hG] at g2 g3 g4 g5 g6
  refine ⟨⟨f2, f3, f4, f6, f5⟩, ⟨?_, ?_, ?_, ?_, ?_⟩⟩
  · rw [g2, f2]
  · rw [g3, f3]
  · exact g4.trans f4.symm
  · intro h
    rw [g6 h, f6 h]
  · intro h
    exact ⟨(g5 h).1.trans (f5 h).1.symm, (g5 h).2.trans (f5 h).2.symm⟩

/-- Witness for C31: a 100-byte message supplied as 70 + 30 bytes and in one piece. -/
theorem C31_representation_invariant_witness :
    (zeroState.data.length = BLOCKSIZE ∧
      ([List.replicate 70 7, List.replicate 30 9] : List (List Byte)).flatten.length < W64 ∧
      ([List.replicate 70 7 ++ List.replicate 30 9] : List (List Byte)).flatten
        = ([List.replicate 70 7, List.replicate 30 9] : List (List Byte)).flatten) ∧
    (updates (SpookyInit zeroState 1 2) [List.replicate 70 7 ++ List.replicate 30 9]).state
      = (updates (SpookyInit zeroState 1 2) [List.replicate 70 7, List.replicate 30 9]).state :=
  ⟨⟨by decide, by decide, by decide⟩,
   (C31_representation_invariant zeroState 1 2 [List.replicate 70 7, List.replicate 30 9]
     [List.replicate 70 7 ++ List.replicate 30 9] (by decide) (by decide) (by decide)).2.2.2.2.1
     (by decide)⟩

/-- C32 (exact effect of `SpookyFinal` on the state): for every state with a 96-byte
buffer and `remainder = p < 96`, `SpookyFinal` leaves `length`, `remainder`, the twelve
lanes and buffer bytes `0 .. p-1` as they were, and afterwards buffer bytes `p .. 94` are
zero and byte 95 is `p`: the padding is written into the stored buffer, above the valid
bytes only. -/
theorem C32_final_effect (st : Spooky) (hd : st.data.length = BLOCKSIZE)
    (hp : st.remainder < 96) :
    (SpookyFinal st).1.length = st.length ∧
    (SpookyFinal st).1.remainder = st.remainder ∧
    (SpookyFinal st).1.state = st.state ∧
    (SpookyFinal st).1.data.length = 96 ∧
    (∀ i, i < st.remainder → (SpookyFinal st).1.data.getD i 0 = st.data.getD i 0) ∧
    (∀ i, st.remainder ≤ i → i < 95 → (SpookyFinal st).1.data.getD i 0 = 0) ∧
    (SpookyFinal st).1.data.getD 95 0 = Fin.ofNat st.remainder ∧
    (SpookyFinal st).1.data
      = st.data.take st.remainder ++ List.replicate (95 - st.remainder) 0
          ++ [Fin.ofNat st.remainder] := by
  have hB : (st.data.take st.remainder).length = st.remainder := by
    rw [List.length_take, hd]; simp only [BLOCKSIZE]; omega
  have hbuf : (SpookyFinal st).1.data
      = st.data.take st.remainder ++ List.replicate (95 - st.remainder) 0
          ++ [Fin.ofNat st.remainder] := by
    rw [SpookyFinal_buf st hd hp, padded_eq_append _ _ hB hp]
  refine ⟨rfl, rfl, rfl, ?_, ?_, ?_, ?_, hbuf⟩
  · rw [hbuf]
    simp only [List.length_append, List.length_replicate, hB, List.length_singleton]
    omega
  · intro i hi
    rw [hbuf, List.getD_eq_getElem?_getD, List.getD_eq_getElem?_getD, List.append_assoc,
      List.getElem?_append_left (by rw [hB]; exact hi), List.getElem?_take, if_pos hi]
  · intro i h1 h2
    rw [hbuf, List.getD_eq_getElem?_getD, List.append_assoc,
      List.getElem?_append_right (by rw [hB]; exact h1), hB,
      List.getElem?_append_left (by rw [List.length_replicate]; omega),
      List.getElem?_replicate, if_pos (by omega)]
    rfl
  · rw [hbuf, List.getD_eq_getElem?_getD,
      List.getElem?_append_right (by
        simp only [List.length_append, List.length_replicate, hB]; omega)]
    have : 95 - (st.data.take st.remainder ++ List.replicate (95 - st.remainder) 0).length = 0 := by
      simp only [List.length_append, List.length_replicate, hB]; omega
    rw [this]
    rfl

/-- Witness for C32: the state after a 100-byte update (4 bytes pending). -/
theorem C32_final_effect_witness :
    ((updates (SpookyInit zeroState 1 2) [List.replicate 100 7]).data.length = BLOCKSIZE ∧
      (updates (SpookyInit zeroState 1 2) [List.replicate 100 7]).remainder < 96) ∧
    (SpookyFinal (updates (SpookyInit zeroState 1 2) [List.replicate 100 7])).1.data.getD 95 0
      = Fin.ofNat (updates (SpookyInit zeroState 1 2) [List.replicate 100 7]).remainder :=
  ⟨⟨by decide, by decide⟩,
   (C32_final_effect (updates (SpookyInit zeroState 1 2) [List.replicate 100 7])
     (by decide) (by decide)).2.2.2.2.2.2.1⟩

theorem shortRound_lt (data : List Byte) (h : Nat × Nat) :
    (shortRound data h).1 < W64 ∧ (shortRound data h).2 < W64 := by
  unfold shortRound
  exact ⟨xor_W64_lt _ _ (mod_W64_lt _) (mod_W64_lt _), mod_W64_lt _⟩

theorem shortLoop_lt (n : Nat) (data : List Byte) (h : Nat × Nat)
    (hh : h.1 < W64 ∧ h.2 < W64) :
    (shortLoop n data h).1 < W64 ∧ (shortLoop n data h).2 < W64 := by
  induction n generalizing data h with
  | zero => exact hh
  | succ k ih =>
    simp only [shortLoop]
    exact ih _ _ (shortRound_lt data h)

theorem shortTail_zero (X : List Byte) (h : Nat × Nat) (hh : h.2 < W64) :
    shortTail X 0 h
      = (((h.1 % W64) * m1 % W64) ^^^ h.2, (h.2 + (((h.1 % W64) * m1 % W64) ^^^ h.2)) % W64) := by
  have h0 : rot64 0 32 = 0 := by decide
  simp [shortTail, h0, Nat.mod_eq_of_lt hh]

theorem shortTail_eight_zero (X : List Byte) (h : Nat × Nat) (hX : read64 X 0 = 0) :
    shortTail X 8 h
      = (((h.1 % W64) * m1 % W64) ^^^ h.2, (h.2 + (((h.1 % W64) * m1 % W64) ^^^ h.2)) % W64) := by
  have h0 : rot64 0 32 = 0 := by decide
  simp [shortTail, h0, hX]

/-- C34 (`ShortHash` ignores eight trailing zero bytes after a chunk boundary): for every
seed pair and every message `M` whose length is a multiple of 16, the empty message
included, `ShortHash` of `M` and of `M` followed by eight zero bytes are equal: the case
for remainder 8 overwrites the word `temp` that holds the length tag. -/
theorem C34_ShortHash_eight_zero_bytes (M : List Byte) (s1 s2 : Nat)
    (h16 : M.length % 16 = 0) :
    ShortHash (M ++ List.replicate 8 0) (M.length + 8) s1 s2 = ShortHash M M.length s1 s2 := by
  have hq : (M.length + 8) / 16 = M.length / 16 := by omega
  have hr8 : M.length + 8 - M.length / 16 * 16 = 8 := by omega
  have hr0 : M.length - M.length / 16 * 16 = 0 := by omega
  have hlen : M.length / 16 * 2 * 8 = M.length := by omega
  have hloop : shortLoop (M.length / 16) (M ++ List.replicate 8 0)
      ((rot64 (s1 * m1 % W64) 32 * m2 % W64) ^^^ (rot64 (s2 * m2 % W64) 32 * m1 % W64),
        ((rot64 (s2 * m2 % W64) 32 * m1 % W64) + ((rot64 (s1 * m1 % W64) 32 * m2 % W64) ^^^
          (rot64 (s2 * m2 % W64) 32 * m1 % W64))) % W64)
      = shortLoop (M.length / 16) M
      ((rot64 (s1 * m1 % W64) 32 * m2 % W64) ^^^ (rot64 (s2 * m2 % W64) 32 * m1 % W64),
        ((rot64 (s2 * m2 % W64) 32 * m1 % W64) + ((rot64 (s1 * m1 % W64) 32 * m2 % W64) ^^^
          (rot64 (s2 * m2 % W64) 32 * m1 % W64))) % W64) := by
    apply shortLoop_eq_of_take
    rw [List.take_append_of_le_length (by omega)]
  have hlt := (shortLoop_lt (M.length / 16) M
      ((rot64 (s1 * m1 % W64) 32 * m2 % W64) ^^^ (rot64 (s2 * m2 % W64) 32 * m1 % W64),
        ((rot64 (s2 * m2 % W64) 32 * m1 % W64) + ((rot64 (s1 * m1 % W64) 32 * m2 % W64) ^^^
          (rot64 (s2 * m2 % W64) 32 * m1 % W64))) % W64)
      ⟨xor_W64_lt _ _ (mod_W64_lt _) (mod_W64_lt _), mod_W64_lt _⟩).2
  have hz : read64 ((M ++ List.replicate 8 0).drop M.length) 0 = 0 := by
    rw [List.drop_left]
    decide
  unfold ShortHash
  simp only []
  rw [hq, hr8, hr0, hlen, hloop, shortTail_zero _ _ hlt, shortTail_eight_zero _ _ hz]

/-- Witness for C34: the 16-byte message of bytes 7. -/
theorem C34_ShortHash_eight_zero_bytes_witness :
    (List.replicate 16 (7 : Byte)).length % 16 = 0 ∧
    ShortHash (List.replicate 16 7 ++ List.replicate 8 0) ((List.replicate 16 (7 : Byte)).length + 8) 1 2
      = ShortHash (List.replicate 16 7) (List.replicate 16 (7 : Byte)).length 1 2 :=
  ⟨by decide, C34_ShortHash_eight_zero_bytes (List.replicate 16 7) 1 2 (by decide)⟩

theorem akronUnstep_akronStep (c : Nat) (data : List Byte) (i : Nat) (s : Lanes)
    (hc : c ≤ 64) (hi : i < 12) (hs : Lanes64 s) :
    akronUnstep c data i (akronStep c data i s) = s := by
  obtain ⟨h0, h1, h2, h3, h4, h5, h6, h7, h8, h9, h10, h11⟩ := s
  obtain ⟨v0, v1, v2, v3, v4, v5, v6, v7, v8, v9, v10, v11⟩ := hs
  simp only at v0 v1 v2 v3 v4 v5 v6 v7 v8 v9 v10 v11
  interval_cases i <;>
    simp only [akronStep, akronUnstep, lane, setLane, Nat.reduceAdd, Nat.reduceMod,
      Lanes.mk.injEq, true_and, and_true] <;>
    simp only [add_sub_cancel_mod, add_sub_data_mod, rot64_inv, mod_W64_lt,
      Nat.xor_cancel_right, hc, v0, v1, v2, v3, v4, v5, v6, v7, v8, v9, v10, v11, and_self]

theorem akronStep_akronUnstep (c : Nat) (data : List Byte) (i : Nat) (s : Lanes)
    (hc : c ≤ 64) (hi : i < 12) (hs : Lanes64 s) :
    akronStep c data i (akronUnstep c data i s) = s := by
  obtain ⟨h0, h1, h2, h3, h4, h5, h6, h7, h8, h9, h10, h11⟩ := s
  obtain ⟨v0, v1, v2, v3, v4, v5, v6, v7, v8, v9, v10, v11⟩ := hs
  simp only at v0 v1 v2 v3 v4 v5 v6 v7 v8 v9 v10 v11
  interval_cases i <;>
    simp only [akronStep, akronUnstep, lane, setLane, Nat.reduceAdd, Nat.reduceMod,
      Lanes.mk.injEq, true_and, and_true] <;>
    simp only [sub_add_cancel_mod, sub_add_data_mod, rot64_inv', mod_W64_lt, xor_W64_lt,
      Nat.xor_cancel_right, hc, v0, v1, v2, v3, v4, v5, v6, v7, v8, v9, v10, v11, and_self]

theorem Lanes64_akronStep (c : Nat) (data : List Byte) (i : Nat) (s : Lanes)
    (hi : i < 12) (hs : Lanes64 s) : Lanes64 (akronStep c data i s) := by
  obtain ⟨h0, h1, h2, h3, h4, h5, h6, h7, h8, h9, h10, h11⟩ := s
  obtain ⟨v0, v1, v2, v3, v4, v5, v6, v7, v8, v9, v10, v11⟩ := hs
  simp only at v0 v1 v2 v3 v4 v5 v6 v7 v8 v9 v10 v11
  interval_cases i <;>
    simp only [akronStep, lane, setLane, Nat.reduceAdd, Nat.reduceMod, Lanes64] <;>
    refine ⟨?_, ?_, ?_, ?_, ?_, ?_, ?_, ?_, ?_, ?_, ?_, ?_⟩ <;>
    first
      | assumption
      | exact mod_W64_lt _
      | exact xor_W64_lt _ _ (rot64_lt _ _ (by assumption)) (mod_W64_lt _)

theorem Lanes64_akronUnstep (c : Nat) (data : List Byte) (i : Nat) (s : Lanes)
    (hi : i < 12) (hs : Lanes64 s) : Lanes64 (akronUnstep c data i s) := by
  obtain ⟨h0, h1, h2, h3, h4, h5, h6, h7, h8, h9, h10, h11⟩ := s
  obtain ⟨v0, v1, v2, v3, v4, v5, v6, v7, v8, v9, v10, v11⟩ := hs
  simp only at v0 v1 v2 v3 v4 v5 v6 v7 v8 v9 v10 v11
  interval_cases i <;>
    simp only [akronUnstep, lane, setLane, Nat.reduceAdd, Nat.reduceMod, Lanes64] <;>
    refine ⟨?_, ?_, ?_, ?_, ?_, ?_, ?_, ?_, ?_, ?_, ?_, ?_⟩ <;>
    first
      | assumption
      | exact mod_W64_lt _
      | exact rot64_lt _ _ (xor_W64_lt _ _ (by assumption) (mod_W64_lt _))

theorem akronRot_le (i : Nat) : akronRot.getD i 0 ≤ 64 := by
  by_cases hi : i < 12
  · interval_cases i <;> decide
  · have : akronRot.length ≤ i := by simp only [akronRot, List.length]; omega
    rw [List.getD_eq_getElem?_getD, List.getElem?_eq_none this]
    exact Nat.zero_le _

theorem akron_fold (data : List Byte) (is : List Nat) (his : ∀ i ∈ is, i < 12) (s : Lanes)
    (hs : Lanes64 s) :
    Lanes64 (is.foldl (fun s i => akronStep (akronRot.getD i 0) data i s) s) ∧
    is.foldr (fun i s => akronUnstep (akronRot.getD i 0) data i s)
      (is.foldl (fun s i => akronStep (akronRot.getD i 0) data i s) s) = s := by
  induction is generalizing s with
  | nil => exact ⟨hs, rfl⟩
  | cons i rest ih =>
    have hi := his i (List.mem_cons_self _ _)
    have hv := Lanes64_akronStep (akronRot.getD i 0) data i s hi hs
    obtain ⟨h1, h2⟩ := ih (fun j hj => his j (List.mem_cons_of_mem _ hj)) _ hv
    refine ⟨h1, ?_⟩
    simp only [List.foldl_cons, List.foldr_cons]
    rw [h2]
    exact akronUnstep_akronStep _ data i s (akronRot_le i) hi hs

theorem akron_unfold (data : List Byte) (is : List Nat) (his : ∀ i ∈ is, i < 12) (t : Lanes)
    (ht : Lanes64 t) :
    Lanes64 (is.foldr (fun i s => akronUnstep (akronRot.getD i 0) data i s) t) ∧
    is.foldl (fun s i => akronStep (akronRot.getD i 0) data i s)
      (is.foldr (fun i s => akronUnstep (akronRot.getD i 0) data i s) t) = t := by
  induction is generalizing t with
  | nil => exact ⟨ht, rfl⟩
  | cons i rest ih =>
    have hi := his i (List.mem_cons_self _ _)
    obtain ⟨h1, h2⟩ := ih (fun j hj => his j (List.mem_cons_of_mem _ hj)) t ht
    refine ⟨Lanes64_akronUnstep _ data i _ hi h1, ?_⟩
    simp only [List.foldl_cons, List.foldr_cons]
    rw [akronStep_akronUnstep _ data i _ (akronRot_le i) hi h1]
    exact h2

set_option maxHeartbeats 2000000 in
theorem AkronMix_eq_steps (data : List Byte) (s : Lanes) :
    AkronMix data s
      = (List.range 12).foldl (fun s i => akronStep (akronRot.getD i 0) data i s) s := by
  obtain ⟨h0, h1, h2, h3, h4, h5, h6, h7, h8, h9, h10, h11⟩ := s
  rfl

theorem AkronMix_Lanes64 (data : List Byte) (s : Lanes) (hs : Lanes64 s) :
    Lanes64 (AkronMix data s) ∧ AkronUnmix data (AkronMix data s) = s := by
  rw [AkronMix_eq_steps]
  exact akron_fold data (List.range 12) (fun i hi => List.mem_range.1 hi) s hs

theorem AkronUnmix_Lanes64 (data : List Byte) (t : Lanes) (ht : Lanes64 t) :
    Lanes64 (AkronUnmix data t) ∧ AkronMix data (AkronUnmix data t) = t := by
  rw [AkronMix_eq_steps]
  exact akron_unfold data (List.range 12) (fun i hi => List.mem_range.1 hi) t ht

theorem rot64_43_21 (x : Nat) (hx : x < W64) : rot64 (rot64 x 43) 21 = x :=
  rot64_inv x 43 hx (by decide)

theorem rot64_21_43 (x : Nat) (hx : x < W64) : rot64 (rot64 x 21) 43 = x :=
  rot64_inv' x 43 hx (by decide)

theorem rot64_xor_lt (a b k : Nat) (ha : a < W64) (hb : b < W64) : rot64 (a ^^^ b) k < W64 :=
  rot64_lt _ _ (xor_W64_lt a b ha hb)

theorem jasperUnstep_jasperStep (data : List Byte) (i : Nat) (s : Lanes)
    (hi : i < 12) (hs : Lanes64 s) :
    jasperUnstep data i (jasperStep data i s) = s := by
  obtain ⟨h0, h1, h2, h3, h4, h5, h6, h7, h8, h9, h10, h11⟩ := s
  obtain ⟨v0, v1, v2, v3, v4, v5, v6, v7, v8, v9, v10, v11⟩ := hs
  simp only at v0 v1 v2 v3 v4 v5 v6 v7 v8 v9 v10 v11
  interval_cases i <;>
    simp only [jasperStep, jasperUnstep, JasperMix1, lane, setLane, Nat.reduceAdd,
      Nat.reduceSub, Nat.reduceMod, Lanes.mk.injEq, true_and, and_true] <;>
    simp only [sub_add_cancel_mod, rot64_43_21, mod_W64_lt, Nat.xor_cancel_right,
      v0, v1, v2, v3, v4, v5, v6, v7, v8, v9, v10, v11, and_self]

theorem jasperStep_jasperUnstep (data : List Byte) (i : Nat) (s : Lanes)
    (hi : i < 12) (hs : Lanes64 s) :
    jasperStep data i (jasperUnstep data i s) = s := by
  obtain ⟨h0, h1, h2, h3, h4, h5, h6, h7, h8, h9, h10, h11⟩ := s
  obtain ⟨v0, v1, v2, v3, v4, v5, v6, v7, v8, v9, v10, v11⟩ := hs
  simp only at v0 v1 v2 v3 v4 v5 v6 v7 v8 v9 v10 v11
  interval_cases i <;>
    simp only [jasperStep, jasperUnstep, JasperMix1, lane, setLane, Nat.reduceAdd,
      Nat.reduceSub, Nat.reduceMod, Lanes.mk.injEq, true_and, and_true] <;>
    simp only [add_sub_cancel_mod, rot64_21_43, rot64_xor_lt, mod_W64_lt, xor_W64_lt,
      Nat.xor_cancel_right, v0, v1, v2, v3, v4, v5, v6, v7, v8, v9, v10, v11, and_self,
      true_and, and_true]

theorem Lanes64_jasperStep (data : List Byte) (i : Nat) (s : Lanes)
    (hi : i < 12) (hs : Lanes64 s) : Lanes64 (jasperStep data i s) := by
  obtain ⟨h0, h1, h2, h3, h4, h5, h6, h7, h8, h9, h10, h11⟩ := s
  obtain ⟨v0, v1, v2, v3, v4, v5, v6, v7, v8, v9, v10, v11⟩ := hs
  simp only at v0 v1 v2 v3 v4 v5 v6 v7 v8 v9 v10 v11
  interval_cases i <;>
    simp only [jasperStep, JasperMix1, lane, setLane, Nat.reduceAdd, Nat.reduceSub,
      Nat.reduceMod, Lanes64] <;>
    simp only [rot64_lt, rot64_xor_lt, mod_W64_lt, xor_W64_lt, v0, v1, v2, v3, v4, v5, v6, v7,
      v8, v9, v10, v11, and_self]

theorem Lanes64_jasperUnstep (data : List Byte) (i : Nat) (s : Lanes)
    (hi : i < 12) (hs : Lanes64 s) : Lanes64 (jasperUnstep data i s) := by
  obtain ⟨h0, h1, h2, h3, h4, h5, h6, h7, h8, h9, h10, h11⟩ := s
  obtain ⟨v0, v1, v2, v3, v4, v5, v6, v7, v8, v9, v10, v11⟩ := hs
  simp only at v0 v1 v2 v3 v4 v5 v6 v7 v8 v9 v10 v11
  interval_cases i <;>
    simp only [jasperUnstep, lane, setLane, Nat.reduceAdd, Nat.reduceSub, Nat.reduceMod,
      Lanes64] <;>
    simp only [rot64_lt, rot64_xor_lt, mod_W64_lt, xor_W64_lt, v0, v1, v2, v3, v4, v5, v6, v7,
      v8, v9, v10, v11, and_self]

theorem jasper_fold (data : List Byte) (is : List Nat) (his : ∀ i ∈ is, i < 12) (s : Lanes)
    (hs : Lanes64 s) :
    Lanes64 (is.foldl (fun s i => jasperStep data i s) s) ∧
    is.foldr (fun i s => jasperUnstep data i s)
      (is.foldl (fun s i => jasperStep data i s) s) = s := by
  induction is generalizing s with
  | nil => exact ⟨hs, rfl⟩
  | cons i rest ih =>
    have hi := his i (List.mem_cons_self _ _)
    have hv := Lanes64_jasperStep data i s hi hs
    obtain ⟨h1, h2⟩ := ih (fun j hj => his j (List.mem_cons_of_mem _ hj)) _ hv
    refine ⟨h1, ?_⟩
    simp only [List.foldl_cons, List.foldr_cons]
    rw [h2]
    exact jasperUnstep_jasperStep data i s hi hs

theorem jasper_unfold (data : List Byte) (is : List Nat) (his : ∀ i ∈ is, i < 12) (t : Lanes)
    (ht : Lanes64 t) :
    Lanes64 (is.foldr (fun i s => jasperUnstep data i s) t) ∧
    is.foldl (fun s i => jasperStep data i s)
      (is.foldr (fun i s => jasperUnstep data i s) t) = t := by
  induction is generalizing t with
  | nil => exact ⟨ht, rfl⟩
  | cons i rest ih =>
    have hi := his i (List.mem_cons_self _ _)
    obtain ⟨h1, h2⟩ := ih (fun j hj => his j (List.mem_cons_of_mem _ hj)) t ht
    refine ⟨Lanes64_jasperUnstep data i _ hi h1, ?_⟩
    simp only [List.foldl_cons, List.foldr_cons]
    rw [jasperStep_jasperUnstep data i _ hi h1]
    exact h2

set_option maxHeartbeats 2000000 in
theorem JasperMix_eq_steps (data : List Byte) (s : Lanes) :
    JasperMix data s = (List.range 12).foldl (fun s i => jasperStep data i s) s := by
  obtain ⟨h0, h1, h2, h3, h4, h5, h6, h7, h8, h9, h10, h11⟩ := s
  rfl

theorem JasperMix_Lanes64 (data : List Byte) (s : Lanes) (hs : Lanes64 s) :
    Lanes64 (JasperMix data s) ∧ JasperUnmix data (JasperMix data s) = s := by
  rw [JasperMix_eq_steps]
  exact jasper_fold data (List.range 12) (fun i hi => List.mem_range.1 hi) s hs

theorem JasperUnmix_Lanes64 (data : List Byte) (t : Lanes) (ht : Lanes64 t) :
    Lanes64 (JasperUnmix data t) ∧ JasperMix data (JasperUnmix data t) = t := by
  rw [JasperMix_eq_steps]
  exact jasper_unfold data (List.range 12) (fun i hi => List.mem_range.1 hi) t ht

/-- C36 (the block mixers of the other two variants are reversible): for every block,
`AkronMix` and `JasperMix` each map twelve-lane 64-bit states to twelve-lane 64-bit states
and are undone by `AkronUnmix` and `JasperUnmix` with the same block, so each is a bijection
on the twelve-lane 64-bit states; the rotation constants (twelve for Akron, 43 for Jasper)
lie in `1 .. 63`. -/
theorem C36_Akron_Jasper_reversible (data : List Byte) (s : Lanes) (hs : Lanes64 s) :
    (Lanes64 (AkronMix data s) ∧ AkronUnmix data (AkronMix data s) = s ∧
      Lanes64 (AkronUnmix data s) ∧ AkronMix data (AkronUnmix data s) = s ∧
      Set.BijOn (AkronMix data) {x | Lanes64 x} {x | Lanes64 x}) ∧
    (Lanes64 (JasperMix data s) ∧ JasperUnmix data (JasperMix data s) = s ∧
      Lanes64 (JasperUnmix data s) ∧ JasperMix data (JasperUnmix data s) = s ∧
      Set.BijOn (JasperMix data) {x | Lanes64 x} {x | Lanes64 x}) ∧
    (∀ c ∈ akronRot, 1 ≤ c ∧ c ≤ 63) ∧ (1 ≤ 43 ∧ 43 ≤ 63) := by
  refine ⟨⟨(AkronMix_Lanes64 data s hs).1, (AkronMix_Lanes64 data s hs).2,
    (AkronUnmix_Lanes64 data s hs).1, (AkronUnmix_Lanes64 data s hs).2, ?_, ?_, ?_⟩,
    ⟨(JasperMix_Lanes64 data s hs).1, (JasperMix_Lanes64 data s hs).2,
    (JasperUnmix_Lanes64 data s hs).1, (JasperUnmix_Lanes64 data s hs).2, ?_, ?_, ?_⟩,
    by decide, by decide⟩
  · intro x hx
    exact (AkronMix_Lanes64 data x hx).1
  · intro x hx y hy hxy
    have h1 := (AkronMix_Lanes64 data x hx).2
    have h2 := (AkronMix_Lanes64 data y hy).2
    rw [← h1, ← h2, hxy]
  · intro t ht
    exact ⟨AkronUnmix data t, (AkronUnmix_Lanes64 data t ht).1,
      (AkronUnmix_Lanes64 data t ht).2⟩
  · intro x hx
    exact (JasperMix_Lanes64 data x hx).1
  · intro x hx y hy hxy
    have h1 := (JasperMix_Lanes64 data x hx).2
    have h2 := (JasperMix_Lanes64 data y hy).2
    rw [← h1, ← h2, hxy]
  · intro t ht
    exact ⟨JasperUnmix data t, (JasperUnmix_Lanes64 data t ht).1,
      (JasperUnmix_Lanes64 data t ht).2⟩

/-- Witness for C36: the seed-primed lanes for seeds `(1, 2)` and the block `1 2 3`. -/
theorem C36_Akron_Jasper_reversible_witness :
    Lanes64 (primeLanes 1 2) ∧
    AkronUnmix [1, 2, 3] (AkronMix [1, 2, 3] (primeLanes 1 2)) = primeLanes 1 2 ∧
    JasperUnmix [1, 2, 3] (JasperMix [1, 2, 3] (primeLanes 1 2)) = primeLanes 1 2 :=
  ⟨by decide, (C36_Akron_Jasper_reversible [1, 2, 3] (primeLanes 1 2) (by decide)).1.2.1,
   (C36_Akron_Jasper_reversible [1, 2, 3] (primeLanes 1 2) (by decide)).2.1.2.1⟩

theorem byteAt_lt (p : List Byte) (i : Nat) : byteAt p i < 256 := (p.getD i 0).isLt

theorem read64_lt (p : List Byte) (i : Nat) : read64 p i < W64 := by
  have h0 := byteAt_lt p (8 * i)
  have h1 := byteAt_lt p (8 * i + 1)
  have h2 := byteAt_lt p (8 * i + 2)
  have h3 := byteAt_lt p (8 * i + 3)
  have h4 := byteAt_lt p (8 * i + 4)
  have h5 := byteAt_lt p (8 * i + 5)
  have h6 := byteAt_lt p (8 * i + 6)
  have h7 := byteAt_lt p (8 * i + 7)
  simp only [read64, W64]
  omega

theorem read64_inj (p q : List Byte) (i j : Nat) (h : read64 p i = read64 q j) :
    ∀ k, k < 8 → byteAt p (8 * i + k) = byteAt q (8 * j + k) := by
  have h0 := byteAt_lt p (8 * i)
  have h1 := byteAt_lt p (8 * i + 1)
  have h2 := byteAt_lt p (8 * i + 2)
  have h3 := byteAt_lt p (8 * i + 3)
  have h4 := byteAt_lt p (8 * i + 4)
  have h5 := byteAt_lt p (8 * i + 5)
  have h6 := byteAt_lt p (8 * i + 6)
  have h7 := byteAt_lt p (8 * i + 7)
  have g0 := byteAt_lt q (8 * j)
  have g1 := byteAt_lt q (8 * j + 1)
  have g2 := byteAt_lt q (8 * j + 2)
  have g3 := byteAt_lt q (8 * j + 3)
  have g4 := byteAt_lt q (8 * j + 4)
  have g5 := byteAt_lt q (8 * j + 5)
  have g6 := byteAt_lt q (8 * j + 6)
  have g7 := byteAt_lt q (8 * j + 7)
  simp only [read64] at h
  intro k hk
  interval_cases k <;> first | omega | (simp only [Nat.add_zero]; omega)

theorem shortTail_eq (data : List Byte) (r : Nat) (h : Nat × Nat) :
    shortTail data r h =
      if 9 ≤ r ∧ r ≤ 15 then tailMixA (tailHigh data r) (read64 data 0) h
      else if r = 8 then tailMixB (read64 data 0) h
      else if r ≤ 7 then tailMixC (tailLow data r) h
      else h := rfl

theorem ShortHash_eq (M : List Byte) (len s1 s2 : Nat) :
    ShortHash M len s1 s2 =
      (rot64 (shortTail (M.drop (len / 16 * 2 * 8)) (len - len / 16 * 16)
          (shortLoop (len / 16) M (shortInit s1 s2))).1 32 * m2 % W64,
       rot64 (shortTail (M.drop (len / 16 * 2 * 8)) (len - len / 16 * 16)
          (shortLoop (len / 16) M (shortInit s1 s2))).2 32 * m1 % W64) := rfl

theorem mul_m1_inv (x : Nat) (hx : x < W64) :
    (x * m1 % W64) * 6658243864561148173 % W64 = x := by
  rw [Nat.mod_mul_mod, Nat.mul_assoc, Nat.mul_mod,
    (by decide : m1 * 6658243864561148173 % W64 = 1), Nat.mul_one, Nat.mod_mod,
    Nat.mod_eq_of_lt hx]

theorem mul_m2_inv (x : Nat) (hx : x < W64) :
    (x * m2 % W64) * 520402096961693303 % W64 = x := by
  rw [Nat.mod_mul_mod, Nat.mul_assoc, Nat.mul_mod,
    (by decide : m2 * 520402096961693303 % W64 = 1), Nat.mul_one, Nat.mod_mod,
    Nat.mod_eq_of_lt hx]

theorem mul_m1_inj (x y : Nat) (hx : x < W64) (hy : y < W64)
    (h : x * m1 % W64 = y * m1 % W64) : x = y := by
  rw [← mul_m1_inv x hx, ← mul_m1_inv y hy, h]

theorem mul_m2_inj (x y : Nat) (hx : x < W64) (hy : y < W64)
    (h : x * m2 % W64 = y * m2 % W64) : x = y := by
  rw [← mul_m2_inv x hx, ← mul_m2_inv y hy, h]

theorem rot64_inj (x y k : Nat) (hx : x < W64) (hy : y < W64) (hk : k ≤ 64)
    (h : rot64 x k = rot64 y k) : x = y := by
  rw [← rot64_inv x k hx hk, ← rot64_inv y k hy hk, h]

theorem add_left_inj_mod (a b c : Nat) (ha : a < W64) (hb : b < W64)
    (h : (a + c) % W64 = (b + c) % W64) : a = b := by
  simp only [W64] at *
  omega

theorem add_right_inj_mod (a b c : Nat) (ha : a < W64) (hb : b < W64)
    (h : (c + a) % W64 = (c + b) % W64) : a = b := by
  simp only [W64] at *
  omega

theorem mixPair_inj (a b a' b' : Nat) (hb : b < W64) (hb' : b' < W64)
    (h1 : a ^^^ b = a' ^^^ b')
    (h2 : (b + (a ^^^ b)) % W64 = (b' + (a' ^^^ b')) % W64) : a = a' ∧ b = b' := by
  rw [h1] at h2
  have hb2 : b = b' := add_left_inj_mod b b' _ hb hb' h2
  subst hb2
  refine ⟨?_, rfl⟩
  have := congrArg (fun t => t ^^^ b) h1
  simpa [Nat.xor_cancel_right] using this

/-- The map `d ↦ rot64(rot64(d * m1, 32) * m2, 32)` on 64-bit words is injective. -/
theorem word12_inj (d d' : Nat) (hd : d < W64) (hd' : d' < W64)
    (h : rot64 (rot64 (d * m1 % W64) 32 * m2 % W64) 32
      = rot64 (rot64 (d' * m1 % W64) 32 * m2 % W64) 32) : d = d' := by
  have h1 := rot64_inj _ _ 32 (mod_W64_lt _) (mod_W64_lt _) (by decide) h
  have h2 := mul_m2_inj _ _ (rot64_lt _ _ (mod_W64_lt _)) (rot64_lt _ _ (mod_W64_lt _)) h1
  have h3 := rot64_inj _ _ 32 (mod_W64_lt _) (mod_W64_lt _) (by decide) h2
  exact mul_m1_inj _ _ hd hd' h3

/-- The map `d ↦ rot64(rot64(d * m2, 32) * m1, 32)` on 64-bit words is injective. -/
theorem word21_inj (d d' : Nat) (hd : d < W64) (hd' : d' < W64)
    (h : rot64 (rot64 (d * m2 % W64) 32 * m1 % W64) 32
      = rot64 (rot64 (d' * m2 % W64) 32 * m1 % W64) 32) : d = d' := by
  have h1 := rot64_inj _ _ 32 (mod_W64_lt _) (mod_W64_lt _) (by decide) h
  have h2 := mul_m1_inj _ _ (rot64_lt _ _ (mod_W64_lt _)) (rot64_lt _ _ (mod_W64_lt _)) h1
  have h3 := rot64_inj _ _ 32 (mod_W64_lt _) (mod_W64_lt _) (by decide) h2
  exact mul_m2_inj _ _ hd hd' h3

/-- The update `h ↦ (rot64(h, 32) * a + w) * a` of one lane in the loop of `ShortHash`,
read from the equality of two results. -/
theorem lane1_sum (h h' w w' : Nat)
    (e : (rot64 h 32 * m1 % W64 + w) % W64 * m1 % W64
      = (rot64 h' 32 * m1 % W64 + w') % W64 * m1 % W64) :
    (rot64 h 32 * m1 % W64 + w) % W64 = (rot64 h' 32 * m1 % W64 + w') % W64 :=
  mul_m1_inj _ _ (mod_W64_lt _) (mod_W64_lt _) e

theorem lane2_sum (h h' w w' : Nat)
    (e : (rot64 h 32 * m2 % W64 + w) % W64 * m2 % W64
      = (rot64 h' 32 * m2 % W64 + w') % W64 * m2 % W64) :
    (rot64 h 32 * m2 % W64 + w) % W64 = (rot64 h' 32 * m2 % W64 + w') % W64 :=
  mul_m2_inj _ _ (mod_W64_lt _) (mod_W64_lt _) e

theorem shortRound_sums (X Y : List Byte) (h h' : Nat × Nat)
    (e : shortRound X h = shortRound Y h') :
    (rot64 h.1 32 * m1 % W64 + rot64 (rot64 (read64 X 0 * m1 % W64) 32 * m2 % W64) 32) % W64
      = (rot64 h'.1 32 * m1 % W64 + rot64 (rot64 (read64 Y 0 * m1 % W64) 32 * m2 % W64) 32)
          % W64 ∧
    (rot64 h.2 32 * m2 % W64 + rot64 (rot64 (read64 X 1 * m2 % W64) 32 * m1 % W64) 32) % W64
      = (rot64 h'.2 32 * m2 % W64 + rot64 (rot64 (read64 Y 1 * m2 % W64) 32 * m1 % W64) 32)
          % W64 := by
  unfold shortRound at e
  simp only [Prod.mk.injEq] at e
  obtain ⟨e1, e2⟩ := e
  obtain ⟨a, b⟩ := mixPair_inj _ _ _ _ (mod_W64_lt _) (mod_W64_lt _) e1 e2
  exact ⟨lane1_sum _ _ _ _ a, lane2_sum _ _ _ _ b⟩

theorem shortRound_inj_state (X : List Byte) (h h' : Nat × Nat)
    (hh : h.1 < W64 ∧ h.2 < W64) (hh' : h'.1 < W64 ∧ h'.2 < W64)
    (e : shortRound X h = shortRound X h') : h = h' := by
  obtain ⟨e1, e2⟩ := shortRound_sums X X h h' e
  have a1 := add_left_inj_mod _ _ _ (mod_W64_lt _) (mod_W64_lt _) e1
  have a2 := add_left_inj_mod _ _ _ (mod_W64_lt _) (mod_W64_lt _) e2
  have b1 := rot64_inj _ _ 32 hh.1 hh'.1 (by decide)
    (mul_m1_inj _ _ (rot64_lt _ _ hh.1) (rot64_lt _ _ hh'.1) a1)
  have b2 := rot64_inj _ _ 32 hh.2 hh'.2 (by decide)
    (mul_m2_inj _ _ (rot64_lt _ _ hh.2) (rot64_lt _ _ hh'.2) a2)
  exact Prod.ext b1 b2

theorem shortRound_inj_data (X Y : List Byte) (h : Nat × Nat)
    (e : shortRound X h = shortRound Y h) :
    read64 X 0 = read64 Y 0 ∧ read64 X 1 = read64 Y 1 := by
  obtain ⟨e1, e2⟩ := shortRound_sums X Y h h e
  have a1 := add_right_inj_mod _ _ _ (rot64_lt _ _ (mod_W64_lt _)) (rot64_lt _ _ (mod_W64_lt _)) e1
  have a2 := add_right_inj_mod _ _ _ (rot64_lt _ _ (mod_W64_lt _)) (rot64_lt _ _ (mod_W64_lt _)) e2
  exact ⟨word12_inj _ _ (read64_lt X 0) (read64_lt Y 0) a1,
    word21_inj _ _ (read64_lt X 1) (read64_lt Y 1) a2⟩

theorem step_lt (c : Prop) [Decidable c] (t x : Nat) (ht : t < W64) :
    (if c then (t + x) % W64 else t) < W64 := by
  split_ifs
  · exact mod_W64_lt _
  · exact ht

theorem tailLow_lt (data : List Byte) (r : Nat) : tailLow data r < W64 := by
  unfold tailLow
  exact step_lt _ _ _ (step_lt _ _ _ (step_lt _ _ _ (step_lt _ _ _ (step_lt _ _ _
    (step_lt _ _ _ (step_lt _ _ _ (mod_W64_lt _)))))))

theorem tailHigh_lt (data : List Byte) (r : Nat) : tailHigh data r < W64 := by
  unfold tailHigh
  exact mod_W64_lt _

set_option maxHeartbeats 4000000 in
/-- For a remainder of at most 7 the word `temp` holds the remainder in its top byte and
tail byte `j < remainder` in byte `j`; no addition wraps around. -/
theorem tailLow_closed (data : List Byte) (r : Nat) (hr : r ≤ 7) :
    tailLow data r = r * 2 ^ 56
      + (if 7 ≤ r then byteAt data 6 * 2 ^ 48 else 0)
      + (if 6 ≤ r then byteAt data 5 * 2 ^ 40 else 0)
      + (if 5 ≤ r then byteAt data 4 * 2 ^ 32 else 0)
      + (if 4 ≤ r then byteAt data 3 * 2 ^ 24 else 0)
      + (if 3 ≤ r then byteAt data 2 * 2 ^ 16 else 0)
      + (if 2 ≤ r then byteAt data 1 * 2 ^ 8 else 0)
      + (if 1 ≤ r then byteAt data 0 else 0) := by
  have x0 := byteAt_lt data 0
  have x1 := byteAt_lt data 1
  have x2 := byteAt_lt data 2
  have x3 := byteAt_lt data 3
  have x4 := byteAt_lt data 4
  have x5 := byteAt_lt data 5
  have x6 := byteAt_lt data 6
  interval_cases r <;>
    simp only [tailLow, Nat.shiftLeft_eq, Nat.reduceLeDiff, if_true, if_false, W64] <;>
    (try simp (disch := omega) only [Nat.mod_eq_of_lt]) <;>
    (try omega)

set_option maxHeartbeats 4000000 in
/-- For a remainder from 9 to 15 the word `temp` holds the remainder in its top byte and
tail byte `8 + j` in byte `j`; no addition wraps around. -/
theorem tailHigh_closed (data : List Byte) (r : Nat) (h9 : 9 ≤ r) (hr : r ≤ 15) :
    tailHigh data r = r * 2 ^ 56
      + (if 15 ≤ r then byteAt data 14 * 2 ^ 48 else 0)
      + (if 14 ≤ r then byteAt data 13 * 2 ^ 40 else 0)
      + (if 13 ≤ r then byteAt data 12 * 2 ^ 32 else 0)
      + (if 12 ≤ r then byteAt data 11 * 2 ^ 24 else 0)
      + (if 11 ≤ r then byteAt data 10 * 2 ^ 16 else 0)
      + (if 10 ≤ r then byteAt data 9 * 2 ^ 8 else 0)
      + byteAt data 8 := by
  have x8 := byteAt_lt data 8
  have x9 := byteAt_lt data 9
  have x10 := byteAt_lt data 10
  have x11 := byteAt_lt data 11
  have x12 := byteAt_lt data 12
  have x13 := byteAt_lt data 13
  have x14 := byteAt_lt data 14
  interval_cases r <;>
    simp only [tailHigh, Nat.shiftLeft_eq, Nat.reduceLeDiff, if_true, if_false, W64] <;>
    (try simp (disch := omega) only [Nat.mod_eq_of_lt]) <;>
    (try omega)

set_option maxHeartbeats 4000000 in
theorem tailLow_inj (X Y : List Byte) (r : Nat) (hr : r ≤ 7)
    (e : tailLow X r = tailLow Y r) : ∀ j, j < r → byteAt X j = byteAt Y j := by
  have x0 := byteAt_lt X 0
  have x1 := byteAt_lt X 1
  have x2 := byteAt_lt X 2
  have x3 := byteAt_lt X 3
  have x4 := byteAt_lt X 4
  have x5 := byteAt_lt X 5
  have x6 := byteAt_lt X 6
  have y0 := byteAt_lt Y 0
  have y1 := byteAt_lt Y 1
  have y2 := byteAt_lt Y 2
  have y3 := byteAt_lt Y 3
  have y4 := byteAt_lt Y 4
  have y5 := byteAt_lt Y 5
  have y6 := byteAt_lt Y 6
  rw [tailLow_closed X r hr, tailLow_closed Y r hr] at e
  intro j hj
  interval_cases r <;>
    simp only [Nat.reduceLeDiff, if_true, if_false] at e <;>
    interval_cases j <;> omega

set_option maxHeartbeats 4000000 in
theorem tailHigh_inj (X Y : List Byte) (r : Nat) (h9 : 9 ≤ r) (hr : r ≤ 15)
    (e : tailHigh X r = tailHigh Y r) : ∀ j, 8 ≤ j → j < r → byteAt X j = byteAt Y j := by
  have x8 := byteAt_lt X 8
  have x9 := byteAt_lt X 9
  have x10 := byteAt_lt X 10
  have x11 := byteAt_lt X 11
  have x12 := byteAt_lt X 12
  have x13 := byteAt_lt X 13
  have x14 := byteAt_lt X 14
  have y8 := byteAt_lt Y 8
  have y9 := byteAt_lt Y 9
  have y10 := byteAt_lt Y 10
  have y11 := byteAt_lt Y 11
  have y12 := byteAt_lt Y 12
  have y13 := byteAt_lt Y 13
  have y14 := byteAt_lt Y 14
  rw [tailHigh_closed X r h9 hr, tailHigh_closed Y r h9 hr] at e
  intro j hj8 hj
  interval_cases r <;>
    simp only [Nat.reduceLeDiff, if_true, if_false] at e <;>
    interval_cases j <;> omega

theorem tailMixA_lt (t d : Nat) (h : Nat × Nat) :
    (tailMixA t d h).1 < W64 ∧ (tailMixA t d h).2 < W64 := by
  unfold tailMixA
  exact ⟨xor_W64_lt _ _ (mod_W64_lt _) (mod_W64_lt _), mod_W64_lt _⟩

theorem tailMixB_lt (d : Nat) (h : Nat × Nat) (hh : h.2 < W64) :
    (tailMixB d h).1 < W64 ∧ (tailMixB d h).2 < W64 := by
  unfold tailMixB
  exact ⟨xor_W64_lt _ _ (mod_W64_lt _) hh, mod_W64_lt _⟩

theorem tailMixC_lt (t : Nat) (h : Nat × Nat) :
    (tailMixC t h).1 < W64 ∧ (tailMixC t h).2 < W64 := by
  unfold tailMixC
  exact ⟨xor_W64_lt _ _ (mod_W64_lt _) (mod_W64_lt _), mod_W64_lt _⟩

theorem shortTail_lt (data : List Byte) (r : Nat) (h : Nat × Nat)
    (hh : h.1 < W64 ∧ h.2 < W64) :
    (shortTail data r h).1 < W64 ∧ (shortTail data r h).2 < W64 := by
  rw [shortTail_eq]
  split_ifs
  · exact tailMixA_lt _ _ _
  · exact tailMixB_lt _ _ hh.2
  · exact tailMixC_lt _ _
  · exact hh

theorem tailMixA_sums (t d t' d' : Nat) (h h' : Nat × Nat)
    (e : tailMixA t d h = tailMixA t' d' h') :
    (h.1 + rot64 (rot64 (d * m1 % W64) 32 * m2 % W64) 32) % W64
      = (h'.1 + rot64 (rot64 (d' * m1 % W64) 32 * m2 % W64) 32) % W64 ∧
    (h.2 + rot64 (rot64 (t * m2 % W64) 32 * m1 % W64) 32) % W64
      = (h'.2 + rot64 (rot64 (t' * m2 % W64) 32 * m1 % W64) 32) % W64 := by
  unfold tailMixA at e
  simp only [Prod.mk.injEq] at e
  obtain ⟨e1, e2⟩ := e
  obtain ⟨a, b⟩ := mixPair_inj _ _ _ _ (mod_W64_lt _) (mod_W64_lt _) e1 e2
  exact ⟨mul_m1_inj _ _ (mod_W64_lt _) (mod_W64_lt _) a,
    mul_m2_inj _ _ (mod_W64_lt _) (mod_W64_lt _) b⟩

theorem tailMixB_sums (d d' : Nat) (h h' : Nat × Nat) (hh : h.2 < W64) (hh' : h'.2 < W64)
    (e : tailMixB d h = tailMixB d' h') :
    (h.1 + rot64 (rot64 (d * m1 % W64) 32 * m2 % W64) 32) % W64
      = (h'.1 + rot64 (rot64 (d' * m1 % W64) 32 * m2 % W64) 32) % W64 ∧ h.2 = h'.2 := by
  unfold tailMixB at e
  simp only [Prod.mk.injEq] at e
  obtain ⟨e1, e2⟩ := e
  obtain ⟨a, b⟩ := mixPair_inj _ _ _ _ hh hh' e1 e2
  exact ⟨mul_m1_inj _ _ (mod_W64_lt _) (mod_W64_lt _) a, b⟩

theorem tailMixC_sums (t t' : Nat) (h h' : Nat × Nat)
    (e : tailMixC t h = tailMixC t' h') :
    (h.1 + rot64 (rot64 (t * m1 % W64) 32 * m2 % W64) 32) % W64
      = (h'.1 + rot64 (rot64 (t' * m1 % W64) 32 * m2 % W64) 32) % W64 ∧
    (h.2 + rot64 (t * m1 % W64) 32 * m2 % W64) % W64
      = (h'.2 + rot64 (t' * m1 % W64) 32 * m2 % W64) % W64 := by
  unfold tailMixC at e
  simp only [Prod.mk.injEq] at e
  obtain ⟨e1, e2⟩ := e
  obtain ⟨a, b⟩ := mixPair_inj _ _ _ _ (mod_W64_lt _) (mod_W64_lt _) e1 e2
  exact ⟨mul_m1_inj _ _ (mod_W64_lt _) (mod_W64_lt _) a, b⟩

theorem shortTail_inj_state (X : List Byte) (r : Nat) (h h' : Nat × Nat)
    (hh : h.1 < W64 ∧ h.2 < W64) (hh' : h'.1 < W64 ∧ h'.2 < W64)
    (e : shortTail X r h = shortTail X r h') : h = h' := by
  rw [shortTail_eq, shortTail_eq] at e
  split_ifs at e
  · obtain ⟨a, b⟩ := tailMixA_sums _ _ _ _ h h' e
    exact Prod.ext (add_left_inj_mod _ _ _ hh.1 hh'.1 a) (add_left_inj_mod _ _ _ hh.2 hh'.2 b)
  · obtain ⟨a, b⟩ := tailMixB_sums _ _ h h' hh.2 hh'.2 e
    exact Prod.ext (add_left_inj_mod _ _ _ hh.1 hh'.1 a) b
  · obtain ⟨a, b⟩ := tailMixC_sums _ _ h h' e
    exact Prod.ext (add_left_inj_mod _ _ _ hh.1 hh'.1 a) (add_left_inj_mod _ _ _ hh.2 hh'.2 b)
  · exact e

theorem shortTail_inj_data (X Y : List Byte) (r : Nat) (hr : r ≤ 15) (h : Nat × Nat)
    (hh : h.1 < W64 ∧ h.2 < W64)
    (e : shortTail X r h = shortTail Y r h) : ∀ j, j < r → byteAt X j = byteAt Y j := by
  rw [shortTail_eq, shortTail_eq] at e
  intro j hj
  by_cases hA : 9 ≤ r ∧ r ≤ 15
  · rw [if_pos hA, if_pos hA] at e
    obtain ⟨a, b⟩ := tailMixA_sums _ _ _ _ h h e
    have hd := word12_inj _ _ (read64_lt X 0) (read64_lt Y 0)
      (add_right_inj_mod _ _ _ (rot64_lt _ _ (mod_W64_lt _)) (rot64_lt _ _ (mod_W64_lt _)) a)
    have ht := word21_inj _ _ (tailHigh_lt X r) (tailHigh_lt Y r)
      (add_right_inj_mod _ _ _ (rot64_lt _ _ (mod_W64_lt _)) (rot64_lt _ _ (mod_W64_lt _)) b)
    by_cases hj8 : j < 8
    · have := read64_inj X Y 0 0 hd j hj8
      simpa using this
    · exact tailHigh_inj X Y r hA.1 hA.2 ht j (by omega) hj
  · rw [if_neg hA, if_neg hA] at e
    by_cases hB : r = 8
    · rw [if_pos hB, if_pos hB] at e
      obtain ⟨a, _⟩ := tailMixB_sums _ _ h h hh.2 hh.2 e
      have hd := word12_inj _ _ (read64_lt X 0) (read64_lt Y 0)
        (add_right_inj_mod _ _ _ (rot64_lt _ _ (mod_W64_lt _)) (rot64_lt _ _ (mod_W64_lt _)) a)
      have := read64_inj X Y 0 0 hd j (by omega)
      simpa using this
    · rw [if_neg hB, if_neg hB] at e
      have hC : r ≤ 7 := by omega
      rw [if_pos hC, if_pos hC] at e
      obtain ⟨_, b⟩ := tailMixC_sums _ _ h h e
      have h1 := add_right_inj_mod _ _ _ (mod_W64_lt _) (mod_W64_lt _) b
      have h2 := mul_m2_inj _ _ (rot64_lt _ _ (mod_W64_lt _)) (rot64_lt _ _ (mod_W64_lt _)) h1
      have h3 := rot64_inj _ _ 32 (mod_W64_lt _) (mod_W64_lt _) (by decide) h2
      have h4 := mul_m1_inj _ _ (tailLow_lt X r) (tailLow_lt Y r) h3
      exact tailLow_inj X Y r hC h4 j hj

theorem shortLoop_inj_state (n : Nat) (X : List Byte) (h h' : Nat × Nat)
    (hh : h.1 < W64 ∧ h.2 < W64) (hh' : h'.1 < W64 ∧ h'.2 < W64)
    (e : shortLoop n X h = shortLoop n X h') : h = h' := by
  induction n generalizing X h h' with
  | zero => exact e
  | succ k ih =>
    simp only [shortLoop] at e
    exact shortRound_inj_state X h h' hh hh'
      (ih _ _ _ (shortRound_lt X h) (shortRound_lt X h') e)

theorem read64_eq_of_bytes (X Y : List Byte) (i : Nat)
    (hb : ∀ k, k < 8 → byteAt X (8 * i + k) = byteAt Y (8 * i + k)) :
    read64 X i = read64 Y i := by
  have h0 := hb 0 (by decide)
  rw [Nat.add_zero] at h0
  unfold read64
  rw [h0, hb 1 (by decide), hb 2 (by decide), hb 3 (by decide), hb 4 (by decide),
    hb 5 (by decide), hb 6 (by decide), hb 7 (by decide)]

theorem shortRound_eq_of_bytes (X Y : List Byte) (h : Nat × Nat)
    (hb : ∀ j, j < 16 → byteAt X j = byteAt Y j) : shortRound X h = shortRound Y h := by
  unfold shortRound
  rw [read64_eq_of_bytes X Y 0 (fun k hk => hb _ (by omega)),
    read64_eq_of_bytes X Y 1 (fun k hk => hb _ (by omega))]

theorem shortLoop_eq_of_bytes (n : Nat) (X Y : List Byte) (h : Nat × Nat)
    (hb : ∀ j, j < 16 * n → byteAt X j = byteAt Y j) : shortLoop n X h = shortLoop n Y h := by
  induction n generalizing X Y h with
  | zero => rfl
  | succ k ih =>
    simp only [shortLoop]
    rw [shortRound_eq_of_bytes X Y h (fun j hj => hb j (by omega))]
    apply ih
    intro j hj
    rw [byteAt_drop, byteAt_drop]
    exact hb _ (by omega)

/-- Two runs of the `ShortHash` loop from the same state, over data that agree outside
chunk `c`, end in the same state only if the data agree on the whole of the `n` chunks. -/
theorem shortLoop_inj_chunk (n : Nat) :
    ∀ (c : Nat) (X Y : List Byte) (h : Nat × Nat), h.1 < W64 ∧ h.2 < W64 →
      (∀ i, i < 16 * n → i / 16 ≠ c → byteAt X i = byteAt Y i) →
      shortLoop n X h = shortLoop n Y h → ∀ i, i < 16 * n → byteAt X i = byteAt Y i := by
  induction n with
  | zero =>
    intro c X Y h _ _ _ i hi
    omega
  | succ k ih =>
    intro c X Y h hh hc e i hi
    simp only [shortLoop] at e
    by_cases hc0 : c = 0
    · have hrest : ∀ j, j < 16 * k → byteAt (X.drop 16) j = byteAt (Y.drop 16) j := by
        intro j hj
        rw [byteAt_drop, byteAt_drop]
        exact hc _ (by omega) (by omega)
      rw [shortLoop_eq_of_bytes k (Y.drop 16) (X.drop 16) _ (fun j hj => (hrest j hj).symm)] at e
      have e2 := shortLoop_inj_state k _ _ _ (shortRound_lt X h) (shortRound_lt Y h) e
      obtain ⟨d0, d1⟩ := shortRound_inj_data X Y h e2
      by_cases hi16 : i < 16
      · by_cases hi8 : i < 8
        · have := read64_inj X Y 0 0 d0 i hi8
          simpa using this
        · have := read64_inj X Y 1 1 d1 (i - 8) (by omega)
          have e8 : 8 * 1 + (i - 8) = i := by omega
          rwa [e8] at this
      · exact hc i hi (by omega)
    · have hfirst : ∀ j, j < 16 → byteAt X j = byteAt Y j := by
        intro j hj
        exact hc j (by omega) (by omega)
      rw [shortRound_eq_of_bytes X Y h hfirst] at e
      by_cases hi16 : i < 16
      · exact hfirst i hi16
      · have := ih (c - 1) (X.drop 16) (Y.drop 16) _ (shortRound_lt Y h)
          (fun j hj hjc => by
            rw [byteAt_drop, byteAt_drop]
            exact hc _ (by omega) (by omega)) e (i - 16) (by omega)
        rw [byteAt_drop, byteAt_drop] at this
        have e16 : 16 + (i - 16) = i := by omega
        rwa [e16] at this

theorem shortInit_lt (s1 s2 : Nat) : (shortInit s1 s2).1 < W64 ∧ (shortInit s1 s2).2 < W64 := by
  unfold shortInit
  exact ⟨xor_W64_lt _ _ (mod_W64_lt _) (mod_W64_lt _), mod_W64_lt _⟩

theorem shortInit_inj (s1 s2 t1 t2 : Nat) (h1 : s1 < W64) (h2 : s2 < W64) (g1 : t1 < W64)
    (g2 : t2 < W64) (e : shortInit s1 s2 = shortInit t1 t2) : s1 = t1 ∧ s2 = t2 := by
  unfold shortInit at e
  simp only [Prod.mk.injEq] at e
  obtain ⟨e1, e2⟩ := e
  obtain ⟨a, b⟩ := mixPair_inj _ _ _ _ (mod_W64_lt _) (mod_W64_lt _) e1 e2
  have a1 := mul_m2_inj _ _ (rot64_lt _ _ (mod_W64_lt _)) (rot64_lt _ _ (mod_W64_lt _)) a
  have a2 := rot64_inj _ _ 32 (mod_W64_lt _) (mod_W64_lt _) (by decide) a1
  have b1 := mul_m1_inj _ _ (rot64_lt _ _ (mod_W64_lt _)) (rot64_lt _ _ (mod_W64_lt _)) b
  have b2 := rot64_inj _ _ 32 (mod_W64_lt _) (mod_W64_lt _) (by decide) b1
  exact ⟨mul_m1_inj _ _ h1 g1 a2, mul_m2_inj _ _ h2 g2 b2⟩

/-- The last two lines of `ShortHash`, `*hash1 = rot64(h0, 32) * m2` and
`*hash2 = rot64(h1, 32) * m1`, are injective on pairs of 64-bit words. -/
theorem shortFinal_inj (h h' : Nat × Nat) (hh : h.1 < W64 ∧ h.2 < W64)
    (hh' : h'.1 < W64 ∧ h'.2 < W64)
    (e : (rot64 h.1 32 * m2 % W64, rot64 h.2 32 * m1 % W64)
      = (rot64 h'.1 32 * m2 % W64, rot64 h'.2 32 * m1 % W64)) : h = h' := by
  simp only [Prod.mk.injEq] at e
  obtain ⟨e1, e2⟩ := e
  have a := rot64_inj _ _ 32 hh.1 hh'.1 (by decide)
    (mul_m2_inj _ _ (rot64_lt _ _ hh.1) (rot64_lt _ _ hh'.1) e1)
  have b := rot64_inj _ _ 32 hh.2 hh'.2 (by decide)
    (mul_m1_inj _ _ (rot64_lt _ _ hh.2) (rot64_lt _ _ hh'.2) e2)
  exact Prod.ext a b

theorem list_eq_of_bytes (X Y : List Byte) (hl : X.length = Y.length)
    (hb : ∀ i, i < X.length → byteAt X i = byteAt Y i) : X = Y := by
  apply List.ext_getElem hl
  intro i h1 h2
  have := hb i h1
  unfold byteAt at this
  rw [List.getD_eq_getElem?_getD, List.getD_eq_getElem?_getD, List.getElem?_eq_getElem h1,
    List.getElem?_eq_getElem h2] at this
  exact Fin.ext this

/-- Two messages that agree outside the 16-byte chunk `c` and have the same `ShortHash`
digest agree on all of their first `len` bytes. -/
theorem ShortHash_inj_chunk (M1 M2 : List Byte) (len s1 s2 c : Nat)
    (hc : ∀ i, i < len → i / 16 ≠ c → byteAt M1 i = byteAt M2 i)
    (e : ShortHash M1 len s1 s2 = ShortHash M2 len s1 s2) :
    ∀ i, i < len → byteAt M1 i = byteAt M2 i := by
  rw [ShortHash_eq, ShortHash_eq] at e
  have hr : len - len / 16 * 16 ≤ 15 := by omega
  have hL1 := shortLoop_lt (len / 16) M1 _ (shortInit_lt s1 s2)
  have hL2 := shortLoop_lt (len / 16) M2 _ (shortInit_lt s1 s2)
  have T := shortFinal_inj _ _ (shortTail_lt _ _ _ hL1) (shortTail_lt _ _ _ hL2) e
  intro i hi
  by_cases hcn : c < len / 16
  · have htail : ∀ j, j < len - len / 16 * 16 →
        byteAt (M2.drop (len / 16 * 2 * 8)) j = byteAt (M1.drop (len / 16 * 2 * 8)) j := by
      intro j hj
      rw [byteAt_drop, byteAt_drop]
      exact (hc _ (by omega) (by omega)).symm
    rw [shortTail_eq_of_bytes _ _ _ _ hr htail] at T
    have hL := shortTail_inj_state _ _ _ _ hL1 hL2 T
    by_cases hi16 : i < 16 * (len / 16)
    · exact shortLoop_inj_chunk (len / 16) c M1 M2 _ (shortInit_lt s1 s2)
        (fun k hk hkc => hc k (by omega) hkc) hL i hi16
    · exact hc i hi (by omega)
  · have hloop : ∀ j, j < 16 * (len / 16) → byteAt M2 j = byteAt M1 j := by
      intro j hj
      exact (hc j (by omega) (by omega)).symm
    rw [shortLoop_eq_of_bytes _ M2 M1 _ hloop] at T
    by_cases hi16 : i < 16 * (len / 16)
    · exact (hloop i hi16).symm
    · have := shortTail_inj_data _ _ _ hr _ hL1 T (i - len / 16 * 2 * 8) (by omega)
      rw [byteAt_drop, byteAt_drop] at this
      have ei : len / 16 * 2 * 8 + (i - len / 16 * 2 * 8) = i := by omega
      rwa [ei] at this

theorem byteAt_set_ne (X : List Byte) (i j : Nat) (b : Byte) (h : j ≠ i) :
    byteAt (X.set i b) j = byteAt X j := by
  unfold byteAt
  rw [List.getD_eq_getElem?_getD, List.getD_eq_getElem?_getD, List.getElem?_set_ne (Ne.symm h)]

/-- C33 (`ShortHash` never collides inside one chunk): two distinct messages of the same
length `len` that agree outside the 16-byte-aligned chunk `c`, the final partial chunk
included, have different `ShortHash` digests under every seed pair.  In particular
`ShortHash` is injective on the messages of any fixed length of at most 16 bytes, and
changing one byte of a message, hence also one bit, changes the digest. -/
theorem C33_ShortHash_chunk_injective (M1 M2 : List Byte) (len s1 s2 c : Nat)
    (h1 : M1.length = len) (h2 : M2.length = len) (hne : M1 ≠ M2)
    (hc : ∀ i, i < len → i / 16 ≠ c → byteAt M1 i = byteAt M2 i) :
    ShortHash M1 len s1 s2 ≠ ShortHash M2 len s1 s2 ∧
    (len ≤ 16 → ∀ N1 N2 : List Byte, N1.length = len → N2.length = len → N1 ≠ N2 →
      ∀ t1 t2, ShortHash N1 len t1 t2 ≠ ShortHash N2 len t1 t2) ∧
    (∀ (i : Nat) (b : Byte), i < len → b ≠ M1.getD i 0 →
      ShortHash (M1.set i b) len s1 s2 ≠ ShortHash M1 len s1 s2) := by
  refine ⟨?_, ?_, ?_⟩
  · intro e
    apply hne
    apply list_eq_of_bytes M1 M2 (by rw [h1, h2])
    intro i hi
    exact ShortHash_inj_chunk M1 M2 len s1 s2 c hc e i (by omega)
  · intro h16 N1 N2 g1 g2 gne t1 t2 e
    apply gne
    apply list_eq_of_bytes N1 N2 (by rw [g1, g2])
    intro i hi
    exact ShortHash_inj_chunk N1 N2 len t1 t2 0 (fun k hk hk0 => absurd (by omega) hk0) e i
      (by omega)
  · intro i b hi hb e
    have hset : M1.set i b = M1 := by
      apply list_eq_of_bytes _ _ (by rw [List.length_set])
      intro k hk
      rw [List.length_set] at hk
      exact ShortHash_inj_chunk (M1.set i b) M1 len s1 s2 (i / 16)
        (fun j hj hjc => byteAt_set_ne M1 i j b (fun hji => hjc (by rw [hji]))) e k (by omega)
    apply hb
    have hget := congrArg (fun L => L.getD i 0) hset
    simp only [List.getD_eq_getElem?_getD] at hget
    rw [List.getElem?_set_self (by omega)] at hget
    simpa [List.getD_eq_getElem?_getD] using hget

/-- Witness for C33: the one-byte messages `01` and `02`. -/
theorem C33_ShortHash_chunk_injective_witness :
    (([1] : List Byte).length = 1 ∧ ([2] : List Byte).length = 1 ∧
      ([1] : List Byte) ≠ [2]) ∧
    ShortHash [1] 1 1 2 ≠ ShortHash [2] 1 1 2 :=
  ⟨⟨by decide, by decide, by decide⟩,
   (C33_ShortHash_chunk_injective [1] [2] 1 1 2 0 (by decide) (by decide) (by decide)
     (fun i hi hne => absurd (by omega) hne)).1⟩

theorem Word2_finite : Word2.Finite := by
  have : Word2 = (Set.Iio W64) ×ˢ (Set.Iio W64) := by
    ext p
    simp only [Word2, Set.mem_setOf_eq, Set.mem_prod, Set.mem_Iio]
  rw [this]
  exact (Set.finite_Iio _).prod (Set.finite_Iio _)

/-- C35 (`ShortHash` is a permutation of the seed space): for every message and length,
the map from the seed pair to the digest pair is a bijection on the pairs of 64-bit
words, so two different seed pairs never give the same digest for the same message;
both multipliers are odd. -/
theorem C35_ShortHash_seed_permutation (M : List Byte) (len : Nat) :
    Set.BijOn (fun p : Nat × Nat => ShortHash M len p.1 p.2) Word2 Word2 ∧
    Set.InjOn (fun p : Nat × Nat => ShortHash M len p.1 p.2) Word2 ∧
    m1 % 2 = 1 ∧ m2 % 2 = 1 := by
  have hmaps : Set.MapsTo (fun p : Nat × Nat => ShortHash M len p.1 p.2) Word2 Word2 := by
    intro p _
    show (ShortHash M len p.1 p.2).1 < W64 ∧ (ShortHash M len p.1 p.2).2 < W64
    rw [ShortHash_eq]
    exact ⟨mod_W64_lt _, mod_W64_lt _⟩
  have hinj : Set.InjOn (fun p : Nat × Nat => ShortHash M len p.1 p.2) Word2 := by
    intro p hp q hq e
    simp only [ShortHash_eq] at e
    have hL1 := shortLoop_lt (len / 16) M _ (shortInit_lt p.1 p.2)
    have hL2 := shortLoop_lt (len / 16) M _ (shortInit_lt q.1 q.2)
    have T := shortFinal_inj _ _ (shortTail_lt _ _ _ hL1) (shortTail_lt _ _ _ hL2) e
    have L := shortTail_inj_state _ _ _ _ hL1 hL2 T
    have I := shortLoop_inj_state _ _ _ _ (shortInit_lt p.1 p.2) (shortInit_lt q.1 q.2) L
    obtain ⟨a, b⟩ := shortInit_inj _ _ _ _ hp.1 hp.2 hq.1 hq.2 I
    exact Prod.ext a b
  exact ⟨(Word2_finite.injOn_iff_bijOn_of_mapsTo hmaps).1 hinj, hinj, by decide, by decide⟩

theorem ShortHash_eq_tail (M : List Byte) (len s1 s2 : Nat) :
    ShortHash M len s1 s2 =
      (rot64 (shortTail (M.drop (16 * (len / 16))) (len % 16)
          (shortLoop (len / 16) M (shortInit s1 s2))).1 32 * m2 % W64,
       rot64 (shortTail (M.drop (16 * (len / 16))) (len % 16)
          (shortLoop (len / 16) M (shortInit s1 s2))).2 32 * m1 % W64) := by
  have h1 : len / 16 * 2 * 8 = 16 * (len / 16) := by omega
  have h2 : len - len / 16 * 16 = len % 16 := by omega
  rw [ShortHash_eq, h1, h2]

theorem shortTail_eq_iff (X Y : List Byte) (r : Nat) (h : Nat × Nat) (hr : r ≤ 15)
    (hh : h.1 < W64 ∧ h.2 < W64) :
    shortTail X r h = shortTail Y r h ↔ ∀ j, j < r → byteAt X j = byteAt Y j :=
  ⟨shortTail_inj_data X Y r hr h hh, shortTail_eq_of_bytes X Y r h hr⟩

theorem ShortHash_tail_iff (M1 M2 : List Byte) (len s1 s2 : Nat)
    (hc : ∀ i, i < 16 * (len / 16) → byteAt M1 i = byteAt M2 i) :
    ShortHash M1 len s1 s2 = ShortHash M2 len s1 s2 ↔
      ∀ j, j < len % 16 → byteAt M1 (16 * (len / 16) + j) = byteAt M2 (16 * (len / 16) + j) := by
  constructor
  · intro e j hj
    exact ShortHash_inj_chunk M1 M2 len s1 s2 (len / 16)
      (fun i hi hne => hc i (by omega)) e _ (by omega)
  · intro hb
    rw [ShortHash_eq_tail, ShortHash_eq_tail,
      shortLoop_eq_of_bytes (len / 16) M1 M2 _ hc,
      shortTail_eq_of_bytes (M1.drop (16 * (len / 16))) (M2.drop (16 * (len / 16))) (len % 16) _
        (by omega) (fun j hj => by rw [byteAt_drop, byteAt_drop]; exact hb j hj)]

/-- C21 (ShortHash tail dispatch): `ShortHash` runs the tail switch on the remainder
`r = len mod 16`, at the bytes after the `len / 16` complete chunks, on the state the chunk
loop leaves.  For every `r` in `0..15` the tail case folds in exactly the `r` leftover
bytes: on a 64-bit state, two tails give the same result exactly when they agree at tail
offsets `0 .. r-1`, so each of these bytes enters the result and no other byte does; the
case for `r + 1` pulls in one more byte than the case for `r`: tails that agree below
offset `r` and differ at offset `r` give the same result in case `r` and different results
in case `r + 1`.  For the digest: messages that agree on the complete chunks have the same
digest exactly when they agree on the `r` leftover bytes; no byte at offset `>= len` is
read, so the digest depends on the first `len` bytes only.  The offsets read by the tail
case for `r` are `0 .. r-1`, those of the case for `r + 1` are those of the case for `r`
and offset `r`, and over the whole call exactly the message offsets below `len` are
read. -/
theorem C21_ShortHash_tail (M1 M2 : List Byte) (len s1 s2 : Nat)
    (h : M1.take len = M2.take len) :
    ShortHash M1 len s1 s2 = ShortHash M2 len s1 s2 ∧
    (∀ o, o ∈ shortTail_reads (len % 16) ↔ o < len % 16) ∧
    (∀ r o, r < 15 → (o ∈ shortTail_reads (r + 1) ↔ (o ∈ shortTail_reads r ∨ o = r))) ∧
    (∀ r, r < 15 → (shortTail_reads (r + 1)).length = (shortTail_reads r).length + 1) ∧
    (∀ o, o ∈ ShortHash_reads len ↔ o < len) ∧
    ShortHash M1 len s1 s2
      = (rot64 (shortTail (M1.drop (16 * (len / 16))) (len % 16)
            (shortLoop (len / 16) M1 (shortInit s1 s2))).1 32 * m2 % 2 ^ 64,
         rot64 (shortTail (M1.drop (16 * (len / 16))) (len % 16)
            (shortLoop (len / 16) M1 (shortInit s1 s2))).2 32 * m1 % 2 ^ 64) ∧
    (∀ (X Y : List Byte) (r : Nat) (st : Nat × Nat), r ≤ 15 → st.1 < 2 ^ 64 → st.2 < 2 ^ 64 →
      (shortTail X r st = shortTail Y r st ↔ ∀ j, j < r → byteAt X j = byteAt Y j)) ∧
    (∀ (X Y : List Byte) (r : Nat) (st : Nat × Nat), r < 15 → st.1 < 2 ^ 64 → st.2 < 2 ^ 64 →
      (∀ j, j < r → byteAt X j = byteAt Y j) → byteAt X r ≠ byteAt Y r →
      shortTail X r st = shortTail Y r st ∧ shortTail X (r + 1) st ≠ shortTail Y (r + 1) st) ∧
    (∀ (N1 N2 : List Byte) (n a b : Nat),
      (∀ i, i < 16 * (n / 16) → byteAt N1 i = byteAt N2 i) →
      (ShortHash N1 n a b = ShortHash N2 n a b ↔
        ∀ j, j < n % 16 → byteAt N1 (16 * (n / 16) + j) = byteAt N2 (16 * (n / 16) + j))) := by
  refine ⟨ShortHash_eq_of_take M1 M2 len s1 s2 h, ?_, ?_, ?_, ShortHash_reads_mem len,
    ShortHash_eq_tail M1 len s1 s2, ?_, ?_, ?_⟩
  · intro o
    exact shortTail_reads_mem _ (by omega) o
  · intro r o hr
    rw [shortTail_reads_mem _ (by omega), shortTail_reads_mem _ (by omega)]
    omega
  · intro r hr
    interval_cases r <;> rfl
  · intro X Y r st hr h1 h2
    exact shortTail_eq_iff X Y r st hr ⟨h1, h2⟩
  · intro X Y r st hr h1 h2 hlo hne
    refine ⟨(shortTail_eq_iff X Y r st (by omega) ⟨h1, h2⟩).2 hlo, ?_⟩
    intro e
    exact hne ((shortTail_eq_iff X Y (r + 1) st (by omega) ⟨h1, h2⟩).1 e r (by omega))
  · intro N1 N2 n a b hc
    exact ShortHash_tail_iff N1 N2 n a b hc

/-- Witness for C21: two 21-byte prefixes that agree, followed by different bytes; and a
five-byte tail whose result differs when its byte at offset 4 does. -/
theorem C21_ShortHash_tail_witness :
    (List.replicate 21 (7 : Byte) ++ [1, 2, 3]).take 21
      = (List.replicate 21 (7 : Byte) ++ [9]).take 21 ∧
    ShortHash (List.replicate 21 7 ++ [1, 2, 3]) 21 1 2
      = ShortHash (List.replicate 21 7 ++ [9]) 21 1 2 ∧
    shortTail [1, 2, 3, 4, 5] 5 (1, 2) ≠ shortTail [1, 2, 3, 4, 6] 5 (1, 2) :=
  ⟨by decide, (C21_ShortHash_tail _ _ 21 1 2 (by decide)).1,
   ((C21_ShortHash_tail (List.replicate 21 7 ++ [1, 2, 3]) (List.replicate 21 7 ++ [9])
      21 1 2 (by decide)).2.2.2.2.2.2.2.1 [1, 2, 3, 4, 5] [1, 2, 3, 4, 6] 4 (1, 2)
      (by decide) (by decide) (by decide) (by decide) (by decide)).2⟩

end SpookyAlpha

namespace MixCipher

/-- C26 (unmix is the reverse of mix): refuted on the block `(1, 0, 0, 0)`. Decrypting the
encryption of that block gives `(12590935, 1015817398, 1316016330, 3775956245)`, and
encrypting its decryption gives `(611252123, 1033101358, 1744486666, 1934592079)`; neither
is the block itself. -/
theorem C26_unmix_not_reverse :
    mix ⟨1, 0, 0, 0⟩ = ⟨9470218, 1223722767, 1232117496, 3882060671⟩ ∧
    unmix ⟨1, 0, 0, 0⟩ = ⟨3820992140, 528530432, 4294902781, 236988089⟩ ∧
    unmix (mix ⟨1, 0, 0, 0⟩) = ⟨12590935, 1015817398, 1316016330, 3775956245⟩ ∧
    mix (unmix ⟨1, 0, 0, 0⟩) = ⟨611252123, 1033101358, 1744486666, 1934592079⟩ ∧
    unmix (mix ⟨1, 0, 0, 0⟩) ≠ ⟨1, 0, 0, 0⟩ ∧
    mix (unmix ⟨1, 0, 0, 0⟩) ≠ ⟨1, 0, 0, 0⟩ := by
  decide

end MixCipher

namespace Checksum

open SpookyAlpha (Byte byteAt)

theorem read32_eq_bytes4 (k : List Byte) (i : Nat) : read32 k i = bytes4 k i := by
  simp only [read32, bytes4, Nat.shiftLeft_eq]

theorem hash2Block_eq (k : List Byte) (s : State) : hash2Block k s = hashBlock k s := by
  simp only [hash2Block, hashBlock, read32_eq_bytes4]

theorem hash2Loop_eq (n : Nat) (k : List Byte) (s : State) :
    hash2Loop n k s = hashLoop n k s := by
  induction n generalizing k s with
  | zero => rfl
  | succ m ih => simp only [hash2Loop, hashLoop, hash2Block_eq, ih]

/-- C28 (`hash2` is identical to `hash` on little-endian machines): for every key, every
length and every 8-word state, with `ub4` of 32 bits and `*(ub4 *)(k+i)` a little-endian
read of four bytes, `hash2` leaves the same final state as `hash`. -/
theorem C28_hash2_eq_hash (k : List Byte) (len : Nat) (state : State) :
    hash2 k len state = hash k len state := by
  simp only [hash2, hash, hash2Loop_eq]

end Checksum

namespace Zorba

open SpookyAlpha (Byte W64 byteAt read64 memcpy memset)

theorem midhash_error_iff (message : List Byte) (mlen : Nat) (key : List Byte) (klen : Nat) :
    (∃ e, (midhash message mlen key klen).2 = .error e) ↔ 16 < klen := by
  unfold midhash
  by_cases h : klen > 16
  · simp only [if_pos h]
    exact ⟨fun _ => h, fun _ => ⟨keyTooLong, rfl⟩⟩
  · simp only [if_neg h]
    constructor
    · rintro ⟨e, he⟩
      cases he
    · intro h2
      exact absurd h2 h

theorem midhash_frame (message : List Byte) (mlen : Nat) (key : List Byte) (klen : Nat)
    (h : 16 < klen) : (midhash message mlen key klen).1 = message := by
  unfold midhash
  simp only [if_pos h]

theorem final_error_iff (z : zorba) (key : List Byte) (klen : Nat)
    (hz : z.messagelen + klen < W64) :
    (∃ e, (final z key klen).2 = .error e) ↔ 16 < klen := by
  unfold final
  rw [Nat.mod_eq_of_lt hz]
  by_cases h1 : z.messagelen + klen ≤ 15
  · simp only [if_pos h1]
    constructor
    · rintro ⟨e, he⟩
      cases he
    · intro h2
      omega
  · simp only [if_neg h1]
    by_cases h2 : z.messagelen + klen ≤ LARGE
    · simp only [if_pos h2]
      exact midhash_error_iff z.data z.datalen key klen
    · simp only [if_neg h2]
      by_cases h : klen > 16
      · simp only [if_pos h]
        exact ⟨fun _ => h, fun _ => ⟨keyTooLong, rfl⟩⟩
      · simp only [if_neg h]
        constructor
        · rintro ⟨e, he⟩
          cases he
        · intro h3
          exact absurd h3 h

theorem final_frame (z : zorba) (key : List Byte) (klen : Nat)
    (hz : z.messagelen + klen < W64) (h : 16 < klen) : (final z key klen).1 = z := by
  unfold final
  rw [Nat.mod_eq_of_lt hz]
  have h1 : ¬ z.messagelen + klen ≤ 15 := by omega
  simp only [if_neg h1]
  by_cases h2 : z.messagelen + klen ≤ LARGE
  · simp only [if_pos h2, midhash_frame z.data z.datalen key klen h]
  · simp only [if_neg h2]
    rw [if_pos h]

theorem update_messagelen (z : zorba) (data : List Byte) (len addr : Nat) :
    (update z data len addr).messagelen = (z.messagelen + len) % W64 := by
  unfold update
  lift_lets
  intros
  split_ifs <;> rfl

theorem keyhash_error_iff (message : List Byte) (mlen : Nat) (key : List Byte) (klen : Nat)
    (addr : Nat) (buf0 : List Byte) (z0 : zorba) (hm : mlen + klen < W64) :
    (∃ e, keyhash message mlen key klen addr buf0 z0 = .error e) ↔ 16 < klen := by
  unfold keyhash
  rw [Nat.mod_eq_of_lt hm]
  by_cases h1 : mlen + klen ≤ 15
  · simp only [if_pos h1]
    constructor
    · rintro ⟨e, he⟩
      cases he
    · intro h2
      omega
  · simp only [if_neg h1]
    by_cases h2 : mlen ≤ LARGE
    · simp only [if_pos h2]
      exact midhash_error_iff _ mlen key klen
    · simp only [if_neg h2]
      have hml : (update (init z0) message mlen addr).messagelen = mlen := by
        rw [update_messagelen]
        have : (init z0).messagelen = 0 := rfl
        rw [this, Nat.zero_add]
        exact Nat.mod_eq_of_lt (by omega)
      apply final_error_iff
      rw [hml]
      exact hm

/-- C22 (key-length limit of the keyed hash): provided the lengths do not wrap around
`2^64`, `final(z, key, klen)` ends in the error of `exit(1)` exactly when `klen > 16`, and
so does `keyhash(message, mlen, key, klen)`; and `final` fails leaving the state `*z`
as it was exactly when `klen > 16`, so the check comes before every write to `z`. -/
theorem C22_key_length_limit (z : zorba) (message key : List Byte) (mlen klen addr : Nat)
    (buf0 : List Byte) (z0 : zorba)
    (hz : z.messagelen + klen < W64) (hm : mlen + klen < W64) :
    ((∃ e, (final z key klen).2 = .error e) ↔ 16 < klen) ∧
    ((∃ e, keyhash message mlen key klen addr buf0 z0 = .error e) ↔ 16 < klen) ∧
    (((∃ e, (final z key klen).2 = .error e) ∧ (final z key klen).1 = z) ↔ 16 < klen) := by
  refine ⟨final_error_iff z key klen hz, keyhash_error_iff message mlen key klen addr buf0 z0 hm,
    ?_⟩
  constructor
  · rintro ⟨he, _⟩
    exact (final_error_iff z key klen hz).1 he
  · intro h
    exact ⟨(final_error_iff z key klen hz).2 h, final_frame z key klen hz h⟩

theorem C22_key_length_limit_witness :
    (zeroZorba.messagelen + 17 < W64 ∧ 20 + 17 < W64) ∧
    (((∃ e, (final zeroZorba (List.replicate 17 1) 17).2 = .error e) ↔ 16 < 17) ∧
     ((∃ e, keyhash (List.replicate 20 0) 20 (List.replicate 17 1) 17 0
        (List.replicate 768 0) zeroZorba = .error e) ↔ 16 < 17) ∧
     (((∃ e, (final zeroZorba (List.replicate 17 1) 17).2 = .error e) ∧
        (final zeroZorba (List.replicate 17 1) 17).1 = zeroZorba) ↔ 16 < 17)) :=
  ⟨⟨by decide, by decide⟩,
   C22_key_length_limit zeroZorba (List.replicate 20 0) (List.replicate 17 1) 20 17 0
     (List.replicate 768 0) zeroZorba (by decide) (by decide)⟩

/-- C23 (the three interfaces produce the same values): refuted on a 16-byte message of
zeros with no key.  `hash` returns a value that depends on what its uninitialised local
buffer held: `(3956738902673211927, 8596415606500140226)` when the buffer held bytes
`0xFF`, while `init; update; final` on a zeroed structure, and `hash` and `keyhash` over a
zeroed buffer, return `(6569712067399274695, 4820536392639751122)`. -/
theorem C23_interfaces_differ :
    hash (List.replicate 16 0) 16 0 (List.replicate 768 0xFF) zeroZorba
      = .ok ⟨3956738902673211927, 8596415606500140226⟩ ∧
    (final (update (init zeroZorba) (List.replicate 16 0) 16 0) [] 0).2
      = .ok ⟨6569712067399274695, 4820536392639751122⟩ ∧
    hash (List.replicate 16 0) 16 0 (List.replicate 768 0) zeroZorba
      = .ok ⟨6569712067399274695, 4820536392639751122⟩ ∧
    keyhash (List.replicate 16 0) 16 [] 0 0 (List.replicate 768 0xFF) zeroZorba
      = .ok ⟨3956738902673211927, 8596415606500140226⟩ ∧
    hash (List.replicate 16 0) 16 0 (List.replicate 768 0xFF) zeroZorba
      ≠ (final (update (init zeroZorba) (List.replicate 16 0) 16 0) [] 0).2 := by
  decide!

theorem final_whole_768 :
    (final (update (init zeroZorba) (List.replicate 768 0) 768 0) [] 0).2
      = .ok ⟨17876233199208904396, 543567655347682363⟩ := by
  decide!

theorem final_pieces_768 :
    (final (update (update (init zeroZorba) (List.replicate 1 0) 1 0)
        (List.replicate 767 0) 767 1) [] 0).2
      = .ok ⟨4589126360967030768, 11002029033482872842⟩ := by
  decide!

theorem datalen_pieces_768 :
    (update (update (init zeroZorba) (List.replicate 1 0) 1 0)
        (List.replicate 767 0) 767 1).datalen = 1 ∧
    (update (init zeroZorba) (List.replicate 768 0) 768 0).datalen = 0 := by
  decide!

theorem churnCached_ne_churnBuffered :
    (churnCached (List.replicate 768 1) (loadRegs (init zeroZorba))).s
      ≠ (churnBuffered (List.replicate 768 1) (loadRegs (init zeroZorba))).s := by
  decide!

/-- C24 (hashing a message in pieces): refuted on the message of 768 zero bytes with no
key.  Hashed whole, `final` returns `(17876233199208904396, 543567655347682363)`; hashed as
a piece of 1 byte and a piece of 767 bytes (at the next address) it returns
`(4589126360967030768, 11002029033482872842)`, the second `update` leaving `datalen` at 1
although no byte is left over.  Moreover the twelve `CHURN4` lines for a cached block and
those of the main loop give different states on the same block. -/
theorem C24_pieces_differ :
    (final (update (init zeroZorba) (List.replicate 768 0) 768 0) [] 0).2
      = .ok ⟨17876233199208904396, 543567655347682363⟩ ∧
    (final (update (update (init zeroZorba) (List.replicate 1 0) 1 0)
        (List.replicate 767 0) 767 1) [] 0).2
      = .ok ⟨4589126360967030768, 11002029033482872842⟩ ∧
    (final (update (update (init zeroZorba) (List.replicate 1 0) 1 0)
        (List.replicate 767 0) 767 1) [] 0).2
      ≠ (final (update (init zeroZorba) (List.replicate 768 0) 768 0) [] 0).2 ∧
    (update (update (init zeroZorba) (List.replicate 1 0) 1 0)
        (List.replicate 767 0) 767 1).datalen = 1 ∧
    (update (init zeroZorba) (List.replicate 768 0) 768 0).datalen = 0 ∧
    (churnCached (List.replicate 768 1) (loadRegs (init zeroZorba))).s
      ≠ (churnBuffered (List.replicate 768 1) (loadRegs (init zeroZorba))).s := by
  refine ⟨final_whole_768, final_pieces_768, ?_, datalen_pieces_768.1, datalen_pieces_768.2,
    churnCached_ne_churnBuffered⟩
  rw [final_whole_768, final_pieces_768]
  decide

/-- C25 (final does not disturb later finals): refuted on the state reached by `init` and
one `update` with 20 zero bytes on a zeroed structure.  Called directly, `final` with a key
of 8 zero bytes returns `(701313563436595820, 12360160847081660642)`; called after two
`final` calls with a key of 16 bytes `0xFF`, it returns
`(13778697315146154057, 2317266216069904237)`. -/
theorem C25_final_disturbs_later_final :
    (final (update (init zeroZorba) (List.replicate 20 0) 20 0) (List.replicate 8 0) 8).2
      = .ok ⟨701313563436595820, 12360160847081660642⟩ ∧
    (final (final (final (update (init zeroZorba) (List.replicate 20 0) 20 0)
        (List.replicate 16 0xFF) 16).1 (List.replicate 16 0xFF) 16).1 (List.replicate 8 0) 8).2
      = .ok ⟨13778697315146154057, 2317266216069904237⟩ ∧
    (final (final (final (update (init zeroZorba) (List.replicate 20 0) 20 0)
        (List.replicate 16 0xFF) 16).1 (List.replicate 16 0xFF) 16).1 (List.replicate 8 0) 8).2
      ≠ (final (update (init zeroZorba) (List.replicate 20 0) 20 0) (List.replicate 8 0) 8).2 := by
  decide!

end Zorba

namespace Gauss

theorem matOf_apply (B : Nat → Nat → Bool) (row col : Nat) (r : Fin row) (c : Fin col) :
    matOf B row col r c = if B r.val c.val then 1 else 0 := rfl

theorem rank_matOf_congr (B B' : Nat → Nat → Bool) (row col : Nat)
    (h : ∀ r, r < row → ∀ c, c < col → B' r c = B r c) :
    (matOf B' row col).rank = (matOf B row col).rank := by
  have : matOf B' row col = matOf B row col := by
    funext r c
    rw [matOf_apply, matOf_apply, h r.val r.2 c.val c.2]
  rw [this]

theorem rank_swap (B B' : Nat → Nat → Bool) (row col i j : Nat) (hi : i < row) (hj : j < row)
    (h : ∀ r, r < row → ∀ c, c < col →
      B' r c = if r = i then B j c else if r = j then B i c else B r c) :
    (matOf B' row col).rank = (matOf B row col).rank := by
  have hcomp : (matOf B' row col : Fin row → Fin col → ZMod 2)
      = (matOf B row col : Fin row → Fin col → ZMod 2) ∘ (Equiv.swap ⟨i, hi⟩ ⟨j, hj⟩) := by
    funext r c
    rw [Function.comp_apply, matOf_apply, matOf_apply, h r.val r.2 c.val c.2]
    by_cases hri : r = ⟨i, hi⟩
    · subst hri
      rw [Equiv.swap_apply_left, if_pos rfl]
    · have hri' : r.val ≠ i := fun e => hri (Fin.ext e)
      rw [if_neg hri']
      by_cases hrj : r = ⟨j, hj⟩
      · subst hrj
        rw [Equiv.swap_apply_right, if_pos rfl]
      · have hrj' : r.val ≠ j := fun e => hrj (Fin.ext e)
        rw [if_neg hrj', Equiv.swap_apply_of_ne_of_ne hri hrj]
  rw [Matrix.rank_eq_finrank_span_row, Matrix.rank_eq_finrank_span_row, hcomp,
    (Equiv.swap (⟨i, hi⟩ : Fin row) ⟨j, hj⟩).surjective.range_comp]

theorem bool_xor_zmod (a b : Bool) :
    (if (a ^^ b) then (1 : ZMod 2) else 0) = (if a then 1 else 0) + (if b then 1 else 0) := by
  cases a <;> cases b <;> decide

theorem rank_xor (B B' : Nat → Nat → Bool) (row col i j : Nat) (hi : i < row) (hj : j < row)
    (hij : i ≠ j)
    (h : ∀ r, r < row → ∀ c, c < col →
      B' r c = if r = j then (B j c ^^ B i c) else B r c) :
    (matOf B' row col).rank = (matOf B row col).rank := by
  have hj' : ∀ r : Fin row, r.val ≠ j → matOf B' row col r = matOf B row col r := by
    intro r hr
    funext c
    rw [matOf_apply, matOf_apply, h r.val r.2 c.val c.2, if_neg hr]
  have hjj : matOf B' row col ⟨j, hj⟩ = matOf B row col ⟨j, hj⟩ + matOf B row col ⟨i, hi⟩ := by
    funext c
    rw [Pi.add_apply, matOf_apply, matOf_apply, matOf_apply, h j hj c.val c.2, if_pos rfl,
      bool_xor_zmod]
  rw [Matrix.rank_eq_finrank_span_row, Matrix.rank_eq_finrank_span_row]
  have hspan : Submodule.span (ZMod 2) (Set.range (matOf B' row col))
      = Submodule.span (ZMod 2) (Set.range (matOf B row col)) := ?_
  · rw [hspan]
  apply le_antisymm
  · rw [Submodule.span_le]
    rintro _ ⟨r, rfl⟩
    by_cases hr : r.val = j
    · have : r = ⟨j, hj⟩ := Fin.ext hr
      rw [this, hjj]
      exact Submodule.add_mem _ (Submodule.subset_span ⟨_, rfl⟩) (Submodule.subset_span ⟨_, rfl⟩)
    · rw [hj' r hr]
      exact Submodule.subset_span ⟨_, rfl⟩
  · rw [Submodule.span_le]
    rintro _ ⟨r, rfl⟩
    by_cases hr : r.val = j
    · have hrj : r = ⟨j, hj⟩ := Fin.ext hr
      have e : matOf B row col ⟨j, hj⟩
          = matOf B' row col ⟨j, hj⟩ - matOf B' row col ⟨i, hi⟩ := by
        rw [hjj, hj' ⟨i, hi⟩ hij, add_sub_cancel_right]
      rw [hrj, e]
      exact Submodule.sub_mem _ (Submodule.subset_span ⟨_, rfl⟩) (Submodule.subset_span ⟨_, rfl⟩)
    · rw [← hj' r hr]
      exact Submodule.subset_span ⟨_, rfl⟩

theorem rank_echelon (B : Nat → Nat → Bool) (row col i : Nat) (hi : i ≤ row) (p : Nat → Nat)
    (hp : ∀ k, k < i → p k < col ∧ B k (p k) = true ∧
      ∀ k', k < k' → k' < row → B k' (p k) = false)
    (hz : ∀ k, i ≤ k → k < row → ∀ c, c < col → B k c = false) :
    (matOf B row col).rank = i := by
  let v : Fin i → (Fin col → ZMod 2) := fun k => matOf B row col ⟨k.val, lt_of_lt_of_le k.2 hi⟩
  have hv : LinearIndependent (ZMod 2) v := by
    rw [Fintype.linearIndependent_iff]
    intro g hsum
    have key : ∀ n (hn : n < i), g ⟨n, hn⟩ = 0 := by
      intro n
      induction n using Nat.strong_induction_on with
      | _ n ih =>
        intro hn
        have hc := congrFun hsum ⟨p n, (hp n hn).1⟩
        rw [Finset.sum_apply, Finset.sum_eq_single (⟨n, hn⟩ : Fin i)] at hc
        · have h1 : v ⟨n, hn⟩ ⟨p n, (hp n hn).1⟩ = 1 := by
            show matOf B row col _ _ = 1
            rw [matOf_apply]
            simp only [(hp n hn).2.1, if_true]
          rw [Pi.smul_apply, h1, smul_eq_mul, mul_one] at hc
          exact hc
        · intro b _ hb
          rw [Pi.smul_apply, smul_eq_mul]
          rcases Nat.lt_trichotomy b.val n with hlt | heq | hgt
          · have : g b = 0 := ih b.val hlt b.2
            rw [this, zero_mul]
          · exact absurd (Fin.ext heq) hb
          · have h0 : v b ⟨p n, (hp n hn).1⟩ = 0 := by
              show matOf B row col _ _ = 0
              rw [matOf_apply]
              simp only [(hp n hn).2.2 b.val hgt (lt_of_lt_of_le b.2 hi)]
              rfl
            rw [h0, mul_zero]
        · intro h
          exact absurd (Finset.mem_univ _) h
    intro k
    exact key k.val k.2
  have hspan : Submodule.span (ZMod 2) (Set.range (matOf B row col))
      = Submodule.span (ZMod 2) (Set.range v) := by
    apply le_antisymm
    · rw [Submodule.span_le]
      rintro _ ⟨r, rfl⟩
      by_cases hr : r.val < i
      · exact Submodule.subset_span ⟨⟨r.val, hr⟩, rfl⟩
      · have : matOf B row col r = 0 := by
          funext c
          rw [matOf_apply, hz r.val (Nat.le_of_not_lt hr) r.2 c.val c.2]
          rfl
        rw [this]
        exact Submodule.zero_mem _
    · rw [Submodule.span_le]
      rintro _ ⟨k, rfl⟩
      exact Submodule.subset_span ⟨_, rfl⟩
  rw [Matrix.rank_eq_finrank_span_row, hspan, finrank_span_eq_card hv, Fintype.card_fin]

theorem and_one_shiftLeft (a k : Nat) : (a &&& (1 <<< k) != 0) = a.testBit k := by
  rw [Nat.one_shiftLeft, Nat.and_two_pow]
  cases a.testBit k
  · simp
  · simp

theorem bitvtst_eq (x : List Nat) (c : Nat) :
    bitvtst x c = (x.getD (c / 32) 0).testBit (c % 32) := by
  unfold bitvtst
  rw [and_one_shiftLeft]
  have h1 : c >>> 5 = c / 32 := by rw [Nat.shiftRight_eq_div_pow]
  have h2 : c &&& 31 = c % 32 := Nat.and_pow_two_sub_one_eq_mod c 5
  rw [h1, h2]

theorem length_xor_fold (y z : List Nat) (n : Nat) (x : List Nat) :
    ((List.range n).foldl (fun x i => x.set i (y.getD i 0 ^^^ z.getD i 0)) x).length
      = x.length := by
  induction n with
  | zero => rfl
  | succ n ih => rw [List.range_succ, List.foldl_append, List.foldl_cons, List.foldl_nil,
      List.length_set, ih]

theorem getD_xor_fold (y z : List Nat) (n : Nat) (x : List Nat) (w : Nat) :
    ((List.range n).foldl (fun x i => x.set i (y.getD i 0 ^^^ z.getD i 0)) x).getD w 0
      = if w < n ∧ w < x.length then y.getD w 0 ^^^ z.getD w 0 else x.getD w 0 := by
  induction n with
  | zero => simp
  | succ n ih =>
    rw [List.range_succ, List.foldl_append, List.foldl_cons, List.foldl_nil,
      List.getD_eq_getElem?_getD, List.getElem?_set, length_xor_fold]
    by_cases hnw : n = w
    · subst hnw
      rw [if_pos rfl]
      by_cases hl : n < x.length
      · rw [if_pos hl, if_pos ⟨Nat.lt_succ_self n, hl⟩]
        rfl
      · rw [if_neg hl, if_neg (fun h => hl h.2)]
        rw [List.getD_eq_getElem?_getD, List.getElem?_eq_none (Nat.le_of_not_lt hl)]
    · rw [if_neg hnw, ← List.getD_eq_getElem?_getD, ih]
      by_cases h1 : w < n ∧ w < x.length
      · rw [if_pos h1, if_pos ⟨Nat.lt_succ_of_lt h1.1, h1.2⟩]
      · rw [if_neg h1, if_neg]
        rintro ⟨h2, h3⟩
        exact h1 ⟨by omega, h3⟩

theorem length_bitvxor (x y z : List Nat) (len : Nat) : (bitvxor x y z len).length = x.length :=
  length_xor_fold y z (MAKEBIT len) x

theorem bitvtst_bitvxor (x z : List Nat) (col c : Nat) (hc : c < col)
    (hx : MAKEBIT col ≤ x.length) :
    bitvtst (bitvxor x x z col) c = (bitvtst x c ^^ bitvtst z c) := by
  rw [bitvtst_eq, bitvtst_eq, bitvtst_eq, ← Nat.testBit_xor]
  unfold bitvxor
  rw [getD_xor_fold, if_pos]
  unfold MAKEBIT at *
  rw [Nat.shiftRight_eq_div_pow] at *
  constructor <;> omega

theorem getD_set_rows (m : List (List Nat)) (j : Nat) (x : List Nat) (r : Nat)
    (hj : j < m.length) :
    (m.set j x).getD r [] = if r = j then x else m.getD r [] := by
  rw [List.getD_eq_getElem?_getD, List.getElem?_set]
  by_cases h : j = r
  · subst h
    rw [if_pos rfl, if_pos hj, if_pos rfl]
    rfl
  · rw [if_neg h, if_neg (fun e => h e.symm), List.getD_eq_getElem?_getD]

theorem getD_swap_rows (m : List (List Nat)) (i j r : Nat) (hi : i < m.length)
    (hj : j < m.length) (hij : i ≠ j) :
    ((m.set i (m.getD j [])).set j (m.getD i [])).getD r []
      = if r = i then m.getD j [] else if r = j then m.getD i [] else m.getD r [] := by
  rw [getD_set_rows _ _ _ _ (by rw [List.length_set]; exact hj), getD_set_rows _ _ _ _ hi]
  by_cases h1 : r = i
  · subst h1
    rw [if_neg hij, if_pos rfl, if_pos rfl]
  · rw [if_neg h1, if_neg h1]

theorem Inv_swap (m0 m : List (List Nat)) (row col i j l : Nat) (h : Inv m0 row col m i l)
    (hij : i < j) (hj : j < row) :
    Inv m0 row col ((m.set i (m.getD j [])).set j (m.getD i [])) i l := by
  have hjl : j < m.length := lt_of_lt_of_le hj h.len
  have hil : i < m.length := lt_trans hij hjl
  have hrow := fun r => getD_swap_rows m i j r hil hjl (Nat.ne_of_lt hij)
  have hbit : ∀ r c, bitOf ((m.set i (m.getD j [])).set j (m.getD i [])) r c
      = if r = i then bitOf m j c else if r = j then bitOf m i c else bitOf m r c := by
    intro r c
    unfold bitOf
    rw [hrow]
    split_ifs <;> rfl
  refine ⟨?_, ?_, ?_, ?_, ?_⟩
  · rw [List.length_set, List.length_set]
    exact h.len
  · intro r hr
    rw [hrow]
    split_ifs
    · exact h.wide j hj
    · exact h.wide i (lt_trans hij hj)
    · exact h.wide r hr
  · rw [← h.rank]
    exact rank_swap _ _ row col i j (lt_trans hij hj) hj (fun r _ c _ => hbit r c)
  · obtain ⟨p, hp⟩ := h.piv
    refine ⟨p, fun k hk => ⟨(hp k hk).1, ?_, ?_⟩⟩
    · rw [hbit, if_neg (by omega), if_neg (by omega)]
      exact (hp k hk).2.1
    · intro k' hk' hk'r
      rw [hbit]
      split_ifs
      · exact (hp k hk).2.2 j (by omega) hj
      · exact (hp k hk).2.2 i (by omega) (by omega)
      · exact (hp k hk).2.2 k' hk' hk'r
  · intro k hk hkr c hc
    rw [hbit]
    split_ifs
    · exact h.low j (by omega) hj c hc
    · exact h.low i (le_refl i) (by omega) c hc
    · exact h.low k hk hkr c hc

theorem bitOf_xor_row (m : List (List Nat)) (row col i j : Nat) (hlen : row ≤ m.length)
    (hw : MAKEBIT col ≤ (m.getD j []).length) (hj : j < row) (r c : Nat) (hc : c < col) :
    bitOf (m.set j (bitvxor (m.getD j []) (m.getD j []) (m.getD i []) col)) r c
      = if r = j then (bitOf m j c ^^ bitOf m i c) else bitOf m r c := by
  unfold bitOf
  rw [getD_set_rows _ _ _ _ (lt_of_lt_of_le hj hlen)]
  by_cases h : r = j
  · rw [if_pos h, if_pos h, bitvtst_bitvxor _ _ _ _ hc hw]
  · rw [if_neg h, if_neg h]

theorem Inv_xor (m0 m : List (List Nat)) (row col i j l : Nat) (h : Inv m0 row col m i l)
    (hij : i < j) (hj : j < row) (hl : l ≤ col) :
    Inv m0 row col (m.set j (bitvxor (m.getD j []) (m.getD j []) (m.getD i []) col)) i l := by
  have hbit := bitOf_xor_row m row col i j h.len (h.wide j hj) hj
  refine ⟨?_, ?_, ?_, ?_, ?_⟩
  · rw [List.length_set]
    exact h.len
  · intro r hr
    rw [getD_set_rows _ _ _ _ (lt_of_lt_of_le hj h.len)]
    split_ifs
    · rw [length_bitvxor]
      exact h.wide j hj
    · exact h.wide r hr
  · rw [← h.rank]
    exact rank_xor _ _ row col i j (lt_trans hij hj) hj (Nat.ne_of_lt hij)
      (fun r _ c hc => hbit r c hc)
  · obtain ⟨p, hp⟩ := h.piv
    refine ⟨p, fun k hk => ⟨(hp k hk).1, ?_, ?_⟩⟩
    · rw [hbit _ _ (hp k hk).1, if_neg (by omega)]
      exact (hp k hk).2.1
    · intro k' hk' hk'r
      rw [hbit _ _ (hp k hk).1]
      split_ifs
      · rw [(hp k hk).2.2 j (by omega) hj, (hp k hk).2.2 i (by omega) (by omega)]
        rfl
      · exact (hp k hk).2.2 k' hk' hk'r
  · intro k hk hkr c hc
    rw [hbit _ _ (by omega)]
    split_ifs
    · rw [h.low j (by omega) hj c hc, h.low i (le_refl i) (by omega) c hc]
      rfl
    · exact h.low k hk hkr c hc

theorem Inv_incr (m0 m : List (List Nat)) (row col i l : Nat) (h : Inv m0 row col m i l)
    (hz : ∀ k, i ≤ k → k < row → bitOf m k l = false) :
    Inv m0 row col m i (l + 1) := by
  refine ⟨h.len, h.wide, h.rank, h.piv, ?_⟩
  intro k hk hkr c hc
  by_cases hcl : c = l
  · rw [hcl]
    exact hz k hk hkr
  · exact h.low k hk hkr c (by omega)

theorem Inv_advance (m0 m : List (List Nat)) (row col i l : Nat) (h : Inv m0 row col m i l)
    (hl : l < col) (hb : bitOf m i l = true)
    (hz : ∀ k', i < k' → k' < row → bitOf m k' l = false) :
    Inv m0 row col m (i + 1) l := by
  refine ⟨h.len, h.wide, h.rank, ?_, ?_⟩
  · obtain ⟨p, hp⟩ := h.piv
    refine ⟨fun k => if k = i then l else p k, fun k hk => ?_⟩
    by_cases hki : k = i
    · subst hki
      simp only [if_true]
      exact ⟨hl, hb, hz⟩
    · simp only [if_neg hki]
      exact hp k (by omega)
  · intro k hk hkr c hc
    exact h.low k (by omega) hkr c hc

theorem Inv_rank (m0 m : List (List Nat)) (row col i l : Nat) (h : Inv m0 row col m i l)
    (hi : i ≤ row) (hz : i = row ∨ col ≤ l) : (toMatrix m0 row col).rank = i := by
  rw [← h.rank]
  obtain ⟨p, hp⟩ := h.piv
  apply rank_echelon (bitOf m) row col i hi p hp
  intro k hk hkr c hc
  rcases hz with hz | hz
  · omega
  · exact h.low k hk hkr c (by omega)

theorem findRow_spec (m : List (List Nat)) (l n j : Nat) :
    j ≤ findRow m l n j ∧ findRow m l n j ≤ j + n ∧
    (findRow m l n j < j + n → bitOf m (findRow m l n j) l = true) ∧
    ∀ k, j ≤ k → k < findRow m l n j → bitOf m k l = false := by
  induction n generalizing j with
  | zero =>
    refine ⟨le_refl _, le_refl _, ?_, ?_⟩
    · intro h
      exact absurd h (lt_irrefl _)
    · intro k h1 h2
      simp only [findRow] at h2
      omega
  | succ n ih =>
    unfold findRow
    by_cases hb : bitvtst (m.getD j []) l = true
    · rw [if_pos hb]
      refine ⟨le_refl _, by omega, fun _ => hb, ?_⟩
      intro k h1 h2
      omega
    · rw [if_neg hb]
      obtain ⟨h1, h2, h3, h4⟩ := ih (j + 1)
      refine ⟨by omega, by omega, ?_, ?_⟩
      · intro h
        exact h3 (by omega)
      · intro k hk1 hk2
        by_cases hkj : k = j
        · rw [hkj]
          unfold bitOf
          exact Bool.eq_false_iff.mpr hb
        · exact h4 k (by omega) hk2

theorem eliminate_spec (m0 : List (List Nat)) (row col i l : Nat) (hl : l < col) (n : Nat) :
    ∀ (j : Nat) (m : List (List Nat)), Inv m0 row col m i l → i < j → j + n = row →
      bitOf m i l = true → (∀ k, i < k → k < j → bitOf m k l = false) →
      Inv m0 row col (eliminate i l col n j m) i l ∧
      bitOf (eliminate i l col n j m) i l = true ∧
      ∀ k, i < k → k < row → bitOf (eliminate i l col n j m) k l = false := by
  induction n with
  | zero =>
    intro j m h hij hjn hb hz
    refine ⟨h, hb, ?_⟩
    intro k hk hkr
    exact hz k hk (by omega)
  | succ n ih =>
    intro j m h hij hjn hb hz
    unfold eliminate
    have hj : j < row := by omega
    by_cases hbj : bitvtst (m.getD j []) l = true
    · simp only [if_pos hbj]
      have hbit := bitOf_xor_row m row col i j h.len (h.wide j hj) hj
      apply ih (j + 1) _ (Inv_xor m0 m row col i j l h hij hj (le_of_lt hl)) (by omega) (by omega)
      · rw [hbit i l hl, if_neg (by omega)]
        exact hb
      · intro k hk hkj
        rw [hbit k l hl]
        by_cases hkj' : k = j
        · rw [if_pos hkj', hb]
          have : bitOf m j l = true := hbj
          rw [this]
          rfl
        · rw [if_neg hkj']
          exact hz k hk (by omega)
    · simp only [if_neg hbj]
      apply ih (j + 1) m h (by omega) (by omega) hb
      intro k hk hkj
      by_cases hkj' : k = j
      · rw [hkj']
        exact Bool.eq_false_iff.mpr hbj
      · exact hz k hk (by omega)

theorem findPivot_spec (m0 : List (List Nat)) (row col i : Nat) (hi : i < row) (fuel : Nat) :
    ∀ (m : List (List Nat)) (l : Nat), Inv m0 row col m i l → l < col →
      (col - l + 1 ≤ fuel ∨ (bitOf m i l = true ∧ 1 ≤ fuel)) →
      (∃ m', findPivot row col i fuel m l = some (.returned m' i) ∧
        (toMatrix m0 row col).rank = i) ∨
      (∃ m' l', findPivot row col i fuel m l = some (.pivot m' l') ∧
        Inv m0 row col m' i l' ∧ l' < col ∧ bitOf m' i l' = true) := by
  induction fuel with
  | zero =>
    intro m l _ hl hf
    rcases hf with hf | ⟨_, hf⟩ <;> omega
  | succ f ih =>
    intro m l h hl hf
    unfold findPivot
    by_cases hb : bitvtst (m.getD i []) l = true
    · right
      refine ⟨m, l, ?_, h, hl, hb⟩
      simp only [hb, Bool.not_true, Bool.false_eq_true, if_false]
    · have hb' : bitOf m i l = false := Bool.eq_false_iff.mpr hb
      have hfuel : col - l ≤ f := by
        rcases hf with hf | ⟨hf, _⟩
        · omega
        · rw [hb'] at hf
          exact absurd hf (by decide)
      have hbf : bitvtst (m.getD i []) l = false := hb'
      simp only [hbf, Bool.not_false, if_true]
      obtain ⟨h1, h2, h3, h4⟩ := findRow_spec m l (row - (i + 1)) (i + 1)
      by_cases hj : findRow m l (row - (i + 1)) (i + 1) = row
      · simp only [if_pos hj]
        have hinc : Inv m0 row col m i (l + 1) := by
          apply Inv_incr m0 m row col i l h
          intro k hk hkr
          by_cases hki : k = i
          · rw [hki]
            exact hb'
          · exact h4 k (by omega) (by omega)
        by_cases hlc : l + 1 ≥ col
        · left
          simp only [if_pos hlc]
          exact ⟨m, rfl, Inv_rank m0 m row col i (l + 1) hinc (le_of_lt hi) (Or.inr hlc)⟩
        · simp only [if_neg hlc]
          exact ih m (l + 1) hinc (by omega) (Or.inl (by omega))
      · simp only [if_neg hj]
        have hjr : findRow m l (row - (i + 1)) (i + 1) < row := by omega
        have hbj : bitOf m (findRow m l (row - (i + 1)) (i + 1)) l = true := h3 (by omega)
        have hij : i < findRow m l (row - (i + 1)) (i + 1) := by omega
        apply ih _ l (Inv_swap m0 m row col i _ l h hij hjr) hl
        right
        refine ⟨?_, by omega⟩
        unfold bitOf
        rw [getD_swap_rows m i _ i (lt_of_lt_of_le hi h.len) (lt_of_lt_of_le hjr h.len)
          (Nat.ne_of_lt hij), if_pos rfl]
        exact hbj

theorem gaussLoop_spec (m0 : List (List Nat)) (row col n : Nat) :
    ∀ (i l : Nat) (m : List (List Nat)), Inv m0 row col m i l → i + n = row → l < col →
      ∃ m', gaussLoop row col n i l m = some (m', (toMatrix m0 row col).rank) := by
  induction n with
  | zero =>
    intro i l m h hin _
    refine ⟨m, ?_⟩
    unfold gaussLoop
    rw [Inv_rank m0 m row col i l h (by omega) (Or.inl (by omega))]
    have : i = row := by omega
    rw [this]
  | succ n ih =>
    intro i l m h hin hl
    have hi : i < row := by omega
    unfold gaussLoop
    rcases findPivot_spec m0 row col i hi (col + 1) m l h hl (Or.inl (by omega)) with
      ⟨m', hf, hr⟩ | ⟨m', l', hf, hinv, hl', hb⟩
    · refine ⟨m', ?_⟩
      rw [hf, hr]
    · rw [hf]
      obtain ⟨h1, h2, h3⟩ := eliminate_spec m0 row col i l' hl' (row - (i + 1)) (i + 1) m' hinv
        (by omega) (by omega) hb (fun k hk hk2 => by omega)
      exact ih (i + 1) l' _ (Inv_advance m0 _ row col i l' h1 hl' h2 h3) (by omega) hl'

theorem Inv_start (m : List (List Nat)) (row col : Nat) (hrow : row ≤ m.length)
    (hw : ∀ r, r < row → MAKEBIT col ≤ (m.getD r []).length) : Inv m row col m 0 0 := by
  refine ⟨hrow, hw, rfl, ⟨fun _ => 0, ?_⟩, ?_⟩
  · intro k hk
    exact absurd hk (Nat.not_lt_zero k)
  · intro k _ _ c hc
    exact absurd hc (Nat.not_lt_zero c)

/-- C27 (gauss returns the number of linearly independent equations): for rows `m` of which
the first `row` exist and hold at least `MAKEBIT(col)` words each, and `col >= 1`,
`gauss(m, row, col)` terminates and returns the rank over GF(2) of the `row x col` matrix
whose entry `(i, j)` is `bitvtst(m[i], j)`. -/
theorem C27_gauss_rank (m : List (List Nat)) (row col : Nat) (hcol : 1 ≤ col)
    (hrow : row ≤ m.length) (hw : ∀ r, r < row → MAKEBIT col ≤ (m.getD r []).length) :
    ∃ m', gauss m row col = some (m', (toMatrix m row col).rank) := by
  unfold gauss
  exact gaussLoop_spec m row col row 0 0 m (Inv_start m row col hrow hw) (by omega) (by omega)

/-- Witness for C27: three equations in three terms, the third the sum of the first two. -/
theorem C27_gauss_rank_witness :
    (1 ≤ 3 ∧ 3 ≤ [[5], [3], [6]].length ∧
      ∀ r, r < 3 → MAKEBIT 3 ≤ (([[5], [3], [6]] : List (List Nat)).getD r []).length) ∧
    ∃ m', gauss [[5], [3], [6]] 3 3 = some (m', (toMatrix [[5], [3], [6]] 3 3).rank) :=
  ⟨⟨by decide, by decide, by decide⟩,
   C27_gauss_rank [[5], [3], [6]] 3 3 (by decide) (by decide) (by decide)⟩

end Gauss
